import Mathlib

/-!
Shallow embedding of `crates/multi_buffer2/src/multi_buffer2.rs` (the
multi-source excerpt index).  Pure Rust functions become Lean functions;
the `sum_tree` crate is not part of the sources, so the tree, its cursor
and the `TreeMap` are modelled from the specification (§4.2) as a sorted
list with an explicit position cursor.  Machine integers (`usize`) are
modelled as `Nat`: no arithmetic in this file wraps or overflows, every
operation used is order/min/max comparison.
-/

namespace MultiBuffer2

/-- Comparison on `usize` values (Rust `Ord::cmp` on unsigned integers). -/
def natCmp (a b : Nat) : Ordering :=
  if a < b then .lt else if b < a then .gt else .eq

/-- A filesystem path, modelled as its list of components; Rust `Path`
ordering compares components lexicographically. -/
abbrev PathC := List Nat

/-- Lexicographic comparison of paths (Rust `Ord for Path`). -/
def pathCmp : PathC → PathC → Ordering
  | [], [] => .eq
  | [], _ :: _ => .lt
  | _ :: _, [] => .gt
  | a :: ra, b :: rb => (natCmp a b).then (pathCmp ra rb)

/-- Rust `Ord for Option<Arc<Path>>`: `None` sorts before `Some`;
two present paths compare lexically. -/
def optPathCmp : Option PathC → Option PathC → Ordering
  | none, none => .eq
  | none, some _ => .lt
  | some _, none => .gt
  | some a, some b => pathCmp a b

/-- `BufferId { remote_id: text::BufferId, replica_id: ReplicaId }`
(multi_buffer2.rs lines 14-18). -/
structure BufferId where
  remote_id : Nat
  replica_id : Nat
deriving DecidableEq, Repr

/-- The derived `Ord` on `BufferId`: lexicographic on
`(remote_id, replica_id)`. -/
def BufferId.cmp (a b : BufferId) : Ordering :=
  (natCmp a.remote_id b.remote_id).then (natCmp a.replica_id b.replica_id)

/-- `Range<usize>`; the Rust field `end` is spelled `stop` here because
`end` is a Lean keyword. -/
structure NRange where
  start : Nat
  stop : Nat
deriving DecidableEq, Repr

/-- `Range::<usize>::is_empty()`: true iff `!(start < end)`. -/
def NRange.isEmpty (r : NRange) : Bool := !(r.start < r.stop)

/-- `ExcerptKey { path, buffer_id, range }` (lines 311-316). -/
structure ExcerptKey where
  path : Option PathC
  buffer_id : BufferId
  range : NRange
deriving DecidableEq, Repr

/-- `ExcerptKey::intersects` (lines 318-324): same buffer and the closed
intervals overlap or touch. -/
def ExcerptKey.intersects (a b : ExcerptKey) : Bool :=
  a.buffer_id == b.buffer_id
    && a.range.start ≤ b.range.stop
    && b.range.start ≤ a.range.stop

/-- `Ord for ExcerptKey` (lines 326-334): path, then buffer id, then
`range.start` ascending, then `range.end` DESCENDING (note the swapped
operands on the last comparison in the source). -/
def ExcerptKey.cmp (a b : ExcerptKey) : Ordering :=
  (optPathCmp a.path b.path).then
    ((BufferId.cmp a.buffer_id b.buffer_id).then
      ((natCmp a.range.start b.range.start).then
        (natCmp b.range.stop a.range.stop)))

/-- `ExcerptOffset { path, buffer_id, offset }` (lines 342-347). -/
structure ExcerptOffset where
  path : Option PathC
  buffer_id : BufferId
  offset : Nat
deriving DecidableEq, Repr

/-- `SeekTarget for ExcerptOffset` (lines 349-368): comparison of an
offset against a cursor location `Option<ExcerptKey>`. -/
def ExcerptOffset.seekCmp (t : ExcerptOffset) (loc : Option ExcerptKey) : Ordering :=
  match loc with
  | some k =>
    (optPathCmp t.path k.path).then
      ((BufferId.cmp t.buffer_id k.buffer_id).then
        (if (natCmp t.offset k.range.start) = .lt then .lt
         else if (natCmp t.offset k.range.stop) = .gt then .gt
         else .eq))
  | none => .gt

/-- Modelled from the spec: the external Source Buffer snapshot (§3, §6) —
the `language`/`text` crates are not part of the sources.  It carries the
textual content, a version, and an optional associated path
(`file().full_path()`). -/
structure BufferSnapshot where
  text : List Char
  version : Nat
  path : Option PathC
deriving DecidableEq, Repr

/-- Modelled from the spec: `BufferSnapshot::text_for_range` — the content
restricted to a local offset range. -/
def BufferSnapshot.textFor (s : BufferSnapshot) (r : NRange) : List Char :=
  (s.text.drop r.start).take (r.stop - r.start)

/-- Modelled from the spec: `text_summary_for_range(range).len` — the
`TextSummary` is modelled by its length statistic alone (§3: "at minimum,
character/byte length"). -/
def BufferSnapshot.summaryFor (s : BufferSnapshot) (r : NRange) : Nat :=
  (s.textFor r).length

/-- `Excerpt { key, snapshot, text_summary }` (lines 279-284). -/
structure Excerpt where
  key : ExcerptKey
  snapshot : BufferSnapshot
  text_summary : Nat
deriving DecidableEq, Repr

/-- `sum_tree::Bias`. -/
inductive Bias where
  | left
  | right
deriving DecidableEq, Repr

/-- Modelled from the spec (§4.2): whether a seek with the given bias
advances past an excerpt — the target compares Greater to the key
dimension after the excerpt (or Equal, under right bias). -/
def consumes (t : ExcerptOffset) (b : Bias) (e : Excerpt) : Bool :=
  match t.seekCmp (some e.key), b with
  | .gt, _ => true
  | .eq, .right => true
  | _, _ => false

/-- Modelled from the spec (§4.2): a cursor over the excerpt tree — the
tree is its ordered item list, the cursor a position in it. -/
structure Cursor where
  all : List Excerpt
  pos : Nat
deriving DecidableEq, Repr

/-- `Cursor::item()`: the excerpt under the cursor, `none` past the end. -/
def Cursor.item (c : Cursor) : Option Excerpt := c.all[c.pos]?

/-- `Cursor::prev_item()`. -/
def Cursor.prevItem (c : Cursor) : Option Excerpt :=
  match c.pos with
  | 0 => none
  | p + 1 => c.all[p]?

/-- `Cursor::next()`. -/
def Cursor.next (c : Cursor) : Cursor := { c with pos := c.pos + 1 }

/-- Modelled from the spec (§4.2): `slice(target, bias)` returns (and
advances past) the prefix of the remaining tree ordered before the
target per the bias. -/
def Cursor.slice (c : Cursor) (t : ExcerptOffset) (b : Bias) :
    List Excerpt × Cursor :=
  let consumed := (c.all.drop c.pos).takeWhile (consumes t b)
  (consumed, { c with pos := c.pos + consumed.length })

/-- Modelled from the spec (§4.2): `seek(target, bias)` repositions the
cursor (absolutely, within the whole tree) without materializing the
prefix. -/
def Cursor.seek (c : Cursor) (t : ExcerptOffset) (b : Bias) : Cursor :=
  { c with pos := (c.all.takeWhile (consumes t b)).length }

/-- Modelled from the spec (§4.2): `suffix()` — everything from the cursor
to the end. -/
def Cursor.suffix (c : Cursor) : List Excerpt := c.all.drop c.pos

/-- The merge performed by the `update_last` closure of `push_excerpt`
(lines 238-247): the retained excerpt's range widens to the union and its
text summary is recomputed from its own snapshot. -/
def mergedEx (last e : Excerpt) : Excerpt :=
  let range : NRange :=
    ⟨min last.key.range.start e.key.range.start,
     max last.key.range.stop e.key.range.stop⟩
  { key := { last.key with range := range },
    snapshot := last.snapshot,
    text_summary := last.snapshot.summaryFor range }

/-- `push_excerpt` (lines 234-255): try to merge the incoming excerpt into
the last element via `update_last` (widening that element's range to the
union and recomputing its text summary from its own snapshot); push it as
a new element only when no merge happened. -/
def push_excerpt : List Excerpt → Excerpt → List Excerpt
  | [], e => [e]
  | [last], e =>
    if last.key.intersects e.key then [mergedEx last e]
    else [last, e]
  | x :: y :: rest, e => x :: push_excerpt (y :: rest) e

/-- `MultiBufferSnapshot { excerpts, buffer_snapshots }` (lines 257-261);
the `TreeMap` is modelled as an association list. -/
structure MultiBufferSnapshot where
  excerpts : List Excerpt
  buffer_snapshots : List (BufferId × BufferSnapshot)
deriving DecidableEq, Repr

/-- `MultiBufferSnapshot::text` (lines 264-272): each excerpt's content,
prefixed by a newline separator. -/
def MultiBufferSnapshot.text (s : MultiBufferSnapshot) : List Char :=
  (s.excerpts.map fun e => '\n' :: e.snapshot.textFor e.key.range).flatten

/-- `MultiBufferSnapshot::len` (lines 274-276): the aggregated text-length
summary, i.e. the sum of the excerpts' cached text summaries. -/
def MultiBufferSnapshot.len (s : MultiBufferSnapshot) : Nat :=
  (s.excerpts.map fun e => e.text_summary).sum

/-- The live world: reading a buffer handle yields the buffer's current
snapshot.  A handle is identified with its `BufferId`; external edits and
renames between two operations are modelled by calling the operations
with different worlds. -/
abbrev World := BufferId → BufferSnapshot

/-- `MultiBuffer { snapshot, buffers }` (lines 20-23); the handle map is
modelled by its key set (a handle is its id). -/
structure MultiBuffer where
  snapshot : MultiBufferSnapshot
  buffers : List BufferId
deriving DecidableEq, Repr

/-- `MultiBuffer::new` (lines 26-31). -/
def MultiBuffer.new : MultiBuffer := ⟨⟨[], []⟩, []⟩

/-- Insertion into the association list modelling the `TreeMap`
(replace an existing binding, else append). -/
def mapInsert (m : List (BufferId × BufferSnapshot)) (k : BufferId)
    (v : BufferSnapshot) : List (BufferId × BufferSnapshot) :=
  match m with
  | [] => [(k, v)]
  | (k', v') :: rest =>
    if k' == k then (k, v) :: rest else (k', v') :: mapInsert rest k v

/-- One step of insertion sort. -/
def insertSorted (le : α → α → Bool) (x : α) : List α → List α
  | [] => [x]
  | y :: ys => if le x y then x :: y :: ys else y :: insertSorted le x ys

/-- `sort_unstable_by_key` modelled as insertion sort (ties among the new
excerpts are identical pairs, so stability is irrelevant). -/
def sortListBy (le : α → α → Bool) (l : List α) : List α :=
  l.foldr (insertSorted le) []

/-- The sort key of line 60: comparison by `ExcerptKey`. -/
def keyLE (a b : BufferId × ExcerptKey) : Bool :=
  match ExcerptKey.cmp a.2 b.2 with
  | .gt => false
  | _ => true

/-- The widening of the retained key by the dropped key in the
`dedup_by` closure (lines 61-69): the kept key's range becomes the union,
its path and buffer id are unchanged. -/
def widenKey (kept cur : ExcerptKey) : ExcerptKey :=
  { kept with
    range := ⟨min cur.range.start kept.range.start,
              max cur.range.stop kept.range.stop⟩ }

/-- `Vec::dedup_by` with the closure of lines 61-69: walk the sorted
batch keeping an accumulator; a current element intersecting the kept one
is dropped after widening the kept element to the union. -/
def dedupGo (kept : BufferId × ExcerptKey) :
    List (BufferId × ExcerptKey) → List (BufferId × ExcerptKey)
  | [] => [kept]
  | (h, k) :: rest =>
    if k.intersects kept.2 then
      dedupGo (kept.1, widenKey kept.2 k) rest
    else
      kept :: dedupGo (h, k) rest

/-- The batch deduplication of lines 61-69. -/
def dedupExcerpts : List (BufferId × ExcerptKey) → List (BufferId × ExcerptKey)
  | [] => []
  | x :: rest => dedupGo x rest

/-- `ExcerptOffset` for a key's start (lines 74-78 and 83-87). -/
def startOffset (key : ExcerptKey) : ExcerptOffset :=
  ⟨key.path, key.buffer_id, key.range.start⟩

/-- `ExcerptOffset` for a key's end (lines 88-92). -/
def endOffset (key : ExcerptKey) : ExcerptOffset :=
  ⟨key.path, key.buffer_id, key.range.stop⟩

/-- Lines 94-105 of `insert_excerpts`: advance to the key's start, copy
the passed excerpts, and consume an intersecting excerpt under the
cursor. -/
def startBlock (key : ExcerptKey) (new_tree : List Excerpt) (cursor : Cursor) :
    List Excerpt × Cursor :=
  if ((startOffset key).seekCmp (cursor.item.map fun e => e.key)).isGE then
    let sl := cursor.slice (startOffset key) .left
    let new_tree := new_tree ++ sl.1
    let cursor := sl.2
    match cursor.item with
    | some excerpt =>
      if excerpt.key.intersects key then
        (push_excerpt new_tree excerpt, cursor.next)
      else (new_tree, cursor)
    | none => (new_tree, cursor)
  else (new_tree, cursor)

/-- Lines 116-127 of `insert_excerpts`: re-seek to the key's end and
consume an intersecting excerpt there. -/
def endBlock (key : ExcerptKey) (new_tree : List Excerpt) (cursor : Cursor) :
    List Excerpt × Cursor :=
  if ((endOffset key).seekCmp (cursor.item.map fun e => e.key)).isGE then
    let cursor := cursor.seek (endOffset key) .left
    match cursor.item with
    | some excerpt =>
      if excerpt.key.intersects key then
        (push_excerpt new_tree excerpt, cursor.next)
      else (new_tree, cursor)
    | none => (new_tree, cursor)
  else (new_tree, cursor)

/-- One iteration of the `for (buffer, key) in new_excerpts` loop of
`insert_excerpts` (lines 83-127): the start block, the push of the new
excerpt (lines 107-114), and the end block. -/
def spliceStep (world : World) (h : BufferId) (key : ExcerptKey)
    (new_tree : List Excerpt) (cursor : Cursor) : List Excerpt × Cursor :=
  let state := startBlock key new_tree cursor
  let buf := world h
  let new_tree := push_excerpt state.1
    { key := key, snapshot := buf, text_summary := buf.summaryFor key.range }
  endBlock key new_tree state.2

/-- The `for` loop of `insert_excerpts` (lines 82-128). -/
def spliceLoop (world : World) :
    List (BufferId × ExcerptKey) → List Excerpt → Cursor →
    List Excerpt × Cursor
  | [], new_tree, cursor => (new_tree, cursor)
  | (h, key) :: rest, new_tree, cursor =>
    let state := spliceStep world h key new_tree cursor
    spliceLoop world rest state.1 state.2

/-- `MultiBuffer::apply_renames` (lines 174-205).  Mirrors the source
faithfully, including the fact that the drained `renamed_excerpts` are
collected but never appended to the new tree. -/
def MultiBuffer.apply_renames (mb : MultiBuffer)
    (renames : List (BufferId × Option PathC × Option PathC)) : MultiBuffer :=
  let cursor : Cursor := ⟨mb.snapshot.excerpts, 0⟩
  let state := renames.foldl
    (fun (acc : List Excerpt × Cursor × List Excerpt) rename =>
      let (new_tree, cursor, renamed_excerpts) := acc
      let (buffer_id, old_path, new_path) := rename
      let buffer_start : ExcerptOffset := ⟨old_path, buffer_id, 0⟩
      let sl := cursor.slice buffer_start .right
      let new_tree := new_tree ++ sl.1
      let cursor := sl.2
      -- the `while let Some(excerpt) = cursor.item()` drain (lines 185-200)
      let drained := cursor.suffix.takeWhile fun e => e.key.buffer_id == buffer_id
      let renamed_excerpts := renamed_excerpts ++ drained.map fun e =>
        { key := { path := new_path, buffer_id := buffer_id, range := e.key.range },
          snapshot := e.snapshot,
          text_summary := e.text_summary }
      let cursor := { cursor with pos := cursor.pos + drained.length }
      (new_tree, cursor, renamed_excerpts))
    ([], cursor, [])
  -- line 202: only the suffix is appended; `renamed_excerpts` is unused.
  let new_tree := state.1 ++ state.2.1.suffix
  { mb with snapshot := { mb.snapshot with excerpts := new_tree } }

/-- `MultiBuffer::sync` (lines 136-172): for every tracked buffer, fetch
its live snapshot; record a rename when the path changed; treat the
buffer as changed when its path changed or its version advanced
(`edits_since` yields an edit, modelled from the spec as a version
difference); update changed cache entries; apply the renames. -/
def MultiBuffer.sync (world : World) (mb : MultiBuffer) : MultiBuffer :=
  let entries := mb.snapshot.buffer_snapshots
  let state := entries.foldl
    (fun (acc : List (BufferId × Option PathC × Option PathC) ×
                List (BufferId × BufferSnapshot)) entry =>
      let (renames, map) := acc
      let (buffer_id, old_snapshot) := entry
      -- `self.buffers[buffer_id].read(cx).snapshot()`: the live snapshot
      let new_snapshot := world buffer_id
      let old_path := old_snapshot.path
      let new_path := new_snapshot.path
      let pathChanged := new_path ≠ old_path
      let renames :=
        if pathChanged then renames ++ [(buffer_id, old_path, new_path)]
        else renames
      let editsChanged := new_snapshot.version ≠ old_snapshot.version
      let changed := pathChanged || editsChanged
      let map := if changed then mapInsert map buffer_id new_snapshot else map
      (renames, map))
    ([], entries)
  let mb := { mb with snapshot :=
    { mb.snapshot with buffer_snapshots := state.2 } }
  mb.apply_renames state.1

/-- Lines 40-59 of `insert_excerpts`: normalize each pair, drop empty
ranges, build the `ExcerptKey` from the buffer's current path and
identity. -/
def normalizePairs (world : World) (pairs : List (BufferId × NRange)) :
    List (BufferId × ExcerptKey) :=
  pairs.filterMap fun p =>
    let (buffer_handle, range) := p
    let buffer := world buffer_handle
    if range.isEmpty then none
    else some (buffer_handle,
      ({ path := buffer.path, buffer_id := buffer_handle, range := range } : ExcerptKey))

/-- `MultiBuffer::insert_excerpts` (lines 33-134).  Ranges are already
absolute offsets (`language::ToOffset for usize` is the identity; an
out-of-range offset is a precondition violation per §6/§7 and is not
modelled). -/
def MultiBuffer.insert_excerpts (world : World) (mb : MultiBuffer)
    (pairs : List (BufferId × NRange)) : MultiBuffer :=
  let mb := mb.sync world
  -- lines 40-59
  let new_excerpts := normalizePairs world pairs
  -- line 60
  let new_excerpts := sortListBy keyLE new_excerpts
  -- lines 61-69
  let new_excerpts := dedupExcerpts new_excerpts
  -- lines 71-80
  let cursor : Cursor := ⟨mb.snapshot.excerpts, 0⟩
  let state :=
    match new_excerpts.head? with
    | some (_, key) => cursor.slice (startOffset key) .left
    | none => ([], cursor)
  -- lines 82-128
  let state := spliceLoop world new_excerpts state.1 state.2
  -- line 130
  let new_tree := state.1 ++ state.2.suffix
  { mb with snapshot := { mb.snapshot with excerpts := new_tree } }

/-- `MultiBuffer::snapshot` (lines 209-212): sync, then return the
snapshot (the mutated multibuffer is returned alongside, since the model
is state-passing). -/
def MultiBuffer.snapshotFn (world : World) (mb : MultiBuffer) :
    MultiBuffer × MultiBufferSnapshot :=
  let mb := mb.sync world
  (mb, mb.snapshot)

/-- The consistency check of `check_invariants` (lines 214-231): no two
consecutive excerpts intersect. -/
def disjointChain : List Excerpt → Prop
  | [] => True
  | [_] => True
  | a :: b :: rest => a.key.intersects b.key = false ∧ disjointChain (b :: rest)

instance : DecidablePred disjointChain := by
  intro l
  induction l with
  | nil => exact isTrue trivial
  | cons a rest ih =>
    cases rest with
    | nil => exact isTrue trivial
    | cons b r2 =>
      unfold disjointChain
      exact @instDecidableAnd _ _ (instDecidableEqBool _ _) ih

/-! ## Ordering lemmas -/

theorem then_eq_lt {o p : Ordering} :
    o.then p = .lt ↔ o = .lt ∨ (o = .eq ∧ p = .lt) := by
  cases o <;> simp [Ordering.then]

theorem then_eq_gt {o p : Ordering} :
    o.then p = .gt ↔ o = .gt ∨ (o = .eq ∧ p = .gt) := by
  cases o <;> simp [Ordering.then]

theorem then_eq_eq {o p : Ordering} :
    o.then p = .eq ↔ o = .eq ∧ p = .eq := by
  cases o <;> simp [Ordering.then]

theorem natCmp_eq_lt {a b : Nat} : natCmp a b = .lt ↔ a < b := by
  unfold natCmp; split <;> rename_i h
  · simp [h]
  · split <;> rename_i h2 <;> simp <;> omega

theorem natCmp_eq_gt {a b : Nat} : natCmp a b = .gt ↔ b < a := by
  unfold natCmp; split <;> rename_i h
  · simp; omega
  · split <;> rename_i h2 <;> simp <;> omega

theorem natCmp_eq_eq {a b : Nat} : natCmp a b = .eq ↔ a = b := by
  unfold natCmp; split <;> rename_i h
  · simp; omega
  · split <;> rename_i h2 <;> simp <;> omega

theorem pathCmp_eq_eq : ∀ {p q : PathC}, pathCmp p q = .eq ↔ p = q := by
  intro p
  induction p with
  | nil => intro q; cases q <;> simp [pathCmp]
  | cons a ra ih =>
    intro q
    cases q with
    | nil => simp [pathCmp]
    | cons b rb => simp [pathCmp, then_eq_eq, natCmp_eq_eq, ih]

theorem pathCmp_swap : ∀ {p q : PathC}, (pathCmp p q).swap = pathCmp q p := by
  intro p
  induction p with
  | nil => intro q; cases q <;> simp [pathCmp, Ordering.swap]
  | cons a ra ih =>
    intro q
    cases q with
    | nil => simp [pathCmp, Ordering.swap]
    | cons b rb =>
      simp only [pathCmp]
      rcases h : natCmp a b with _ | _ | _
      · have : natCmp b a = .gt := by rw [natCmp_eq_gt]; rw [natCmp_eq_lt] at h; exact h
        simp [Ordering.then, this, Ordering.swap]
      · have : natCmp b a = .eq := by rw [natCmp_eq_eq]; rw [natCmp_eq_eq] at h; omega
        simp [Ordering.then, this, ih]
      · have : natCmp b a = .lt := by rw [natCmp_eq_lt]; rw [natCmp_eq_gt] at h; exact h
        simp [Ordering.then, this, Ordering.swap]

theorem pathCmp_lt_trans : ∀ {p q r : PathC},
    pathCmp p q = .lt → pathCmp q r = .lt → pathCmp p r = .lt := by
  intro p
  induction p with
  | nil =>
    intro q r h1 h2
    cases q with
    | nil => simpa using h2
    | cons b rb =>
      cases r with
      | nil => simp [pathCmp] at h2
      | cons c rc => simp [pathCmp]
  | cons a ra ih =>
    intro q r h1 h2
    cases q with
    | nil => simp [pathCmp] at h1
    | cons b rb =>
      cases r with
      | nil => simp [pathCmp] at h2
      | cons c rc =>
        simp only [pathCmp, then_eq_lt] at h1 h2 ⊢
        rcases h1 with h1 | ⟨h1e, h1t⟩ <;> rcases h2 with h2 | ⟨h2e, h2t⟩
        · left; rw [natCmp_eq_lt] at *; omega
        · left; rw [natCmp_eq_eq] at h2e; rw [natCmp_eq_lt] at *; omega
        · left; rw [natCmp_eq_eq] at h1e; rw [natCmp_eq_lt] at *; omega
        · right
          rw [natCmp_eq_eq] at h1e h2e
          exact ⟨by rw [natCmp_eq_eq]; omega, ih h1t h2t⟩

theorem optPathCmp_eq_eq : ∀ {p q : Option PathC}, optPathCmp p q = .eq ↔ p = q := by
  intro p q
  cases p <;> cases q <;> simp [optPathCmp, pathCmp_eq_eq]

theorem optPathCmp_swap {p q : Option PathC} : (optPathCmp p q).swap = optPathCmp q p := by
  cases p with
  | none => cases q <;> simp [optPathCmp, Ordering.swap]
  | some a =>
    cases q with
    | none => simp [optPathCmp, Ordering.swap]
    | some b => simpa [optPathCmp] using @pathCmp_swap a b

theorem optPathCmp_lt_trans {p q r : Option PathC} :
    optPathCmp p q = .lt → optPathCmp q r = .lt → optPathCmp p r = .lt := by
  cases p <;> cases q <;> cases r <;> simp [optPathCmp] <;>
    exact fun h1 h2 => pathCmp_lt_trans h1 h2

theorem bufferIdCmp_eq_eq {a b : BufferId} : BufferId.cmp a b = .eq ↔ a = b := by
  cases a; cases b
  simp [BufferId.cmp, then_eq_eq, natCmp_eq_eq, BufferId.mk.injEq]

theorem bufferIdCmp_swap {a b : BufferId} : (BufferId.cmp a b).swap = BufferId.cmp b a := by
  unfold BufferId.cmp
  rcases h : natCmp a.remote_id b.remote_id with _ | _ | _
  · have : natCmp b.remote_id a.remote_id = .gt := by
      rw [natCmp_eq_gt]; rw [natCmp_eq_lt] at h; exact h
    simp [Ordering.then, this, Ordering.swap]
  · have : natCmp b.remote_id a.remote_id = .eq := by
      rw [natCmp_eq_eq]; rw [natCmp_eq_eq] at h; omega
    rcases h2 : natCmp a.replica_id b.replica_id with _ | _ | _ <;>
      [skip; skip; skip] <;>
      first
      | (have h3 : natCmp b.replica_id a.replica_id = .gt := by
          rw [natCmp_eq_gt]; rw [natCmp_eq_lt] at h2; exact h2
         simp [Ordering.then, this, h3, Ordering.swap])
      | (have h3 : natCmp b.replica_id a.replica_id = .eq := by
          rw [natCmp_eq_eq]; rw [natCmp_eq_eq] at h2; omega
         simp [Ordering.then, this, h3, Ordering.swap])
      | (have h3 : natCmp b.replica_id a.replica_id = .lt := by
          rw [natCmp_eq_lt]; rw [natCmp_eq_gt] at h2; exact h2
         simp [Ordering.then, this, h3, Ordering.swap])
  · have : natCmp b.remote_id a.remote_id = .lt := by
      rw [natCmp_eq_lt]; rw [natCmp_eq_gt] at h; exact h
    simp [Ordering.then, this, Ordering.swap]

theorem bufferIdCmp_lt_trans {a b c : BufferId} :
    BufferId.cmp a b = .lt → BufferId.cmp b c = .lt → BufferId.cmp a c = .lt := by
  unfold BufferId.cmp
  simp only [then_eq_lt, natCmp_eq_lt, natCmp_eq_eq]
  omega

/-- The path component of `optPathCmp` being `lt` or `gt` propagates through
`Ordering.then`. -/
theorem optPathCmp_gt_of_swap {p q : Option PathC} :
    optPathCmp p q = .lt ↔ optPathCmp q p = .gt := by
  constructor
  · intro h
    have := @optPathCmp_swap p q
    rw [h] at this; exact this.symm
  · intro h
    have := @optPathCmp_swap q p
    rw [h] at this
    cases hh : optPathCmp p q <;> rw [hh] at this <;> simp [Ordering.swap] at this ⊢

theorem bufferIdCmp_gt_of_swap {a b : BufferId} :
    BufferId.cmp a b = .lt ↔ BufferId.cmp b a = .gt := by
  constructor
  · intro h
    have := @bufferIdCmp_swap a b
    rw [h] at this; exact this.symm
  · intro h
    have := @bufferIdCmp_swap b a
    rw [h] at this
    cases hh : BufferId.cmp a b <;> rw [hh] at this <;> simp [Ordering.swap] at this ⊢

theorem natCmp_swap {a b : Nat} : (natCmp a b).swap = natCmp b a := by
  unfold natCmp
  split <;> rename_i h
  · have : ¬ b < a := by omega
    simp [this, h, Ordering.swap]
  · split <;> rename_i h2
    · simp [h2, Ordering.swap]
    · have : ¬ b < a := by omega
      have h3 : ¬ a < b := h
      simp [this, h3, Ordering.swap]

theorem then_swap {o1 o2 p1 p2 : Ordering} (h1 : o1.swap = o2) (h2 : p1.swap = p2) :
    (o1.then p1).swap = o2.then p2 := by
  subst h1
  subst h2
  cases o1 <;> cases p1 <;> rfl

/-- The window comparison inside the seek target, rephrased with plain
`<` tests. -/
theorem innerCmp_eq (x s e : Nat) :
    (if natCmp x s = Ordering.lt then Ordering.lt
     else if natCmp x e = Ordering.gt then Ordering.gt else Ordering.eq) =
    (if x < s then Ordering.lt else if e < x then Ordering.gt else Ordering.eq) := by
  by_cases h1 : x < s
  · rw [if_pos (natCmp_eq_lt.mpr h1), if_pos h1]
  · rw [if_neg (fun hc => h1 (natCmp_eq_lt.mp hc)), if_neg h1]
    by_cases h2 : e < x
    · rw [if_pos (natCmp_eq_gt.mpr h2), if_pos h2]
    · rw [if_neg (fun hc => h2 (natCmp_eq_gt.mp hc)), if_neg h2]

theorem then_of_ne_eq {o p : Ordering} (h : o ≠ .eq) : o.then p = o := by
  cases o <;> simp [Ordering.then] at h ⊢

/-- `ExcerptKey.cmp` is `eq` exactly on equal keys. -/
theorem keyCmp_eq_eq {a b : ExcerptKey} : ExcerptKey.cmp a b = .eq ↔ a = b := by
  cases a with
  | mk ap ab ar =>
    cases b with
    | mk bp bb br =>
      cases ar with
      | mk a1 a2 =>
        cases br with
        | mk b1 b2 =>
          simp only [ExcerptKey.cmp, then_eq_eq, optPathCmp_eq_eq,
            bufferIdCmp_eq_eq, natCmp_eq_eq, ExcerptKey.mk.injEq, NRange.mk.injEq]
          constructor
          · rintro ⟨h1, h2, h3, h4⟩
            exact ⟨h1, h2, h3, h4.symm⟩
          · rintro ⟨h1, h2, h3, h4⟩
            exact ⟨h1, h2, h3, h4.symm⟩

/-- Swap duality of `ExcerptKey.cmp`. -/
theorem keyCmp_swap {a b : ExcerptKey} :
    (ExcerptKey.cmp a b).swap = ExcerptKey.cmp b a :=
  then_swap optPathCmp_swap
    (then_swap bufferIdCmp_swap (then_swap natCmp_swap natCmp_swap))

/-- Transitivity of the strict part of `ExcerptKey.cmp`. -/
theorem keyCmp_lt_trans {a b c : ExcerptKey} :
    ExcerptKey.cmp a b = .lt → ExcerptKey.cmp b c = .lt → ExcerptKey.cmp a c = .lt := by
  intro h1 h2
  simp only [ExcerptKey.cmp, then_eq_lt, then_eq_eq] at h1 h2 ⊢
  rcases h1 with h1 | ⟨h1p, h1r⟩
  · rcases h2 with h2 | ⟨h2p, h2r⟩
    · exact Or.inl (optPathCmp_lt_trans h1 h2)
    · rw [optPathCmp_eq_eq] at h2p
      rw [h2p] at h1
      exact Or.inl h1
  · rw [optPathCmp_eq_eq] at h1p
    rcases h2 with h2 | ⟨h2p, h2r⟩
    · rw [← h1p] at h2
      exact Or.inl h2
    · rw [optPathCmp_eq_eq] at h2p
      refine Or.inr ⟨by rw [optPathCmp_eq_eq]; rw [h1p, h2p], ?_⟩
      rcases h1r with h1 | ⟨h1b, h1s⟩
      · rcases h2r with h2 | ⟨h2b, h2s⟩
        · exact Or.inl (bufferIdCmp_lt_trans h1 h2)
        · rw [bufferIdCmp_eq_eq] at h2b
          rw [h2b] at h1
          exact Or.inl h1
      · rw [bufferIdCmp_eq_eq] at h1b
        rcases h2r with h2 | ⟨h2b, h2s⟩
        · rw [← h1b] at h2
          exact Or.inl h2
        · rw [bufferIdCmp_eq_eq] at h2b
          refine Or.inr ⟨by rw [bufferIdCmp_eq_eq]; rw [h1b, h2b], ?_⟩
          simp only [then_eq_lt, natCmp_eq_lt, natCmp_eq_eq] at h1s h2s ⊢
          omega

/-- Unfolding of `ExcerptKey.cmp a b = .lt` into its lexicographic cases. -/
theorem keyCmp_lt_unfold {a b : ExcerptKey} :
    ExcerptKey.cmp a b = .lt ↔
      (optPathCmp a.path b.path = .lt ∨
        (a.path = b.path ∧
          (BufferId.cmp a.buffer_id b.buffer_id = .lt ∨
            (a.buffer_id = b.buffer_id ∧
              (a.range.start < b.range.start ∨
                (a.range.start = b.range.start ∧
                  b.range.stop < a.range.stop)))))) := by
  simp only [ExcerptKey.cmp, then_eq_lt, then_eq_eq, optPathCmp_eq_eq,
    bufferIdCmp_eq_eq, natCmp_eq_lt, natCmp_eq_eq]

/-- C7 — the `Ord for ExcerptKey` implementation is a total order that
compares `path` first (absent before present, present paths lexically),
then `buffer_id`, then `range.start` ascending, and for equal starts puts
the larger `range.end` first: reflexivity/antisymmetry via `eq` iff
equality, swap-duality, transitivity, plus the individual clauses. -/
theorem excerptKey_cmp_total_order (a b c : ExcerptKey) (p q : PathC) :
    (ExcerptKey.cmp a b = .eq ↔ a = b) ∧
    ((ExcerptKey.cmp a b).swap = ExcerptKey.cmp b a) ∧
    (ExcerptKey.cmp a b = .lt → ExcerptKey.cmp b c = .lt → ExcerptKey.cmp a c = .lt) ∧
    (optPathCmp none (some p) = .lt) ∧
    (optPathCmp (some p) (some q) = pathCmp p q) ∧
    (a.path ≠ b.path → ExcerptKey.cmp a b = optPathCmp a.path b.path) ∧
    (a.path = b.path → a.buffer_id ≠ b.buffer_id →
      ExcerptKey.cmp a b = BufferId.cmp a.buffer_id b.buffer_id) ∧
    (a.path = b.path → a.buffer_id = b.buffer_id →
      a.range.start < b.range.start → ExcerptKey.cmp a b = .lt) ∧
    (a.path = b.path → a.buffer_id = b.buffer_id →
      a.range.start = b.range.start → b.range.stop < a.range.stop →
      ExcerptKey.cmp a b = .lt) := by
  refine ⟨keyCmp_eq_eq, keyCmp_swap, fun h1 h2 => keyCmp_lt_trans h1 h2,
    rfl, rfl, ?_, ?_, ?_, ?_⟩
  · intro h
    have hne : optPathCmp a.path b.path ≠ .eq := by
      rw [Ne, optPathCmp_eq_eq]; exact h
    simp only [ExcerptKey.cmp]
    exact then_of_ne_eq hne
  · intro hp h
    have hpe : optPathCmp a.path b.path = .eq := by rw [optPathCmp_eq_eq]; exact hp
    have hne : BufferId.cmp a.buffer_id b.buffer_id ≠ .eq := by
      rw [Ne, bufferIdCmp_eq_eq]; exact h
    simp only [ExcerptKey.cmp, hpe, Ordering.then]
  · intro hp hb hs
    have hpe : optPathCmp a.path b.path = .eq := by rw [optPathCmp_eq_eq]; exact hp
    have hbe : BufferId.cmp a.buffer_id b.buffer_id = .eq := by
      rw [bufferIdCmp_eq_eq]; exact hb
    have hse : natCmp a.range.start b.range.start = .lt := by
      rw [natCmp_eq_lt]; exact hs
    simp [ExcerptKey.cmp, hpe, hbe, hse, Ordering.then]
  · intro hp hb hs he
    have hpe : optPathCmp a.path b.path = .eq := by rw [optPathCmp_eq_eq]; exact hp
    have hbe : BufferId.cmp a.buffer_id b.buffer_id = .eq := by
      rw [bufferIdCmp_eq_eq]; exact hb
    have hse : natCmp a.range.start b.range.start = .eq := by
      rw [natCmp_eq_eq]; exact hs
    have hee : natCmp b.range.stop a.range.stop = .lt := by
      rw [natCmp_eq_lt]; exact he
    simp [ExcerptKey.cmp, hpe, hbe, hse, hee, Ordering.then]

/-- Witness for `excerptKey_cmp_total_order` at concrete keys. -/
theorem excerptKey_cmp_total_order_witness :
    let a : ExcerptKey := ⟨none, ⟨1, 0⟩, ⟨0, 5⟩⟩
    let b : ExcerptKey := ⟨some [2], ⟨1, 0⟩, ⟨0, 3⟩⟩
    let c : ExcerptKey := ⟨some [2], ⟨2, 0⟩, ⟨1, 3⟩⟩
    (ExcerptKey.cmp a b = .eq ↔ a = b) ∧
    ((ExcerptKey.cmp a b).swap = ExcerptKey.cmp b a) ∧
    (ExcerptKey.cmp a b = .lt → ExcerptKey.cmp b c = .lt → ExcerptKey.cmp a c = .lt) ∧
    (optPathCmp none (some [7]) = .lt) ∧
    (optPathCmp (some [7]) (some [9]) = pathCmp [7] [9]) ∧
    (a.path ≠ b.path → ExcerptKey.cmp a b = optPathCmp a.path b.path) ∧
    (a.path = b.path → a.buffer_id ≠ b.buffer_id →
      ExcerptKey.cmp a b = BufferId.cmp a.buffer_id b.buffer_id) ∧
    (a.path = b.path → a.buffer_id = b.buffer_id →
      a.range.start < b.range.start → ExcerptKey.cmp a b = .lt) ∧
    (a.path = b.path → a.buffer_id = b.buffer_id →
      a.range.start = b.range.start → b.range.stop < a.range.stop →
      ExcerptKey.cmp a b = .lt) :=
  excerptKey_cmp_total_order ⟨none, ⟨1, 0⟩, ⟨0, 5⟩⟩ ⟨some [2], ⟨1, 0⟩, ⟨0, 3⟩⟩
    ⟨some [2], ⟨2, 0⟩, ⟨1, 3⟩⟩ [7] [9]

/-- C8 — `SeekTarget for ExcerptOffset`: against `None` the comparison is
always `Greater`; against `Some key` it compares path, then buffer id,
and then classifies the offset against the closed interval
`[range.start, range.end]`. -/
theorem excerptOffset_seek_cmp (t : ExcerptOffset) (k : ExcerptKey) :
    (t.seekCmp none = .gt) ∧
    (t.path ≠ k.path → t.seekCmp (some k) = optPathCmp t.path k.path) ∧
    (t.path = k.path → t.buffer_id ≠ k.buffer_id →
      t.seekCmp (some k) = BufferId.cmp t.buffer_id k.buffer_id) ∧
    (t.path = k.path → t.buffer_id = k.buffer_id →
      k.range.start ≤ k.range.stop →
      ((t.seekCmp (some k) = .lt ↔ t.offset < k.range.start) ∧
       (t.seekCmp (some k) = .gt ↔ k.range.stop < t.offset) ∧
       (t.seekCmp (some k) = .eq ↔
         (k.range.start ≤ t.offset ∧ t.offset ≤ k.range.stop)))) := by
  refine ⟨rfl, ?_, ?_, ?_⟩
  · intro h
    have hne : optPathCmp t.path k.path ≠ .eq := by
      rw [Ne, optPathCmp_eq_eq]; exact h
    simp only [ExcerptOffset.seekCmp]
    exact then_of_ne_eq hne
  · intro hp hb
    have hpe : optPathCmp t.path k.path = .eq := by rw [optPathCmp_eq_eq]; exact hp
    have hne : BufferId.cmp t.buffer_id k.buffer_id ≠ .eq := by
      rw [Ne, bufferIdCmp_eq_eq]; exact hb
    simp only [ExcerptOffset.seekCmp, hpe, Ordering.then]
  · intro hp hb hwf
    have hpe : optPathCmp t.path k.path = .eq := by rw [optPathCmp_eq_eq]; exact hp
    have hbe : BufferId.cmp t.buffer_id k.buffer_id = .eq := by
      rw [bufferIdCmp_eq_eq]; exact hb
    simp only [ExcerptOffset.seekCmp, hpe, hbe, Ordering.then]
    rw [innerCmp_eq]
    refine ⟨?_, ?_, ?_⟩ <;>
      (by_cases h1 : t.offset < k.range.start <;>
        by_cases h2 : k.range.stop < t.offset <;>
        simp [h1, h2] <;> omega)

/-- Witness for `excerptOffset_seek_cmp` at a concrete offset and key. -/
theorem excerptOffset_seek_cmp_witness :
    let t : ExcerptOffset := ⟨none, ⟨1, 0⟩, 4⟩
    let k : ExcerptKey := ⟨none, ⟨1, 0⟩, ⟨2, 6⟩⟩
    (t.seekCmp none = .gt) ∧
    (t.path ≠ k.path → t.seekCmp (some k) = optPathCmp t.path k.path) ∧
    (t.path = k.path → t.buffer_id ≠ k.buffer_id →
      t.seekCmp (some k) = BufferId.cmp t.buffer_id k.buffer_id) ∧
    (t.path = k.path → t.buffer_id = k.buffer_id →
      k.range.start ≤ k.range.stop →
      ((t.seekCmp (some k) = .lt ↔ t.offset < k.range.start) ∧
       (t.seekCmp (some k) = .gt ↔ k.range.stop < t.offset) ∧
       (t.seekCmp (some k) = .eq ↔
         (k.range.start ≤ t.offset ∧ t.offset ≤ k.range.stop)))) :=
  excerptOffset_seek_cmp ⟨none, ⟨1, 0⟩, 4⟩ ⟨none, ⟨1, 0⟩, ⟨2, 6⟩⟩

/-! ## Characterizations of the key predicates -/

theorem intersects_iff {a b : ExcerptKey} :
    a.intersects b = true ↔
      (a.buffer_id = b.buffer_id ∧ a.range.start ≤ b.range.stop ∧
       b.range.start ≤ a.range.stop) := by
  simp [ExcerptKey.intersects, and_assoc]

theorem ite_window_lt {x s e : Nat} :
    (if x < s then Ordering.lt else if e < x then Ordering.gt else Ordering.eq) =
      .lt ↔ x < s := by
  by_cases h1 : x < s <;> by_cases h2 : e < x <;> simp [h1, h2]

theorem ite_window_gt {x s e : Nat} :
    (if x < s then Ordering.lt else if e < x then Ordering.gt else Ordering.eq) =
      .gt ↔ (¬ x < s ∧ e < x) := by
  by_cases h1 : x < s <;> by_cases h2 : e < x <;> simp [h1, h2]

theorem ite_window_eq {x s e : Nat} :
    (if x < s then Ordering.lt else if e < x then Ordering.gt else Ordering.eq) =
      .eq ↔ (¬ x < s ∧ ¬ e < x) := by
  by_cases h1 : x < s <;> by_cases h2 : e < x <;> simp [h1, h2]

theorem seekCmp_lt_unfold {t : ExcerptOffset} {k : ExcerptKey} :
    t.seekCmp (some k) = .lt ↔
      (optPathCmp t.path k.path = .lt ∨
        (t.path = k.path ∧
          (BufferId.cmp t.buffer_id k.buffer_id = .lt ∨
            (t.buffer_id = k.buffer_id ∧ t.offset < k.range.start)))) := by
  simp only [ExcerptOffset.seekCmp]
  rw [innerCmp_eq]
  simp only [then_eq_lt, then_eq_eq, optPathCmp_eq_eq, bufferIdCmp_eq_eq,
    ite_window_lt, ite_window_eq]

theorem seekCmp_gt_unfold {t : ExcerptOffset} {k : ExcerptKey} :
    t.seekCmp (some k) = .gt ↔
      (optPathCmp t.path k.path = .gt ∨
        (t.path = k.path ∧
          (BufferId.cmp t.buffer_id k.buffer_id = .gt ∨
            (t.buffer_id = k.buffer_id ∧ ¬ t.offset < k.range.start ∧
              k.range.stop < t.offset)))) := by
  simp only [ExcerptOffset.seekCmp]
  rw [innerCmp_eq]
  simp only [then_eq_gt, then_eq_eq, optPathCmp_eq_eq, bufferIdCmp_eq_eq,
    ite_window_gt, ite_window_eq]

theorem seekCmp_eq_unfold {t : ExcerptOffset} {k : ExcerptKey} :
    t.seekCmp (some k) = .eq ↔
      (t.path = k.path ∧ t.buffer_id = k.buffer_id ∧
        ¬ t.offset < k.range.start ∧ ¬ k.range.stop < t.offset) := by
  simp only [ExcerptOffset.seekCmp]
  rw [innerCmp_eq]
  simp only [then_eq_eq, optPathCmp_eq_eq, bufferIdCmp_eq_eq, ite_window_eq,
    and_assoc]

theorem consumes_left_iff {t : ExcerptOffset} {e : Excerpt} :
    consumes t .left e = true ↔ t.seekCmp (some e.key) = .gt := by
  unfold consumes
  rcases h : t.seekCmp (some e.key) <;> simp [h]

theorem consumes_right_iff {t : ExcerptOffset} {e : Excerpt} :
    consumes t .right e = true ↔
      (t.seekCmp (some e.key) = .gt ∨ t.seekCmp (some e.key) = .eq) := by
  unfold consumes
  rcases h : t.seekCmp (some e.key) <;> simp [h]

/-! ## push_excerpt lemmas -/

theorem push_excerpt_no_merge : ∀ (l : List Excerpt) (e : Excerpt),
    (∀ last, l.getLast? = some last → last.key.intersects e.key = false) →
    push_excerpt l e = l ++ [e]
  | [], _, _ => rfl
  | [last], e, h => by
    unfold push_excerpt
    rw [if_neg]
    · rfl
    · rw [h last (by rfl)]
      simp
  | x :: y :: rest, e, h => by
    show x :: push_excerpt (y :: rest) e = _
    rw [push_excerpt_no_merge (y :: rest) e
      (fun last hl => h last (by rw [List.getLast?_cons_cons]; exact hl))]
    rfl

theorem push_excerpt_merge : ∀ (l : List Excerpt) (last e : Excerpt),
    l.getLast? = some last → last.key.intersects e.key = true →
    push_excerpt l e = l.dropLast ++ [mergedEx last e]
  | [], last, e, h, _ => by simp at h
  | [x], last, e, h, hi => by
    have hx : x = last := by simpa using h
    subst hx
    unfold push_excerpt
    rw [if_pos hi]
    rfl
  | x :: y :: rest, last, e, h, hi => by
    show x :: push_excerpt (y :: rest) e = _
    rw [push_excerpt_merge (y :: rest) last e (by rwa [List.getLast?_cons_cons] at h) hi]
    rfl

/-! ## List helpers for the cursor computations -/

theorem takeWhile_middle {p : Excerpt → Bool} {A B : List Excerpt} {x : Excerpt}
    (hA : ∀ a ∈ A, p a = true) (hx : p x = false) :
    (A ++ x :: B).takeWhile p = A := by
  induction A with
  | nil => simp [List.takeWhile_cons, hx]
  | cons a t ih =>
    simp only [List.cons_append, List.takeWhile_cons, hA a (by simp)]
    rw [ih (fun b hb => hA b (by simp [hb]))]
    simp

theorem takeWhile_all {p : Excerpt → Bool} {A : List Excerpt}
    (hA : ∀ a ∈ A, p a = true) : A.takeWhile p = A := by
  induction A with
  | nil => rfl
  | cons a t ih =>
    simp only [List.takeWhile_cons, hA a (by simp)]
    rw [ih (fun b hb => hA b (by simp [hb]))]
    simp

theorem getElem?_middle {A B : List Excerpt} {x : Excerpt} :
    (A ++ x :: B)[A.length]? = some x := by
  rw [List.getElem?_append_right (Nat.le_refl _)]
  simp

theorem getElem?_middle_succ {A B : List Excerpt} {x : Excerpt} :
    (A ++ x :: B)[A.length + 1]? = B[0]? := by
  rw [List.getElem?_append_right (by omega)]
  simp

theorem drop_middle_succ {A B : List Excerpt} {x : Excerpt} :
    (A ++ x :: B).drop (A.length + 1) = B := by
  have : A ++ x :: B = (A ++ [x]) ++ B := by simp
  rw [this]
  have hlen : A.length + 1 = (A ++ [x]).length := by simp
  rw [hlen, List.drop_left]

/-- A strictly key-sorted excerpt list is pairwise key-sorted. -/
theorem chain'_lt_pairwise {l : List Excerpt}
    (h : List.Chain' (fun a b => ExcerptKey.cmp a.key b.key = .lt) l) :
    List.Pairwise (fun a b => ExcerptKey.cmp a.key b.key = .lt) l := by
  haveI : IsTrans Excerpt (fun a b => ExcerptKey.cmp a.key b.key = .lt) :=
    ⟨fun _ _ _ h1 h2 => keyCmp_lt_trans h1 h2⟩
  exact List.chain'_iff_pairwise.mp h

theorem intersects_eq_false_iff {a b : ExcerptKey} :
    a.intersects b = false ↔
      ¬(a.buffer_id = b.buffer_id ∧ a.range.start ≤ b.range.stop ∧
        b.range.start ≤ a.range.stop) := by
  rw [← intersects_iff]
  cases h : a.intersects b <;> simp

/-- A seek target inside (or past the start of) excerpt `E` consumes any
excerpt strictly before `E` in a tree whose same-buffer excerpts are
disjoint. -/
theorem consume_before {t : ExcerptOffset} {a E : Excerpt}
    (hpath : t.path = E.key.path) (hbuf : t.buffer_id = E.key.buffer_id)
    (hoff : E.key.range.start ≤ t.offset)
    (hlt : ExcerptKey.cmp a.key E.key = .lt)
    (hdisj : a.key.buffer_id = E.key.buffer_id → a.key.intersects E.key = false)
    (hpropA : a.key.range.start ≤ a.key.range.stop)
    (hpropE : E.key.range.start ≤ E.key.range.stop) :
    t.seekCmp (some a.key) = .gt := by
  rcases keyCmp_lt_unfold.mp hlt with hP | ⟨hPe, hB | ⟨hBe, hR⟩⟩
  · refine seekCmp_gt_unfold.mpr (Or.inl ?_)
    rw [hpath]
    exact optPathCmp_gt_of_swap.mp hP
  · refine seekCmp_gt_unfold.mpr (Or.inr ⟨by rw [hpath, hPe], Or.inl ?_⟩)
    rw [hbuf]
    exact bufferIdCmp_gt_of_swap.mp hB
  · have hnint := intersects_eq_false_iff.mp (hdisj hBe)
    refine seekCmp_gt_unfold.mpr (Or.inr ⟨by rw [hpath, hPe],
      Or.inr ⟨by rw [hbuf, hBe], ?_, ?_⟩⟩) <;>
      (simp only [hBe, true_and, not_and, not_le] at hnint; omega)

/-- A seek target inside excerpt `E` (endpoints of the closed interval
included) stops at `E`. -/
theorem stop_at_E {t : ExcerptOffset} {E : Excerpt}
    (hpath : t.path = E.key.path) (hbuf : t.buffer_id = E.key.buffer_id)
    (h1 : E.key.range.start ≤ t.offset) (h2 : t.offset ≤ E.key.range.stop) :
    t.seekCmp (some E.key) = .eq :=
  seekCmp_eq_unfold.mpr ⟨hpath, hbuf, by omega, by omega⟩

/-- A seek target not past the end of excerpt `E` compares Less to any
excerpt strictly after `E` in a sorted tree with disjoint same-buffer
excerpts. -/
theorem after_E_lt {t : ExcerptOffset} {E b0 : Excerpt}
    (hpath : t.path = E.key.path) (hbuf : t.buffer_id = E.key.buffer_id)
    (hoff : t.offset ≤ E.key.range.stop)
    (hlt : ExcerptKey.cmp E.key b0.key = .lt)
    (hdisj : E.key.buffer_id = b0.key.buffer_id → E.key.intersects b0.key = false)
    (hpropE : E.key.range.start ≤ E.key.range.stop)
    (hpropB : b0.key.range.start ≤ b0.key.range.stop) :
    t.seekCmp (some b0.key) = .lt := by
  rcases keyCmp_lt_unfold.mp hlt with hP | ⟨hPe, hB | ⟨hBe, hR⟩⟩
  · refine seekCmp_lt_unfold.mpr (Or.inl ?_)
    rw [hpath]
    exact hP
  · refine seekCmp_lt_unfold.mpr (Or.inr ⟨by rw [hpath, hPe], Or.inl ?_⟩)
    rw [hbuf]
    exact hB
  · have hnint := intersects_eq_false_iff.mp (hdisj hBe)
    refine seekCmp_lt_unfold.mpr (Or.inr ⟨by rw [hpath, hPe],
      Or.inr ⟨by rw [hbuf, hBe], ?_⟩⟩)
    simp only [hBe, true_and, not_and, not_le] at hnint
    omega

/-- The splice loop, fed one key whose range is fully covered by the
excerpt `E` already in the tree, copies the prefix, merges the key into
`E` without changing it, and leaves the cursor past `E`. -/
theorem spliceLoop_covered (world : World) (hb : BufferId) (r : NRange)
    (A B : List Excerpt) (E : Excerpt) (kk : ExcerptKey)
    (hkk : kk = ⟨E.key.path, E.key.buffer_id, r⟩)
    (hcov1 : E.key.range.start ≤ r.start) (hcov2 : r.stop ≤ E.key.range.stop)
    (hr : r.start < r.stop)
    (hwfE : E.text_summary = E.snapshot.summaryFor E.key.range)
    (hltA : ∀ a ∈ A, ExcerptKey.cmp a.key E.key = .lt)
    (hdisjA : ∀ a ∈ A, a.key.buffer_id = E.key.buffer_id →
      a.key.intersects E.key = false)
    (hpropA : ∀ a ∈ A, a.key.range.start ≤ a.key.range.stop)
    (hpropE : E.key.range.start ≤ E.key.range.stop)
    (hB : ∀ b0, B[0]? = some b0 →
      (ExcerptKey.cmp E.key b0.key = .lt ∧
       (E.key.buffer_id = b0.key.buffer_id → E.key.intersects b0.key = false) ∧
       b0.key.range.start ≤ b0.key.range.stop)) :
    spliceLoop world [(hb, kk)] A ⟨A ++ E :: B, A.length⟩ =
      (A ++ [E], ⟨A ++ E :: B, A.length + 1⟩) := by
  subst hkk
  have hitem : (⟨A ++ E :: B, A.length⟩ : Cursor).item = some E := by
    unfold Cursor.item
    exact getElem?_middle
  have hstartEq :
      ExcerptOffset.seekCmp ⟨E.key.path, E.key.buffer_id, r.start⟩ (some E.key) = .eq :=
    stop_at_E rfl rfl hcov1 (show r.start ≤ E.key.range.stop by omega)
  have hstopEq :
      ExcerptOffset.seekCmp ⟨E.key.path, E.key.buffer_id, r.stop⟩ (some E.key) = .eq :=
    stop_at_E rfl rfl (show E.key.range.start ≤ r.stop by omega)
      (show r.stop ≤ E.key.range.stop by omega)
  have hconsumeStartE :
      consumes ⟨E.key.path, E.key.buffer_id, r.start⟩ .left E = false := by
    unfold consumes
    rw [hstartEq]
  have hconsumeStopE :
      consumes ⟨E.key.path, E.key.buffer_id, r.stop⟩ .left E = false := by
    unfold consumes
    rw [hstopEq]
  have hintEkk : E.key.intersects ⟨E.key.path, E.key.buffer_id, r⟩ = true :=
    intersects_iff.mpr ⟨rfl, show E.key.range.start ≤ r.stop by omega,
      show r.start ≤ E.key.range.stop by omega⟩
  have hintEE : E.key.intersects E.key = true :=
    intersects_iff.mpr ⟨rfl, by omega, by omega⟩
  have hlastA : ∀ last, A.getLast? = some last → last.key.intersects E.key = false := by
    intro last hl
    have hmem : last ∈ A := by
      rcases List.mem_getLast?_eq_getLast (Option.mem_def.mpr hl) with ⟨hne, hx⟩
      rw [hx]
      exact List.getLast_mem hne
    by_cases hbe : last.key.buffer_id = E.key.buffer_id
    · exact hdisjA last hmem hbe
    · exact intersects_eq_false_iff.mpr (fun hc => hbe hc.1)
  have hpushAE : push_excerpt A E = A ++ [E] := push_excerpt_no_merge A E hlastA
  have hmergedkk :
      mergedEx E ⟨⟨E.key.path, E.key.buffer_id, r⟩, world hb,
        (world hb).summaryFor r⟩ = E := by
    unfold mergedEx
    show Excerpt.mk
      { E.key with range := ⟨min E.key.range.start r.start, max E.key.range.stop r.stop⟩ }
      E.snapshot
      (E.snapshot.summaryFor ⟨min E.key.range.start r.start, max E.key.range.stop r.stop⟩) = E
    rw [Nat.min_eq_left hcov1, Nat.max_eq_left hcov2]
    show Excerpt.mk { E.key with range := E.key.range } E.snapshot
      (E.snapshot.summaryFor E.key.range) = E
    rw [← hwfE]
  have hmergedEE : mergedEx E E = E := by
    unfold mergedEx
    show Excerpt.mk
      { E.key with range := ⟨min E.key.range.start E.key.range.start,
        max E.key.range.stop E.key.range.stop⟩ }
      E.snapshot
      (E.snapshot.summaryFor ⟨min E.key.range.start E.key.range.start,
        max E.key.range.stop E.key.range.stop⟩) = E
    rw [Nat.min_self, Nat.max_self]
    show Excerpt.mk { E.key with range := E.key.range } E.snapshot
      (E.snapshot.summaryFor E.key.range) = E
    rw [← hwfE]
  have hpushMergekk :
      push_excerpt (A ++ [E]) ⟨⟨E.key.path, E.key.buffer_id, r⟩, world hb,
        (world hb).summaryFor r⟩ = A ++ [E] := by
    rw [push_excerpt_merge (A ++ [E]) E _ (List.getLast?_concat _) hintEkk,
      List.dropLast_concat, hmergedkk]
  have hpushMergeEE : push_excerpt (A ++ [E]) E = A ++ [E] := by
    rw [push_excerpt_merge (A ++ [E]) E E (List.getLast?_concat _) hintEE,
      List.dropLast_concat, hmergedEE]
  have hdropA : (A ++ E :: B).drop A.length = E :: B := List.drop_left A (E :: B)
  -- the start-side slice consumes nothing: the cursor already rests on `E`
  have hsliceStart :
      (⟨A ++ E :: B, A.length⟩ : Cursor).slice
        ⟨E.key.path, E.key.buffer_id, r.start⟩ .left =
      ([], ⟨A ++ E :: B, A.length⟩) := by
    unfold Cursor.slice
    rw [hdropA]
    rw [List.takeWhile_cons, hconsumeStartE]
    rfl
  have hnoneGt :
      ExcerptOffset.seekCmp ⟨E.key.path, E.key.buffer_id, r.stop⟩ none = .gt := rfl
  cases B with
  | nil =>
    have hseekStop :
        (⟨A ++ E :: [], A.length + 1⟩ : Cursor).seek
          ⟨E.key.path, E.key.buffer_id, r.stop⟩ .left =
        ⟨A ++ E :: [], A.length⟩ := by
      unfold Cursor.seek
      rw [takeWhile_middle (fun a ha => by
        rw [consumes_left_iff]
        exact consume_before rfl rfl (show E.key.range.start ≤ r.stop by omega)
          (hltA a ha) (hdisjA a ha) (hpropA a ha) hpropE) hconsumeStopE]
    simp only [spliceLoop, spliceStep, startBlock, endBlock, startOffset,
      endOffset, Cursor.item, Cursor.next, Option.map_some', Option.map_none',
      getElem?_middle, getElem?_middle_succ, List.getElem?_nil, hstartEq,
      hsliceStart, hpushAE, hpushMergekk, hintEkk, Ordering.isGE,
      List.append_nil, hnoneGt, hseekStop, hpushMergeEE, hintEE, if_true,
      if_false]
  | cons b0 B' =>
    obtain ⟨hltB, hdisjB, hpropB⟩ := hB b0 (by simp)
    have hstopLt :
        ExcerptOffset.seekCmp ⟨E.key.path, E.key.buffer_id, r.stop⟩ (some b0.key) = .lt :=
      after_E_lt rfl rfl (show r.stop ≤ E.key.range.stop by omega) hltB hdisjB
        hpropE hpropB
    simp only [spliceLoop, spliceStep, startBlock, endBlock, startOffset,
      endOffset, Cursor.item, Cursor.next, Option.map_some', Option.map_none',
      getElem?_middle, getElem?_middle_succ, List.getElem?_cons_zero, hstartEq,
      hsliceStart, hpushAE, hpushMergekk, hintEkk, Ordering.isGE,
      List.append_nil, hstopLt, if_true, if_false]
    simp

/-! ## No-op synchronization -/

theorem pairwise_decomp {A B : List Excerpt} {E : Excerpt}
    {R : Excerpt → Excerpt → Prop}
    (h : List.Pairwise R (A ++ E :: B)) :
    (∀ a ∈ A, R a E) ∧ (∀ b ∈ B, R E b) := by
  rw [List.pairwise_append] at h
  obtain ⟨hA, hEB, hcross⟩ := h
  rw [List.pairwise_cons] at hEB
  exact ⟨fun a ha => hcross a ha E (by simp), fun b hb => hEB.1 b hb⟩

theorem apply_renames_nil {mb : MultiBuffer} : mb.apply_renames [] = mb := by
  unfold MultiBuffer.apply_renames
  simp [Cursor.suffix]

theorem sync_nil {world : World} {mb : MultiBuffer}
    (h : mb.snapshot.buffer_snapshots = []) : mb.sync world = mb := by
  unfold MultiBuffer.sync
  rw [h]
  simp only [List.foldl_nil]
  have hsnap : { mb.snapshot with buffer_snapshots := ([] : List (BufferId × BufferSnapshot)) }
      = mb.snapshot := by
    rw [← h]
  rw [hsnap]
  exact apply_renames_nil

/-! ## Concrete scenarios -/

/-- The test buffer content `"abcdefghijklmnopqrstuvwxyz"`. -/
def abcText : List Char := "abcdefghijklmnopqrstuvwxyz".toList

/-- A buffer identity used by the scenarios. -/
def bufA : BufferId := ⟨1, 0⟩

/-- A live world where every buffer holds the alphabet and has no path
(matching `Buffer::local` of the tests). -/
def worldNoPath : World := fun _ => ⟨abcText, 0, none⟩

/-- A live world where the buffer has path `[1]`. -/
def worldPathOne : World := fun _ => ⟨abcText, 0, some [1]⟩

/-- A live world where the buffer has path `[0]` (sorts before `[1]`). -/
def worldPathZero : World := fun _ => ⟨abcText, 0, some [0]⟩

/-- Step 1 of the scenario: insert `[0,2)` and `[4,12)`. -/
def stepOne : MultiBuffer :=
  MultiBuffer.insert_excerpts worldNoPath MultiBuffer.new
    [(bufA, ⟨0, 2⟩), (bufA, ⟨4, 12⟩)]

/-- Step 2: additionally insert the already-covered `[4,6)` and `[8,10)`. -/
def stepTwo : MultiBuffer :=
  MultiBuffer.insert_excerpts worldNoPath stepOne [(bufA, ⟨4, 6⟩), (bufA, ⟨8, 10⟩)]

/-- Step 3: additionally insert `[10,14)` and `[16,18)`. -/
def stepThree : MultiBuffer :=
  MultiBuffer.insert_excerpts worldNoPath stepTwo [(bufA, ⟨10, 14⟩), (bufA, ⟨16, 18⟩)]

/-- Step 4: additionally insert the bridging `[12,17)`. -/
def stepFour : MultiBuffer :=
  MultiBuffer.insert_excerpts worldNoPath stepThree [(bufA, ⟨12, 17⟩)]

/-- C5 — the concrete scenario of the spec (§8) and of
`test_insert_excerpts`: the four insertion steps produce exactly the four
expected emitted texts. -/
theorem insert_excerpts_scenario :
    (MultiBuffer.snapshotFn worldNoPath stepOne).2.text = "\nab\nefghijkl".toList ∧
    (MultiBuffer.snapshotFn worldNoPath stepTwo).2.text = "\nab\nefghijkl".toList ∧
    (MultiBuffer.snapshotFn worldNoPath stepThree).2.text = "\nab\nefghijklmn\nqr".toList ∧
    (MultiBuffer.snapshotFn worldNoPath stepFour).2.text = "\nab\nefghijklmnopqr".toList := by
  decide

/-- First insert while the live buffer's path is `[1]`. -/
def staleInsertOne : MultiBuffer :=
  MultiBuffer.insert_excerpts worldPathOne MultiBuffer.new [(bufA, ⟨0, 5⟩)]

/-- Second insert after the live buffer was renamed to path `[0]`; since
nothing was registered, `sync` reconciles nothing. -/
def staleInsertTwo : MultiBuffer :=
  MultiBuffer.insert_excerpts worldPathZero staleInsertOne [(bufA, ⟨1, 2⟩)]

/-- C1 — violation: after the public operation `insert_excerpts`
completes, the snapshot can hold two consecutive excerpts of the same
buffer whose keys intersect (here `([0], bufA, [1,2))` followed by
`([1], bufA, [0,5))`), so the disjointness part of the global invariant —
the very property `check_invariants` asserts — fails.  The scenario needs
only public operations: an insert, an external rename of the live buffer,
and another insert. -/
theorem insert_with_stale_path_violates_disjointness :
    staleInsertTwo.snapshot.excerpts.map (fun e => e.key) =
      [⟨some [0], bufA, ⟨1, 2⟩⟩, ⟨some [1], bufA, ⟨0, 5⟩⟩] ∧
    (ExcerptKey.intersects ⟨some [0], bufA, ⟨1, 2⟩⟩ ⟨some [1], bufA, ⟨0, 5⟩⟩ = true) ∧
    ¬ disjointChain staleInsertTwo.snapshot.excerpts := by
  decide

/-- The cached snapshot of the tracked buffer before the rename. -/
def bufSnapOld : BufferSnapshot := ⟨abcText, 0, some [0]⟩

/-- An excerpt of the tracked buffer under its old path, covering
`[1,3)` (content `"bc"`). -/
def excerptBC : Excerpt := ⟨⟨some [0], bufA, ⟨1, 3⟩⟩, bufSnapOld, 2⟩

/-- A multibuffer state in which `bufA` is tracked with its old snapshot
and owns one excerpt. -/
def mbTracked : MultiBuffer := ⟨⟨[excerptBC], [(bufA, bufSnapOld)]⟩, [bufA]⟩

/-- C3 — violation: when `sync` observes that the tracked buffer's path
changed from `[0]` to `[1]`, `apply_renames` drains the buffer's excerpts
into `renamed_excerpts` but never splices them back: the excerpt (and its
content `"bc"`) is lost, while the per-buffer cache did record the new
path. -/
theorem sync_rename_drops_excerpts :
    mbTracked.snapshot.excerpts = [excerptBC] ∧
    mbTracked.snapshot.text = '\n' :: "bc".toList ∧
    (MultiBuffer.sync worldPathOne mbTracked).snapshot.excerpts = [] ∧
    (MultiBuffer.sync worldPathOne mbTracked).snapshot.text = [] ∧
    (MultiBuffer.sync worldPathOne mbTracked).snapshot.buffer_snapshots =
      [(bufA, ⟨abcText, 0, some [1]⟩)] := by
  decide

/-- One excerpt inserted into a fresh multibuffer. -/
def insertedOnce : MultiBuffer :=
  MultiBuffer.insert_excerpts worldNoPath MultiBuffer.new [(bufA, ⟨0, 2⟩)]

/-- C4 — violation: `insert_excerpts` inserts the excerpt but registers
nothing: the handle map and the per-buffer snapshot cache stay empty, so
a later `sync` — even one that observes a renamed live buffer — fetches
nothing, changes nothing, and the snapshot keeps the stale (absent) path
instead of matching the live buffer's path assignment. -/
theorem insert_does_not_register_buffer :
    insertedOnce.snapshot.excerpts ≠ [] ∧
    insertedOnce.buffers = [] ∧
    insertedOnce.snapshot.buffer_snapshots = [] ∧
    MultiBuffer.sync worldPathOne insertedOnce = insertedOnce ∧
    (MultiBuffer.snapshotFn worldPathOne insertedOnce).2.excerpts.map
      (fun e => e.key.path) = [none] := by
  decide

/-- C9 — no observable errors: an input pair whose range normalizes to
empty is silently dropped (the result is as if the pair had not been
supplied), and two keys intersect iff they have the same `buffer_id` and
their closed intervals overlap or touch. -/
theorem insert_error_free_empty_dropped (world : World) (mb : MultiBuffer)
    (p q : List (BufferId × NRange)) (h : BufferId) (r : NRange)
    (hr : r.isEmpty = true) (a b : ExcerptKey) :
    MultiBuffer.insert_excerpts world mb (p ++ (h, r) :: q) =
      MultiBuffer.insert_excerpts world mb (p ++ q) ∧
    (a.intersects b = true ↔
      (a.buffer_id = b.buffer_id ∧ a.range.start ≤ b.range.stop ∧
       b.range.start ≤ a.range.stop)) := by
  constructor
  · have hnorm : normalizePairs world (p ++ (h, r) :: q) = normalizePairs world (p ++ q) := by
      simp [normalizePairs, List.filterMap_append, List.filterMap_cons, hr]
    unfold MultiBuffer.insert_excerpts
    rw [hnorm]
  · simp [ExcerptKey.intersects, Bool.and_eq_true, beq_iff_eq,
      decide_eq_true_eq, and_assoc]

/-- Witness for `insert_error_free_empty_dropped` at concrete inputs. -/
theorem insert_error_free_empty_dropped_witness :
    (MultiBuffer.insert_excerpts worldNoPath MultiBuffer.new
        ([(bufA, ⟨0, 2⟩)] ++ (bufA, ⟨3, 3⟩) :: []) =
      MultiBuffer.insert_excerpts worldNoPath MultiBuffer.new
        ([(bufA, ⟨0, 2⟩)] ++ [])) ∧
    (ExcerptKey.intersects ⟨none, bufA, ⟨0, 4⟩⟩ ⟨none, bufA, ⟨4, 6⟩⟩ = true ↔
      ((⟨none, bufA, ⟨0, 4⟩⟩ : ExcerptKey).buffer_id =
        (⟨none, bufA, ⟨4, 6⟩⟩ : ExcerptKey).buffer_id ∧
       (0 : Nat) ≤ 6 ∧ (4 : Nat) ≤ 4)) :=
  insert_error_free_empty_dropped worldNoPath MultiBuffer.new
    [(bufA, ⟨0, 2⟩)] [] bufA ⟨3, 3⟩ (by decide)
    ⟨none, bufA, ⟨0, 4⟩⟩ ⟨none, bufA, ⟨4, 6⟩⟩

/-- Well-formedness of the cached text summaries: each excerpt's
`text_summary` is the text length of its range in its snapshot — exactly
how both `insert_excerpts` (lines 107-114) and `push_excerpt`
(lines 243-245) compute it. -/
def summariesWF (s : MultiBufferSnapshot) : Prop :=
  ∀ e ∈ s.excerpts, e.text_summary = e.snapshot.summaryFor e.key.range

/-- The length of the emitted text, chunk by chunk. -/
theorem text_length_flatten (l : List Excerpt)
    (h : ∀ e ∈ l, e.text_summary = e.snapshot.summaryFor e.key.range) :
    ((l.map fun e => '\n' :: e.snapshot.textFor e.key.range).flatten).length
      = (l.map fun e => e.text_summary).sum + l.length := by
  induction l with
  | nil => rfl
  | cons a t ih =>
    have ha := h a (by simp)
    have ht : ∀ e ∈ t, e.text_summary = e.snapshot.summaryFor e.key.range :=
      fun e he => h e (by simp [he])
    simp only [List.map_cons, List.flatten_cons, List.length_append,
      List.length_cons, List.sum_cons, ih ht, ha, BufferSnapshot.summaryFor]
    omega

/-- C10 — `len()` is the aggregated text length: zero on the empty
multibuffer, the sum of the excerpts' range text lengths, and the emitted
text (which prepends one separator character per excerpt) is exactly
`len() + k` characters for `k` excerpts. -/
theorem len_is_aggregated_text_length (s : MultiBufferSnapshot)
    (h : summariesWF s) :
    MultiBuffer.new.snapshot.len = 0 ∧
    s.len = (s.excerpts.map fun e => (e.snapshot.textFor e.key.range).length).sum ∧
    s.text.length = s.len + s.excerpts.length := by
  refine ⟨rfl, ?_, ?_⟩
  · unfold MultiBufferSnapshot.len
    congr 1
    exact List.map_congr_left h
  · unfold MultiBufferSnapshot.text MultiBufferSnapshot.len
    exact text_length_flatten s.excerpts h

/-- Witness for `len_is_aggregated_text_length` at the concrete scenario
snapshot. -/
theorem len_is_aggregated_text_length_witness :
    MultiBuffer.new.snapshot.len = 0 ∧
    stepOne.snapshot.len =
      (stepOne.snapshot.excerpts.map fun e =>
        (e.snapshot.textFor e.key.range).length).sum ∧
    stepOne.snapshot.text.length =
      stepOne.snapshot.len + stepOne.snapshot.excerpts.length :=
  len_is_aggregated_text_length stepOne.snapshot (by unfold summariesWF; decide)

/-- C6 — idempotence of covered insertion: inserting a single pair whose
(nonempty) range is already fully covered by an existing excerpt of the
same buffer under the buffer's current path leaves the multibuffer
exactly unchanged — same excerpt boundaries, hence same emitted text.
The hypotheses are the global invariant the code maintains (strict key
order, same-buffer disjointness, well-formed ranges and summaries) and
the fact that no buffer is tracked (true of every reachable state, see
the C4 analysis). -/
theorem insert_covered_is_noop (world : World) (mb : MultiBuffer)
    (hb : BufferId) (r : NRange) (E : Excerpt)
    (hsorted : List.Chain' (fun a b => ExcerptKey.cmp a.key b.key = .lt)
      mb.snapshot.excerpts)
    (hdisj : List.Pairwise (fun a b => a.key.buffer_id = b.key.buffer_id →
      a.key.intersects b.key = false) mb.snapshot.excerpts)
    (hproper : ∀ e ∈ mb.snapshot.excerpts, e.key.range.start ≤ e.key.range.stop)
    (hwf : summariesWF mb.snapshot)
    (hcache : mb.snapshot.buffer_snapshots = [])
    (hE : E ∈ mb.snapshot.excerpts)
    (hEbuf : E.key.buffer_id = hb) (hEpath : E.key.path = (world hb).path)
    (hcov1 : E.key.range.start ≤ r.start) (hcov2 : r.stop ≤ E.key.range.stop)
    (hr : r.start < r.stop) :
    MultiBuffer.insert_excerpts world mb [(hb, r)] = mb := by
  obtain ⟨A, B, hsplit⟩ := List.append_of_mem hE
  have hpw := chain'_lt_pairwise hsorted
  unfold summariesWF at hwf
  rw [hsplit] at hpw hdisj hproper hwf
  obtain ⟨hltA, hltB⟩ := pairwise_decomp hpw
  obtain ⟨hdisjA, hdisjB⟩ := pairwise_decomp hdisj
  have hpropE : E.key.range.start ≤ E.key.range.stop := hproper E (by simp)
  have hpropA : ∀ a ∈ A, a.key.range.start ≤ a.key.range.stop :=
    fun a ha => hproper a (by simp [ha])
  have hwfE : E.text_summary = E.snapshot.summaryFor E.key.range := hwf E (by simp)
  have hkk2 : (⟨(world hb).path, hb, r⟩ : ExcerptKey) =
      ⟨E.key.path, E.key.buffer_id, r⟩ := by
    rw [hEpath, hEbuf]
  have hnorm : normalizePairs world [(hb, r)] =
      [(hb, ⟨E.key.path, E.key.buffer_id, r⟩)] := by
    simp only [normalizePairs, List.filterMap_cons, List.filterMap_nil]
    rw [← hkk2]
    have : r.isEmpty = false := by
      unfold NRange.isEmpty
      simp [hr]
    simp [this]
  have hconsumeA : ∀ a ∈ A,
      consumes ⟨E.key.path, E.key.buffer_id, r.start⟩ .left a = true := by
    intro a ha
    rw [consumes_left_iff]
    exact consume_before rfl rfl hcov1 (hltA a ha) (hdisjA a ha) (hpropA a ha) hpropE
  have hconsumeStartE :
      consumes ⟨E.key.path, E.key.buffer_id, r.start⟩ .left E = false := by
    unfold consumes
    rw [stop_at_E rfl rfl hcov1 (show r.start ≤ E.key.range.stop by omega)]
  have hslice0 : (⟨A ++ E :: B, 0⟩ : Cursor).slice
      (startOffset ⟨E.key.path, E.key.buffer_id, r⟩) .left =
      (A, ⟨A ++ E :: B, A.length⟩) := by
    unfold Cursor.slice startOffset
    rw [List.drop_zero, takeWhile_middle hconsumeA hconsumeStartE]
    simp
  have hloop := spliceLoop_covered world hb r A B E
    ⟨E.key.path, E.key.buffer_id, r⟩ rfl hcov1 hcov2 hr hwfE hltA hdisjA
    hpropA hpropE
    (fun b0 hb0 => by
      have hmem : b0 ∈ B := by
        cases B with
        | nil => simp at hb0
        | cons x xs =>
          simp at hb0
          simp [hb0]
      exact ⟨hltB b0 hmem, hdisjB b0 hmem, hproper b0 (by simp [hmem])⟩)
  have hsuffix : Cursor.suffix ⟨A ++ E :: B, A.length + 1⟩ = B := by
    unfold Cursor.suffix
    exact drop_middle_succ
  simp only [MultiBuffer.insert_excerpts]
  rw [sync_nil hcache, hnorm]
  have hsd : dedupExcerpts (sortListBy keyLE
      [(hb, (⟨E.key.path, E.key.buffer_id, r⟩ : ExcerptKey))]) =
      [(hb, ⟨E.key.path, E.key.buffer_id, r⟩)] := rfl
  rw [hsd]
  simp only [List.head?_cons, hsplit, hslice0, hloop, hsuffix]
  rw [List.append_assoc]
  simp only [List.singleton_append]
  rw [← hsplit]

/-- Witness for `insert_covered_is_noop`: re-inserting `[5,9)` into the
scenario snapshot, whose excerpt `[4,12)` covers it, changes nothing. -/
theorem insert_covered_is_noop_witness :
    MultiBuffer.insert_excerpts worldNoPath stepOne [(bufA, ⟨5, 9⟩)] = stepOne :=
  insert_covered_is_noop worldNoPath stepOne bufA ⟨5, 9⟩
    ⟨⟨none, bufA, ⟨4, 12⟩⟩, ⟨abcText, 0, none⟩, 8⟩
    (by
      rw [show stepOne.snapshot.excerpts =
        [⟨⟨none, bufA, ⟨0, 2⟩⟩, ⟨abcText, 0, none⟩, 2⟩,
         ⟨⟨none, bufA, ⟨4, 12⟩⟩, ⟨abcText, 0, none⟩, 8⟩] from by decide]
      exact List.chain'_cons.mpr ⟨by decide, List.chain'_singleton _⟩)
    (by
      rw [show stepOne.snapshot.excerpts =
        [⟨⟨none, bufA, ⟨0, 2⟩⟩, ⟨abcText, 0, none⟩, 2⟩,
         ⟨⟨none, bufA, ⟨4, 12⟩⟩, ⟨abcText, 0, none⟩, 8⟩] from by decide]
      exact List.pairwise_cons.mpr ⟨by decide, List.pairwise_singleton _ _⟩)
    (by decide)
    (by unfold summariesWF; decide) (by decide) (by decide)
    (by decide) (by decide) (by decide) (by decide) (by decide)

/-! ## Interval theory for the union-equivalence claim

A canonical range list is strictly gapped (consecutive closed intervals
do not touch) with nonempty ranges; such lists are uniquely determined
by their sets of covered points. -/

/-- Consecutive ranges leave a gap: the closed intervals do not touch. -/
def gapRel (a b : NRange) : Prop := a.stop < b.start

/-- A canonical (sorted, coalesced, nonempty) range list. -/
def canonR (rs : List NRange) : Prop :=
  (∀ r ∈ rs, r.start < r.stop) ∧ List.Chain' gapRel rs

/-- The set of points covered by a range list. -/
def ptsIn (rs : List NRange) (y : Nat) : Prop :=
  ∃ r ∈ rs, r.start ≤ y ∧ y < r.stop

theorem ptsIn_nil {y : Nat} : ¬ ptsIn [] y := by
  rintro ⟨r, hr, _⟩
  simp at hr

theorem ptsIn_cons {a : NRange} {t : List NRange} {y : Nat} :
    ptsIn (a :: t) y ↔ (a.start ≤ y ∧ y < a.stop) ∨ ptsIn t y := by
  constructor
  · rintro ⟨r, hr, h1, h2⟩
    rcases List.mem_cons.mp hr with h | h
    · subst h; exact Or.inl ⟨h1, h2⟩
    · exact Or.inr ⟨r, h, h1, h2⟩
  · rintro (⟨h1, h2⟩ | ⟨r, hr, h1, h2⟩)
    · exact ⟨a, by simp, h1, h2⟩
    · exact ⟨r, by simp [hr], h1, h2⟩

theorem ptsIn_append {l1 l2 : List NRange} {y : Nat} :
    ptsIn (l1 ++ l2) y ↔ ptsIn l1 y ∨ ptsIn l2 y := by
  constructor
  · rintro ⟨r, hr, h1, h2⟩
    rcases List.mem_append.mp hr with h | h
    · exact Or.inl ⟨r, h, h1, h2⟩
    · exact Or.inr ⟨r, h, h1, h2⟩
  · rintro (⟨r, hr, h1, h2⟩ | ⟨r, hr, h1, h2⟩)
    · exact ⟨r, by simp [hr], h1, h2⟩
    · exact ⟨r, by simp [hr], h1, h2⟩

/-- In a canonical list, everything after the head starts past the
head's stop. -/
theorem canon_head_gap : ∀ {a : NRange} {t : List NRange},
    canonR (a :: t) → ∀ r ∈ t, a.stop < r.start := by
  intro a t h
  induction t generalizing a with
  | nil => intro r hr; simp at hr
  | cons b t2 ih =>
    intro r hr
    obtain ⟨hne, hg⟩ := h
    have hab : a.stop < b.start := (List.chain'_cons.mp hg).1
    rcases List.mem_cons.mp hr with h | h
    · subst h; exact hab
    · have hbt : canonR (b :: t2) :=
        ⟨fun x hx => hne x (by simp [hx]), (List.chain'_cons.mp hg).2⟩
      have := ih hbt r h
      have hbb : b.start < b.stop := hne b (by simp)
      omega

theorem canonR_tail {a : NRange} {t : List NRange} (h : canonR (a :: t)) :
    canonR t :=
  ⟨fun x hx => h.1 x (by simp [hx]), (List.chain'_cons'.mp h.2).2⟩

/-- Canonical lists are determined by their covered points. -/
theorem canon_unique : ∀ {l1 l2 : List NRange}, canonR l1 → canonR l2 →
    (∀ y, ptsIn l1 y ↔ ptsIn l2 y) → l1 = l2 := by
  intro l1
  induction l1 with
  | nil =>
    intro l2 h1 h2 hpts
    cases l2 with
    | nil => rfl
    | cons b t2 =>
      exfalso
      have hb : ptsIn (b :: t2) b.start :=
        ptsIn_cons.mpr (Or.inl ⟨Nat.le_refl _, h2.1 b (by simp)⟩)
      exact ptsIn_nil ((hpts b.start).mpr hb)
  | cons a t1 ih =>
    intro l2 h1 h2 hpts
    cases l2 with
    | nil =>
      exfalso
      have ha : ptsIn (a :: t1) a.start :=
        ptsIn_cons.mpr (Or.inl ⟨Nat.le_refl _, h1.1 a (by simp)⟩)
      exact ptsIn_nil ((hpts a.start).mp ha)
    | cons b t2 =>
      have hane : a.start < a.stop := h1.1 a (by simp)
      have hbne : b.start < b.stop := h2.1 b (by simp)
      have hgap1 := canon_head_gap h1
      have hgap2 := canon_head_gap h2
      -- the heads have the same start
      have hstart : a.start = b.start := by
        by_contra hne
        rcases Nat.lt_or_ge a.start b.start with hlt | hge
        · have ha : ptsIn (a :: t1) a.start :=
            ptsIn_cons.mpr (Or.inl ⟨Nat.le_refl _, hane⟩)
          rcases ptsIn_cons.mp ((hpts a.start).mp ha) with ⟨hb1, _⟩ | ⟨r, hr, hr1, hr2⟩
          · omega
          · have := hgap2 r hr
            omega
        · have hlt : b.start < a.start := by omega
          have hb : ptsIn (b :: t2) b.start :=
            ptsIn_cons.mpr (Or.inl ⟨Nat.le_refl _, hbne⟩)
          rcases ptsIn_cons.mp ((hpts b.start).mpr hb) with ⟨ha1, _⟩ | ⟨r, hr, hr1, hr2⟩
          · omega
          · have := hgap1 r hr
            omega
      -- the heads have the same stop
      have hstop : a.stop = b.stop := by
        by_contra hne
        rcases Nat.lt_or_ge a.stop b.stop with hlt | hge
        · have hb : ptsIn (b :: t2) a.stop :=
            ptsIn_cons.mpr (Or.inl ⟨by omega, hlt⟩)
          rcases ptsIn_cons.mp ((hpts a.stop).mpr hb) with ⟨_, h2'⟩ | ⟨r, hr, hr1, hr2⟩
          · omega
          · have := hgap1 r hr
            omega
        · have hlt : b.stop < a.stop := by omega
          have ha : ptsIn (a :: t1) b.stop :=
            ptsIn_cons.mpr (Or.inl ⟨by omega, hlt⟩)
          rcases ptsIn_cons.mp ((hpts b.stop).mp ha) with ⟨_, h2'⟩ | ⟨r, hr, hr1, hr2⟩
          · omega
          · have := hgap2 r hr
            omega
      have hhead : a = b := by
        cases a; cases b
        simp_all
      subst hhead
      -- tails cover the same points
      have htails : ∀ y, ptsIn t1 y ↔ ptsIn t2 y := by
        intro y
        constructor
        · intro hy
          obtain ⟨r, hr, hr1, hr2⟩ := hy
          have hya : a.stop < r.start := hgap1 r hr
          have : ptsIn (a :: t2) y := (hpts y).mp (ptsIn_cons.mpr (Or.inr ⟨r, hr, hr1, hr2⟩))
          rcases ptsIn_cons.mp this with ⟨_, h2'⟩ | h2'
          · omega
          · exact h2'
        · intro hy
          obtain ⟨r, hr, hr1, hr2⟩ := hy
          have hya : a.stop < r.start := hgap2 r hr
          have : ptsIn (a :: t1) y := (hpts y).mpr (ptsIn_cons.mpr (Or.inr ⟨r, hr, hr1, hr2⟩))
          rcases ptsIn_cons.mp this with ⟨_, h2'⟩ | h2'
          · omega
          · exact h2'
      rw [ih (canonR_tail h1) (canonR_tail h2) htails]

/-! ## The batch pipeline at the range level

`insert_excerpts` sorts the incoming keys and coalesces intersecting
ones (lines 60-69); for a single buffer this acts on the ranges alone.
The randomized test's reference computation sorts by `(start, end)` and
merges with the same union closure. -/

/-- The closed intervals overlap or touch (`a.start <= b.end &&
b.start <= a.end`), as a Bool mirroring `ExcerptKey::intersects` for two
keys of the same buffer. -/
def touchB (a b : NRange) : Bool :=
  decide (a.start ≤ b.stop) && decide (b.start ≤ a.stop)

theorem touchB_iff {a b : NRange} :
    touchB a b = true ↔ (a.start ≤ b.stop ∧ b.start ≤ a.stop) := by
  simp [touchB]

/-- The union-widening of the kept range by the current range, mirroring
the `dedup_by` closures (lines 61-69 and the test's lines 492-500). -/
def widenR (kept cur : NRange) : NRange :=
  ⟨min cur.start kept.start, max cur.stop kept.stop⟩

/-- The `dedup_by` pass on ranges: drop the current element into the kept
one when they touch; emit the kept one otherwise. -/
def dedupRGo (kept : NRange) : List NRange → List NRange
  | [] => [kept]
  | r :: rest =>
    if touchB r kept then dedupRGo (widenR kept r) rest
    else kept :: dedupRGo r rest

def dedupR : List NRange → List NRange
  | [] => []
  | x :: rest => dedupRGo x rest

/-- The `sort_unstable_by_key` order of line 60, restricted to one buffer:
`range.start` ascending, then `range.end` descending. -/
def rangeLE (a b : NRange) : Bool :=
  match (natCmp a.start b.start).then (natCmp b.stop a.stop) with
  | .gt => false
  | _ => true

/-- The randomized test's sort order (line 491): `(start, end)` ascending. -/
def refLE (a b : NRange) : Bool :=
  match (natCmp a.start b.start).then (natCmp a.stop b.stop) with
  | .gt => false
  | _ => true

theorem rangeLE_total (a b : NRange) : rangeLE a b = true ∨ rangeLE b a = true := by
  unfold rangeLE
  rcases h : (natCmp a.start b.start).then (natCmp b.stop a.stop) with _ | _ | _
  · left; rfl
  · left; rfl
  · right
    rw [then_eq_gt, natCmp_eq_gt, natCmp_eq_eq, natCmp_eq_gt] at h
    have : (natCmp b.start a.start).then (natCmp a.stop b.stop) ≠ .gt := by
      intro hcon
      rw [then_eq_gt, natCmp_eq_gt, natCmp_eq_eq, natCmp_eq_gt] at hcon
      omega
    rcases h2 : (natCmp b.start a.start).then (natCmp a.stop b.stop) with _ | _ | _ <;>
      simp_all

theorem refLE_total (a b : NRange) : refLE a b = true ∨ refLE b a = true := by
  unfold refLE
  rcases h : (natCmp a.start b.start).then (natCmp a.stop b.stop) with _ | _ | _
  · left; rfl
  · left; rfl
  · right
    rw [then_eq_gt, natCmp_eq_gt, natCmp_eq_eq, natCmp_eq_gt] at h
    have : (natCmp b.start a.start).then (natCmp b.stop a.stop) ≠ .gt := by
      intro hcon
      rw [then_eq_gt, natCmp_eq_gt, natCmp_eq_eq, natCmp_eq_gt] at hcon
      omega
    rcases h2 : (natCmp b.start a.start).then (natCmp b.stop a.stop) with _ | _ | _ <;>
      simp_all

theorem rangeLE_start {a b : NRange} (h : rangeLE a b = true) : a.start ≤ b.start := by
  unfold rangeLE at h
  rcases h2 : (natCmp a.start b.start).then (natCmp b.stop a.stop) with _ | _ | _ <;>
    rw [h2] at h
  · rw [then_eq_lt, natCmp_eq_lt, natCmp_eq_eq, natCmp_eq_lt] at h2
    omega
  · rw [then_eq_eq, natCmp_eq_eq, natCmp_eq_eq] at h2
    omega
  · simp at h

theorem refLE_start {a b : NRange} (h : refLE a b = true) : a.start ≤ b.start := by
  unfold refLE at h
  rcases h2 : (natCmp a.start b.start).then (natCmp a.stop b.stop) with _ | _ | _ <;>
    rw [h2] at h
  · rw [then_eq_lt, natCmp_eq_lt, natCmp_eq_eq, natCmp_eq_lt] at h2
    omega
  · rw [then_eq_eq, natCmp_eq_eq, natCmp_eq_eq] at h2
    omega
  · simp at h

/-! ## Insertion sort lemmas -/

theorem mem_insertSorted {le : α → α → Bool} {x a : α} :
    ∀ {l : List α}, a ∈ insertSorted le x l ↔ (a = x ∨ a ∈ l) := by
  intro l
  induction l with
  | nil => simp [insertSorted]
  | cons y ys ih =>
    unfold insertSorted
    split
    · simp
    · rw [List.mem_cons, ih]
      constructor
      · rintro (h | h | h)
        · exact Or.inr (by simp [h])
        · exact Or.inl h
        · exact Or.inr (by simp [h])
      · rintro (h | h)
        · exact Or.inr (Or.inl h)
        · rcases List.mem_cons.mp h with h | h
          · exact Or.inl h
          · exact Or.inr (Or.inr h)

theorem mem_sortListBy {le : α → α → Bool} {a : α} :
    ∀ {l : List α}, a ∈ sortListBy le l ↔ a ∈ l := by
  intro l
  induction l with
  | nil => simp [sortListBy]
  | cons y ys ih =>
    show a ∈ insertSorted le y (sortListBy le ys) ↔ _
    rw [mem_insertSorted]
    simp [ih]

theorem chain'_insertSorted {le : α → α → Bool}
    (htot : ∀ a b, le a b = true ∨ le b a = true) (x : α) :
    ∀ {l : List α}, List.Chain' (fun a b => le a b = true) l →
    List.Chain' (fun a b => le a b = true) (insertSorted le x l) ∧
    (∀ z, (insertSorted le x l).head? = some z → z = x ∨ l.head? = some z) := by
  intro l
  induction l with
  | nil =>
    intro _
    refine ⟨List.chain'_singleton _, ?_⟩
    intro z hz
    simp [insertSorted] at hz
    exact Or.inl hz.symm
  | cons y ys ih =>
    intro hc
    unfold insertSorted
    split <;> rename_i hxy
    · refine ⟨List.chain'_cons.mpr ⟨hxy, hc⟩, ?_⟩
      intro z hz
      simp at hz
      exact Or.inl hz.symm
    · have hyx : le y x = true := by
        rcases htot x y with h | h
        · exact absurd h hxy
        · exact h
      obtain ⟨hchain, hhead⟩ := ih (List.chain'_cons'.mp hc).2
      refine ⟨List.chain'_cons'.mpr ⟨?_, hchain⟩, ?_⟩
      · intro z hz
        rcases hhead z hz with h | h
        · rw [h]; exact hyx
        · exact (List.chain'_cons'.mp hc).1 z h
      · intro z hz
        simp at hz
        exact Or.inr (by simp [hz])

theorem chain'_sortListBy {le : α → α → Bool}
    (htot : ∀ a b, le a b = true ∨ le b a = true) :
    ∀ (l : List α), List.Chain' (fun a b => le a b = true) (sortListBy le l) := by
  intro l
  induction l with
  | nil => exact List.chain'_nil
  | cons y ys ih =>
    exact (chain'_insertSorted htot y ih).1

theorem ptsIn_congr_mem {l1 l2 : List NRange}
    (h : ∀ r, r ∈ l1 ↔ r ∈ l2) {y : Nat} : ptsIn l1 y ↔ ptsIn l2 y := by
  unfold ptsIn
  constructor
  · rintro ⟨r, hr, h1, h2⟩
    exact ⟨r, (h r).mp hr, h1, h2⟩
  · rintro ⟨r, hr, h1, h2⟩
    exact ⟨r, (h r).mpr hr, h1, h2⟩

theorem chain_startLE_all {x : NRange} {t : List NRange}
    (h : List.Chain' (fun a b : NRange => a.start ≤ b.start) (x :: t)) :
    ∀ r ∈ t, x.start ≤ r.start := by
  induction t generalizing x with
  | nil => intro r hr; simp at hr
  | cons y ys ih =>
    intro r hr
    have hxy : x.start ≤ y.start := (List.chain'_cons.mp h).1
    rcases List.mem_cons.mp hr with h2 | h2
    · subst h2; exact hxy
    · have := ih (List.chain'_cons.mp h).2 r h2
      omega

/-- Full characterization of the `dedup_by` pass over a start-sorted,
well-formed range list: the result starts where the accumulator starts,
is gapped and well-formed, covers exactly the accumulated points, and is
nonempty-ranged whenever the inputs are. -/
theorem dedupRGo_spec : ∀ (xs : List NRange) (k : NRange),
    (∀ x ∈ xs, k.start ≤ x.start) →
    List.Chain' (fun a b : NRange => a.start ≤ b.start) xs →
    (∀ x ∈ xs, x.start ≤ x.stop) → k.start ≤ k.stop →
    (∃ r0 t, dedupRGo k xs = r0 :: t ∧ r0.start = k.start) ∧
    List.Chain' gapRel (dedupRGo k xs) ∧
    (∀ r ∈ dedupRGo k xs, r.start ≤ r.stop) ∧
    (∀ y, ptsIn (dedupRGo k xs) y ↔ ((k.start ≤ y ∧ y < k.stop) ∨ ptsIn xs y)) ∧
    ((k.start < k.stop ∧ ∀ x ∈ xs, x.start < x.stop) →
      ∀ r ∈ dedupRGo k xs, r.start < r.stop) := by
  intro xs
  induction xs with
  | nil =>
    intro k _ _ _ hkwf
    refine ⟨⟨k, [], rfl, rfl⟩, List.chain'_singleton _, ?_, ?_, ?_⟩
    · intro r hr
      simp [dedupRGo] at hr
      subst hr; exact hkwf
    · intro y
      unfold dedupRGo
      rw [ptsIn_cons]
    · rintro ⟨hk, _⟩ r hr
      simp [dedupRGo] at hr
      subst hr; exact hk
  | cons x rest ih =>
    intro k hks hsorted hwf hkwf
    have hxs : k.start ≤ x.start := hks x (by simp)
    have hxwf : x.start ≤ x.stop := hwf x (by simp)
    have hrest_sorted := (List.chain'_cons'.mp hsorted).2
    have hrest_ge : ∀ r ∈ rest, x.start ≤ r.start := chain_startLE_all hsorted
    have hrest_wf : ∀ r ∈ rest, r.start ≤ r.stop := fun r hr => hwf r (by simp [hr])
    show _ ∧ _
    unfold dedupRGo
    split <;> rename_i htch
    · -- the current range touches the kept one: widen and continue
      rw [touchB_iff] at htch
      have hu : widenR k x = ⟨k.start, max x.stop k.stop⟩ := by
        unfold widenR
        have : min x.start k.start = k.start := by omega
        rw [this]
      rw [hu]
      have hknext : ∀ r ∈ rest, k.start ≤ r.start :=
        fun r hr => le_trans hxs (hrest_ge r hr)
      obtain ⟨hhead, hgap, hwf2, hpts, hne⟩ :=
        ih ⟨k.start, max x.stop k.stop⟩ hknext hrest_sorted hrest_wf
          (show k.start ≤ max x.stop k.stop by omega)
      have hhead' : ∃ r0 t, dedupRGo ⟨k.start, max x.stop k.stop⟩ rest = r0 :: t ∧
          r0.start = k.start := hhead
      have hpts' : ∀ y, ptsIn (dedupRGo ⟨k.start, max x.stop k.stop⟩ rest) y ↔
          ((k.start ≤ y ∧ y < max x.stop k.stop) ∨ ptsIn rest y) :=
        fun y => hpts y
      refine ⟨hhead', hgap, hwf2, ?_, ?_⟩
      · intro y
        rw [hpts' y, ptsIn_cons]
        constructor
        · rintro (h | h)
          · rcases Nat.lt_or_ge y k.stop with h2 | h2
            · exact Or.inl ⟨h.1, h2⟩
            · refine Or.inr (Or.inl ⟨?_, ?_⟩) <;> omega
          · exact Or.inr (Or.inr h)
        · rintro (h | h | h)
          · exact Or.inl ⟨h.1, by omega⟩
          · exact Or.inl ⟨by omega, by omega⟩
          · exact Or.inr h
      · rintro ⟨hk, hall⟩
        exact hne ⟨show k.start < max x.stop k.stop by
            have := hall x (by simp); omega,
          fun r hr => hall r (by simp [hr])⟩
    · -- no touch: emit the kept range, continue from the current one
      have hnt : ¬ (x.start ≤ k.stop ∧ k.start ≤ x.stop) := by
        intro hc
        exact htch (touchB_iff.mpr hc)
      have hgapk : k.stop < x.start := by
        rcases Nat.lt_or_ge k.stop x.start with h | h
        · exact h
        · exact absurd ⟨h, by omega⟩ hnt
      obtain ⟨⟨r0, t0, heq, hr0⟩, hgap, hwf2, hpts, hne⟩ :=
        ih x hrest_ge hrest_sorted hrest_wf hxwf
      refine ⟨⟨k, dedupRGo x rest, rfl, rfl⟩, ?_, ?_, ?_, ?_⟩
      · rw [List.chain'_cons']
        refine ⟨?_, hgap⟩
        intro z hz
        rw [heq] at hz
        simp at hz
        subst hz
        show k.stop < r0.start
        omega
      · intro r hr
        rcases List.mem_cons.mp hr with h | h
        · subst h; exact hkwf
        · exact hwf2 r h
      · intro y
        rw [ptsIn_cons, hpts y, ptsIn_cons]
      · rintro ⟨hk, hall⟩ r hr
        rcases List.mem_cons.mp hr with h | h
        · subst h; exact hk
        · exact hne ⟨hall x (by simp), fun z hz => hall z (by simp [hz])⟩ r h

/-- Everything after the head of a gapped, well-formed list starts past
the head's stop. -/
theorem gap_head_all : ∀ {x : NRange} {t : List NRange},
    List.Chain' gapRel (x :: t) → (∀ r ∈ x :: t, r.start ≤ r.stop) →
    ∀ r ∈ t, x.stop < r.start := by
  intro x t
  induction t generalizing x with
  | nil => intro _ _ r hr; simp at hr
  | cons b t2 ih =>
    intro hg hwf r hr
    have hxb : x.stop < b.start := (List.chain'_cons.mp hg).1
    rcases List.mem_cons.mp hr with h | h
    · subst h; exact hxb
    · have := ih (List.chain'_cons.mp hg).2 (fun z hz => hwf z (by simp at hz ⊢; tauto)) r h
      have hbwf : b.start ≤ b.stop := hwf b (by simp)
      omega

/-- Filtering preserves gappedness of a well-formed list. -/
theorem gapped_filter {p : NRange → Bool} :
    ∀ {l : List NRange}, List.Chain' gapRel l → (∀ r ∈ l, r.start ≤ r.stop) →
    List.Chain' gapRel (l.filter p) := by
  intro l
  induction l with
  | nil => intro _ _; simp
  | cons x t ih =>
    intro hg hwf
    have hall := gap_head_all hg hwf
    have ihres := ih (List.chain'_cons'.mp hg).2 (fun z hz => hwf z (by simp [hz]))
    rw [List.filter_cons]
    split
    · rw [List.chain'_cons']
      refine ⟨?_, ihres⟩
      intro z hz
      have hzmem : z ∈ t.filter p := by
        cases heq : t.filter p with
        | nil => rw [heq] at hz; simp at hz
        | cons w ws =>
          rw [heq] at hz
          simp at hz
          simp [heq, hz]
      exact hall z (List.mem_of_mem_filter hzmem)
    · exact ihres

theorem ptsIn_filter_nonempty {l : List NRange} {y : Nat} :
    ptsIn (l.filter fun r => decide (r.start < r.stop)) y ↔ ptsIn l y := by
  constructor
  · rintro ⟨r, hr, h1, h2⟩
    exact ⟨r, List.mem_of_mem_filter hr, h1, h2⟩
  · rintro ⟨r, hr, h1, h2⟩
    refine ⟨r, List.mem_filter.mpr ⟨hr, by simp; omega⟩, h1, h2⟩

/-- The combined `dedup_by` over any start-sorted well-formed list. -/
theorem dedupR_spec {xs : List NRange}
    (hsorted : List.Chain' (fun a b : NRange => a.start ≤ b.start) xs)
    (hwf : ∀ x ∈ xs, x.start ≤ x.stop) :
    List.Chain' gapRel (dedupR xs) ∧
    (∀ r ∈ dedupR xs, r.start ≤ r.stop) ∧
    (∀ y, ptsIn (dedupR xs) y ↔ ptsIn xs y) ∧
    ((∀ x ∈ xs, x.start < x.stop) → ∀ r ∈ dedupR xs, r.start < r.stop) := by
  cases xs with
  | nil =>
    refine ⟨List.chain'_nil, by simp [dedupR], ?_, by simp [dedupR]⟩
    intro y
    simp [dedupR]
  | cons x rest =>
    have hx : x.start ≤ x.stop := hwf x (by simp)
    obtain ⟨_, hgap, hwf2, hpts, hne⟩ := dedupRGo_spec rest x
      (chain_startLE_all hsorted) (List.chain'_cons'.mp hsorted).2
      (fun r hr => hwf r (by simp [hr])) hx
    refine ⟨hgap, hwf2, ?_, ?_⟩
    · intro y
      show ptsIn (dedupRGo x rest) y ↔ _
      rw [hpts y, ptsIn_cons]
    · intro hall
      exact hne ⟨hall x (by simp), fun r hr => hall r (by simp [hr])⟩

/-- The batch pipeline of `insert_excerpts` at the range level. -/
def codeBatchR (rs : List NRange) : List NRange :=
  dedupR (sortListBy rangeLE rs)

/-- The reference merge of the randomized test and §8: sort by
`(start, end)`, coalesce touching ranges, drop empties. -/
def refMergeRanges (rs : List NRange) : List NRange :=
  (dedupR (sortListBy refLE rs)).filter fun r => decide (r.start < r.stop)

theorem codeBatchR_canon {rs : List NRange}
    (hne : ∀ r ∈ rs, r.start < r.stop) :
    canonR (codeBatchR rs) ∧ (∀ y, ptsIn (codeBatchR rs) y ↔ ptsIn rs y) := by
  have hsorted : List.Chain' (fun a b : NRange => a.start ≤ b.start)
      (sortListBy rangeLE rs) :=
    (chain'_sortListBy rangeLE_total rs).imp fun a b h => rangeLE_start h
  have hmem : ∀ r, r ∈ sortListBy rangeLE rs ↔ r ∈ rs := fun r => mem_sortListBy
  have hwf : ∀ x ∈ sortListBy rangeLE rs, x.start ≤ x.stop :=
    fun x hx => Nat.le_of_lt (hne x ((hmem x).mp hx))
  obtain ⟨hgap, _, hpts, hnonempty⟩ := dedupR_spec hsorted hwf
  refine ⟨⟨?_, hgap⟩, ?_⟩
  · exact hnonempty fun x hx => hne x ((hmem x).mp hx)
  · intro y
    rw [show codeBatchR rs = dedupR (sortListBy rangeLE rs) from rfl, hpts y]
    exact ptsIn_congr_mem hmem

theorem refMergeRanges_canon {rs : List NRange}
    (hwfin : ∀ r ∈ rs, r.start ≤ r.stop) :
    canonR (refMergeRanges rs) ∧ (∀ y, ptsIn (refMergeRanges rs) y ↔ ptsIn rs y) := by
  have hsorted : List.Chain' (fun a b : NRange => a.start ≤ b.start)
      (sortListBy refLE rs) :=
    (chain'_sortListBy refLE_total rs).imp fun a b h => refLE_start h
  have hmem : ∀ r, r ∈ sortListBy refLE rs ↔ r ∈ rs := fun r => mem_sortListBy
  have hwf : ∀ x ∈ sortListBy refLE rs, x.start ≤ x.stop :=
    fun x hx => hwfin x ((hmem x).mp hx)
  obtain ⟨hgap, hwf2, hpts, _⟩ := dedupR_spec hsorted hwf
  refine ⟨⟨?_, ?_⟩, ?_⟩
  · intro r hr
    have := (List.mem_filter.mp hr).2
    simpa using this
  · exact gapped_filter hgap hwf2
  · intro y
    rw [show refMergeRanges rs =
      (dedupR (sortListBy refLE rs)).filter (fun r => decide (r.start < r.stop)) from rfl]
    rw [ptsIn_filter_nonempty, hpts y]
    exact ptsIn_congr_mem hmem

/-! ## Bridge between excerpts of one buffer and their ranges -/

/-- The excerpt `insert_excerpts` builds for buffer `h` and local range
`r` out of the live world. -/
def exOf (world : World) (h : BufferId) (r : NRange) : Excerpt :=
  ⟨⟨(world h).path, h, r⟩, world h, (world h).summaryFor r⟩

/-- A single-buffer tree: the excerpts of the given ranges. -/
def treeOf (world : World) (h : BufferId) (rs : List NRange) : List Excerpt :=
  rs.map (exOf world h)

theorem optPathCmp_refl {x : Option PathC} : optPathCmp x x = .eq :=
  optPathCmp_eq_eq.mpr rfl

theorem bufferIdCmp_refl {x : BufferId} : BufferId.cmp x x = .eq :=
  bufferIdCmp_eq_eq.mpr rfl

/-- The seek comparison within one buffer reduces to the offset-window
comparison. -/
theorem seekCmp_same {pth : Option PathC} {hb : BufferId} {o : Nat} {rr : NRange} :
    ExcerptOffset.seekCmp ⟨pth, hb, o⟩ (some ⟨pth, hb, rr⟩) =
      (if o < rr.start then .lt else if rr.stop < o then .gt else .eq) := by
  show (optPathCmp pth pth).then ((BufferId.cmp hb hb).then _) = _
  rw [optPathCmp_refl, bufferIdCmp_refl]
  show Ordering.eq.then (Ordering.eq.then _) = _
  rw [show ∀ o' : Ordering, Ordering.eq.then o' = o' from fun _ => rfl,
    show ∀ o' : Ordering, Ordering.eq.then o' = o' from fun _ => rfl]
  exact innerCmp_eq o rr.start rr.stop

theorem consumes_left_exOf {world : World} {h : BufferId} {o : Nat} {r : NRange}
    (hwf : r.start ≤ r.stop) :
    consumes ⟨(world h).path, h, o⟩ .left (exOf world h r) =
      decide (r.stop < o) := by
  unfold consumes
  show (match ExcerptOffset.seekCmp ⟨(world h).path, h, o⟩
    (some ⟨(world h).path, h, r⟩), Bias.left with
    | .gt, _ => true | .eq, .right => true | _, _ => false) = _
  rw [seekCmp_same]
  by_cases h1 : o < r.start
  · rw [if_pos h1]
    have : ¬ r.stop < o := by omega
    simp [this]
  · rw [if_neg h1]
    by_cases h2 : r.stop < o
    · rw [if_pos h2]
      simp [h2]
    · rw [if_neg h2]
      simp [h2]

theorem intersects_exOf {world : World} {h : BufferId} {a b : NRange} :
    (exOf world h a).key.intersects (exOf world h b).key = touchB a b := by
  show ExcerptKey.intersects ⟨(world h).path, h, a⟩ ⟨(world h).path, h, b⟩ = _
  unfold ExcerptKey.intersects touchB
  simp

theorem mergedEx_exOf {world : World} {h : BufferId} {c n : NRange} :
    mergedEx (exOf world h c) (exOf world h n) =
      exOf world h ⟨min c.start n.start, max c.stop n.stop⟩ := rfl

/-- The excerpt pushed by line 107-113 for a key of buffer `h` is the
canonical excerpt of its range. -/
theorem pushed_excerpt_eq {world : World} {h : BufferId} {n : NRange} :
    ({ key := (⟨(world h).path, h, n⟩ : ExcerptKey), snapshot := world h,
       text_summary := (world h).summaryFor n } : Excerpt) = exOf world h n := rfl

/-! ## takeWhile prefix arithmetic -/

theorem takeWhile_ge_of_take {p : α → Bool} :
    ∀ {l : List α} {m : Nat}, m ≤ l.length → (∀ x ∈ l.take m, p x = true) →
    m ≤ (l.takeWhile p).length := by
  intro l
  induction l with
  | nil => intro m hm _; simp at hm; omega
  | cons x t ih =>
    intro m hm hall
    cases m with
    | zero => omega
    | succ m2 =>
      have hx : p x = true := hall x (by simp [List.take_succ_cons])
      rw [List.takeWhile_cons, hx]
      simp only [if_true, List.length_cons]
      have := @ih m2 (by simp at hm; omega)
        (fun z hz => hall z (by simp [List.take_succ_cons, hz]))
      omega

theorem takeWhile_prefix_decomp {p : α → Bool} (l : List α) :
    l = l.takeWhile p ++ l.dropWhile p ∧
    (∀ x ∈ l.takeWhile p, p x = true) ∧
    (∀ z, (l.dropWhile p).head? = some z → p z = false) := by
  refine ⟨(List.takeWhile_append_dropWhile p l).symm, ?_, ?_⟩
  · intro x hx
    exact List.mem_takeWhile_imp hx
  · intro z hz
    induction l with
    | nil => simp at hz
    | cons a t ih =>
      rw [List.dropWhile_cons] at hz
      split at hz
      · exact ih hz
      · rename_i hpa
        simp at hz
        subst hz
        simpa using hpa

theorem item_treeOf {world : World} {h : BufferId} {R : List NRange} {i : Nat} :
    (Cursor.mk (treeOf world h R) i).item = (R[i]?).map (exOf world h) := by
  unfold Cursor.item treeOf
  exact List.getElem?_map _ _ _

theorem drop_treeOf {world : World} {h : BufferId} {R : List NRange} {i : Nat} :
    (treeOf world h R).drop i = treeOf world h (R.drop i) :=
  (List.map_drop _ _ _).symm

theorem length_treeOf {world : World} {h : BufferId} {R : List NRange} :
    (treeOf world h R).length = R.length := List.length_map _ _

/-- The start-of-key comparison against an excerpt of the same buffer. -/
theorem seekCmp_exOf {world : World} {h : BufferId} {o : Nat} {r : NRange} :
    ExcerptOffset.seekCmp ⟨(world h).path, h, o⟩ (some (exOf world h r).key) =
      (if o < r.start then .lt else if r.stop < o then .gt else .eq) :=
  seekCmp_same

theorem takeWhile_congr_mem {p q : α → Bool} :
    ∀ {l : List α}, (∀ x ∈ l, p x = q x) → l.takeWhile p = l.takeWhile q := by
  intro l
  induction l with
  | nil => intro _; rfl
  | cons x t ih =>
    intro hpq
    rw [List.takeWhile_cons, List.takeWhile_cons, hpq x (by simp),
      ih fun z hz => hpq z (by simp [hz])]

/-- The `takeWhile` of a left-biased single-buffer slice, at the range
level: it consumes exactly the ranges ending strictly before the target
offset. -/
theorem takeWhile_consumes_treeOf {world : World} {h : BufferId} {o : Nat}
    {rs : List NRange} (hwf : ∀ r ∈ rs, r.start ≤ r.stop) :
    (treeOf world h rs).takeWhile (consumes ⟨(world h).path, h, o⟩ .left) =
      treeOf world h (rs.takeWhile fun r => decide (r.stop < o)) := by
  unfold treeOf
  rw [List.takeWhile_map]
  congr 1
  apply takeWhile_congr_mem
  intro r hr
  show consumes ⟨(world h).path, h, o⟩ .left (exOf world h r) = _
  rw [consumes_left_exOf (hwf r hr)]

/-! ## The start/end blocks of one splice iteration, computed

Each lemma takes the range-level facts describing the configuration and
yields the block's result; the surrounding case analysis supplies the
facts. -/

theorem startBlock_noop (world : World) (h : BufferId) {R : List NRange}
    {i : Nat} {n : NRange} {NT : List Excerpt}
    (hwfR : ∀ r ∈ R, r.start ≤ r.stop)
    (hcase : R.length ≤ i ∨ (∃ r0, R[i]? = some r0 ∧ n.start < r0.start)) :
    startBlock ⟨(world h).path, h, n⟩ NT ⟨treeOf world h R, i⟩ =
      (NT, ⟨treeOf world h R, i⟩) := by
  unfold startBlock
  rcases hcase with hlen | ⟨r0, hr0, hlt⟩
  · have hnone : R[i]? = none := List.getElem?_eq_none hlen
    have hdropnil : R.drop i = [] := List.drop_eq_nil_of_le hlen
    have hslice : (Cursor.mk (treeOf world h R) i).slice
        ⟨(world h).path, h, n.start⟩ .left =
        ([], ⟨treeOf world h R, i⟩) := by
      unfold Cursor.slice
      rw [drop_treeOf, takeWhile_consumes_treeOf
        (fun r hr => hwfR r (List.mem_of_mem_drop hr)), hdropnil,
        List.takeWhile_nil]
      rfl
    simp only [startOffset, @item_treeOf world h R i, hnone, Option.map_none',
      ExcerptOffset.seekCmp, Ordering.isGE, if_true, hslice, List.append_nil]
  · have hcond : (ExcerptOffset.seekCmp ⟨(world h).path, h, n.start⟩
        (some (exOf world h r0).key)).isGE = false := by
      rw [seekCmp_exOf, if_pos hlt]
      rfl
    simp only [startOffset, @item_treeOf world h R i, hr0, Option.map_some']
    rw [hcond]
    simp

theorem startBlock_slice (world : World) (h : BufferId) {R : List NRange}
    {i : Nat} {n r0 : NRange} {NT : List Excerpt} {P1 : List NRange}
    (hwfR : ∀ r ∈ R, r.start ≤ r.stop)
    (hr0 : R[i]? = some r0) (hge : ¬ n.start < r0.start)
    (hP1 : (R.drop i).takeWhile (fun r => decide (r.stop < n.start)) = P1) :
    (∀ r', R[i + P1.length]? = some r' → touchB r' n = true →
      ∀ PU, push_excerpt (NT ++ treeOf world h P1) (exOf world h r') = PU →
      startBlock ⟨(world h).path, h, n⟩ NT ⟨treeOf world h R, i⟩ =
        (PU, ⟨treeOf world h R, i + P1.length + 1⟩)) ∧
    (∀ r', R[i + P1.length]? = some r' → touchB r' n = false →
      startBlock ⟨(world h).path, h, n⟩ NT ⟨treeOf world h R, i⟩ =
        (NT ++ treeOf world h P1, ⟨treeOf world h R, i + P1.length⟩)) ∧
    (R[i + P1.length]? = none →
      startBlock ⟨(world h).path, h, n⟩ NT ⟨treeOf world h R, i⟩ =
        (NT ++ treeOf world h P1, ⟨treeOf world h R, i + P1.length⟩)) := by
  have hcond : (ExcerptOffset.seekCmp ⟨(world h).path, h, n.start⟩
      (some (exOf world h r0).key)).isGE = true := by
    rw [seekCmp_exOf, if_neg hge]
    split <;> rfl
  have hslice : (Cursor.mk (treeOf world h R) i).slice
      ⟨(world h).path, h, n.start⟩ .left =
      (treeOf world h P1, ⟨treeOf world h R, i + P1.length⟩) := by
    unfold Cursor.slice
    rw [drop_treeOf, takeWhile_consumes_treeOf
      (fun r hr => hwfR r (List.mem_of_mem_drop hr)), hP1]
    simp only [length_treeOf]
  refine ⟨?_, ?_, ?_⟩
  · intro r' hr' htch PU hPU
    unfold startBlock
    simp only [startOffset, @item_treeOf world h R i, hr0, Option.map_some',
      hcond, if_true, hslice, @item_treeOf world h R (i + P1.length), hr']
    rw [show ExcerptKey.intersects (exOf world h r').key
      ⟨(world h).path, h, n⟩ = touchB r' n from intersects_exOf, htch]
    simp only [if_true, hPU]
    rfl
  · intro r' hr' htch
    unfold startBlock
    simp only [startOffset, @item_treeOf world h R i, hr0, Option.map_some',
      hcond, if_true, hslice, @item_treeOf world h R (i + P1.length), hr']
    rw [show ExcerptKey.intersects (exOf world h r').key
      ⟨(world h).path, h, n⟩ = touchB r' n from intersects_exOf, htch]
    simp
  · intro hr'
    unfold startBlock
    simp only [startOffset, @item_treeOf world h R i, hr0, Option.map_some',
      hcond, if_true, hslice, @item_treeOf world h R (i + P1.length), hr']
    simp

theorem endBlock_skip (world : World) (h : BufferId) {R : List NRange}
    {i1 : Nat} {n r1 : NRange} {NT : List Excerpt}
    (hr1 : R[i1]? = some r1) (hlt : n.stop < r1.start) :
    endBlock ⟨(world h).path, h, n⟩ NT ⟨treeOf world h R, i1⟩ =
      (NT, ⟨treeOf world h R, i1⟩) := by
  unfold endBlock
  have hcond : (ExcerptOffset.seekCmp ⟨(world h).path, h, n.stop⟩
      (some (exOf world h r1).key)).isGE = false := by
    rw [seekCmp_exOf, if_pos hlt]
    rfl
  simp only [endOffset, @item_treeOf world h R i1, hr1, Option.map_some']
  rw [hcond]
  simp

theorem endBlock_seek (world : World) (h : BufferId) {R : List NRange}
    {i1 : Nat} {n : NRange} {NT : List Excerpt} {W : List NRange}
    (hwfR : ∀ r ∈ R, r.start ≤ r.stop)
    (hcase : R.length ≤ i1 ∨ (∃ r1, R[i1]? = some r1 ∧ ¬ n.stop < r1.start))
    (hW : R.takeWhile (fun r => decide (r.stop < n.stop)) = W) :
    (∀ r2, R[W.length]? = some r2 → touchB r2 n = true →
      ∀ PU, push_excerpt NT (exOf world h r2) = PU →
      endBlock ⟨(world h).path, h, n⟩ NT ⟨treeOf world h R, i1⟩ =
        (PU, ⟨treeOf world h R, W.length + 1⟩)) ∧
    (∀ r2, R[W.length]? = some r2 → touchB r2 n = false →
      endBlock ⟨(world h).path, h, n⟩ NT ⟨treeOf world h R, i1⟩ =
        (NT, ⟨treeOf world h R, W.length⟩)) ∧
    (R[W.length]? = none →
      endBlock ⟨(world h).path, h, n⟩ NT ⟨treeOf world h R, i1⟩ =
        (NT, ⟨treeOf world h R, W.length⟩)) := by
  have hcond : (ExcerptOffset.seekCmp ⟨(world h).path, h, n.stop⟩
      (Option.map (fun e => e.key) ((R[i1]?).map (exOf world h)))).isGE = true := by
    rcases hcase with hlen | ⟨r1, hr1, hge⟩
    · rw [List.getElem?_eq_none hlen]
      rfl
    · rw [hr1, Option.map_some']
      rw [show Option.map (fun e => e.key) (some (exOf world h r1)) =
        some (exOf world h r1).key from rfl]
      rw [seekCmp_exOf, if_neg hge]
      split <;> rfl
  have hseek : (Cursor.mk (treeOf world h R) i1).seek
      ⟨(world h).path, h, n.stop⟩ .left = ⟨treeOf world h R, W.length⟩ := by
    unfold Cursor.seek
    rw [show (treeOf world h R).takeWhile
        (consumes ⟨(world h).path, h, n.stop⟩ .left) =
      treeOf world h (R.takeWhile fun r => decide (r.stop < n.stop)) from
      takeWhile_consumes_treeOf hwfR, hW, length_treeOf]
  refine ⟨?_, ?_, ?_⟩
  · intro r2 hr2 htch PU hPU
    unfold endBlock
    simp only [endOffset, @item_treeOf world h R i1, hcond, if_true, hseek,
      @item_treeOf world h R W.length, hr2, Option.map_some']
    rw [show ExcerptKey.intersects (exOf world h r2).key
      ⟨(world h).path, h, n⟩ = touchB r2 n from intersects_exOf, htch]
    simp only [if_true, hPU]
    rfl
  · intro r2 hr2 htch
    unfold endBlock
    simp only [endOffset, @item_treeOf world h R i1, hcond, if_true, hseek,
      @item_treeOf world h R W.length, hr2, Option.map_some']
    rw [show ExcerptKey.intersects (exOf world h r2).key
      ⟨(world h).path, h, n⟩ = touchB r2 n from intersects_exOf, htch]
    simp
  · intro hr2
    unfold endBlock
    simp only [endOffset, @item_treeOf world h R i1, hcond, if_true, hseek,
      @item_treeOf world h R W.length, hr2, Option.map_none']

/-! ## Generic list helpers for the seek computation -/

theorem takeWhile_append_all {p : α → Bool} :
    ∀ {A B : List α}, (∀ a ∈ A, p a = true) →
    (A ++ B).takeWhile p = A ++ B.takeWhile p := by
  intro A
  induction A with
  | nil => intro B _; rfl
  | cons a t ih =>
    intro B hall
    rw [List.cons_append, List.takeWhile_cons, hall a (by simp), if_pos rfl,
      ih (fun z hz => hall z (by simp [hz]))]
    rfl

theorem takeWhile_split {p : α → Bool} {l : List α} {m : Nat}
    (hall : ∀ x ∈ l.take m, p x = true) :
    l.takeWhile p = l.take m ++ (l.drop m).takeWhile p := by
  conv_lhs => rw [← List.take_append_drop m l]
  exact takeWhile_append_all hall

theorem getLast?_decomp : ∀ {l : List α} {x : α},
    l.getLast? = some x → l = l.dropLast ++ [x] := by
  intro l
  induction l with
  | nil => intro x hx; simp at hx
  | cons a t ih =>
    intro x hx
    cases t with
    | nil =>
      simp at hx
      subst hx
      rfl
    | cons b t2 =>
      rw [List.getLast?_cons_cons] at hx
      have := ih hx
      calc a :: b :: t2 = a :: ((b :: t2).dropLast ++ [x]) := by rw [← this]
        _ = (a :: b :: t2).dropLast ++ [x] := by
              rw [List.dropLast_cons₂]
              rfl

theorem mem_of_getElem?_eq {l : List α} {k : Nat} {x : α}
    (hx : l[k]? = some x) : x ∈ l := by
  obtain ⟨h1, h2⟩ := List.getElem?_eq_some.mp hx
  exact h2 ▸ l.getElem_mem h1

theorem getElem?_mem_take {l : List α} {k m : Nat} {x : α}
    (hk : k < m) (hx : l[k]? = some x) : x ∈ l.take m := by
  have : (l.take m)[k]? = some x := by
    rw [List.getElem?_take, if_pos hk]
    exact hx
  exact mem_of_getElem?_eq this

theorem mem_take_idx : ∀ {l : List α} {m : Nat} {x : α},
    x ∈ l.take m → ∃ k, k < m ∧ l[k]? = some x := by
  intro l
  induction l with
  | nil => intro m x hx; simp at hx
  | cons a t ih =>
    intro m x hx
    cases m with
    | zero => simp at hx
    | succ m2 =>
      rw [List.take_succ_cons] at hx
      rcases List.mem_cons.mp hx with h | h
      · exact ⟨0, by omega, by simp [h]⟩
      · obtain ⟨k, hk, hget⟩ := ih h
        exact ⟨k + 1, by omega, by simpa using hget⟩

theorem drop_eq_cons {l : List α} {k : Nat} {x : α} (hx : l[k]? = some x) :
    l.drop k = x :: l.drop (k + 1) := by
  have hk : k < l.length := (List.getElem?_eq_some.mp hx).1
  rw [List.drop_eq_getElem_cons hk]
  have : l[k] = x := by
    have := List.getElem?_eq_getElem hk
    rw [hx] at this
    exact (Option.some_inj.mp this).symm
  rw [this]

theorem mem_drop_of_getElem? {l : List α} {k m : Nat} {x : α}
    (hm : m ≤ k) (hx : l[k]? = some x) : x ∈ l.drop m := by
  have : (l.drop m)[k - m]? = some x := by
    rw [List.getElem?_drop]
    rwa [show m + (k - m) = k by omega]
  exact mem_of_getElem?_eq this

/-! ## The tree of a range list, appended and pushed -/

theorem treeOf_append {world : World} {h : BufferId} {A B : List NRange} :
    treeOf world h (A ++ B) = treeOf world h A ++ treeOf world h B :=
  List.map_append _ _ _

theorem getLast?_treeOf {world : World} {h : BufferId} {A : List NRange} :
    (treeOf world h A).getLast? = (A.getLast?).map (exOf world h) :=
  List.getLast?_map _ _

/-- `push_excerpt` at the range level: widen the last range to the union
when the incoming range touches it, append otherwise. -/
def pushR (l : List NRange) (r : NRange) : List NRange :=
  match l.getLast? with
  | none => [r]
  | some c =>
    if touchB c r then l.dropLast ++ [⟨min c.start r.start, max c.stop r.stop⟩]
    else l ++ [r]

theorem pushR_nil {r : NRange} : pushR [] r = [r] := rfl

theorem pushR_merge {l : List NRange} {c r : NRange}
    (hc : l.getLast? = some c) (ht : touchB c r = true) :
    pushR l r = l.dropLast ++ [⟨min c.start r.start, max c.stop r.stop⟩] := by
  unfold pushR
  rw [hc]
  simp only [ht, if_true]

theorem pushR_append {l : List NRange} {r : NRange}
    (hc : ∀ c, l.getLast? = some c → touchB c r = false) :
    pushR l r = l ++ [r] := by
  unfold pushR
  cases hl : l.getLast? with
  | none =>
    have : l = [] := by
      cases l with
      | nil => rfl
      | cons a t => rw [List.getLast?_cons] at hl; simp at hl
    subst this
    rfl
  | some c =>
    simp only [hc c hl]
    simp

/-- Pushing a same-buffer excerpt mirrors `pushR` on the ranges. -/
theorem push_treeOf {world : World} {h : BufferId} {A : List NRange} {r : NRange} :
    push_excerpt (treeOf world h A) (exOf world h r) =
      treeOf world h (pushR A r) := by
  cases hl : A.getLast? with
  | none =>
    have : A = [] := by
      cases A with
      | nil => rfl
      | cons a t => rw [List.getLast?_cons] at hl; simp at hl
    subst this
    rfl
  | some c =>
    have hlast : (treeOf world h A).getLast? = some (exOf world h c) := by
      rw [getLast?_treeOf, hl]
      rfl
    by_cases ht : touchB c r = true
    · rw [push_excerpt_merge _ _ _ hlast (by rw [intersects_exOf]; exact ht),
        mergedEx_exOf, pushR_merge hl ht, treeOf_append,
        show (treeOf world h A).dropLast = treeOf world h A.dropLast from
          (List.map_dropLast _ _).symm]
      rfl
    · rw [push_excerpt_no_merge _ _ (fun last hlast2 => by
        rw [hlast] at hlast2
        rw [← Option.some_inj.mp hlast2, intersects_exOf]
        simpa using ht),
        pushR_append (fun c2 hc2 => by
          rw [hl] at hc2
          rw [← Option.some_inj.mp hc2]
          simpa using ht),
        treeOf_append]
      rfl

/-! ## Geometry of canonical range lists -/

theorem canonR_append_left {A B : List NRange} (h : canonR (A ++ B)) :
    canonR A :=
  ⟨fun r hr => h.1 r (List.mem_append_left _ hr), (List.chain'_append.mp h.2).1⟩

theorem canonR_append_right {A B : List NRange} (h : canonR (A ++ B)) :
    canonR B :=
  ⟨fun r hr => h.1 r (List.mem_append_right _ hr), (List.chain'_append.mp h.2).2.1⟩

/-- In a canonical list split as `T ++ D`, everything in `D` starts past
the stop of `T`'s last range. -/
theorem canon_last_gap {T D : List NRange} {L : NRange} (h : canonR (T ++ D))
    (hL : T.getLast? = some L) : ∀ r ∈ D, L.stop < r.start := by
  have hj := (List.chain'_append.mp h.2).2.2
  have hLD : canonR (L :: D) := by
    refine ⟨?_, ?_⟩
    · intro r hr
      rcases List.mem_cons.mp hr with hr | hr
      · rw [hr]
        refine h.1 L (List.mem_append_left _ ?_)
        rw [getLast?_decomp hL]
        simp
      · exact h.1 r (List.mem_append_right _ hr)
    · exact List.chain'_cons'.mpr
        ⟨fun y hy => hj L (Option.mem_def.mpr hL) y hy,
         (List.chain'_append.mp h.2).2.1⟩
  exact canon_head_gap hLD

/-- Every covered point of a canonical list lies before its last stop. -/
theorem canon_lt_last : ∀ {T : List NRange} {L : NRange}, canonR T →
    T.getLast? = some L → ∀ y, ptsIn T y → y < L.stop := by
  intro T
  induction T with
  | nil => intro L _ hL; simp at hL
  | cons a t ih =>
    intro L h hL y hy
    cases t with
    | nil =>
      have : L = a := by simpa using hL.symm
      subst this
      rcases ptsIn_cons.mp hy with ⟨_, h2⟩ | h2
      · exact h2
      · exact absurd h2 ptsIn_nil
    | cons b t2 =>
      rw [List.getLast?_cons_cons] at hL
      have htail : canonR (b :: t2) := canonR_tail h
      rcases ptsIn_cons.mp hy with ⟨_, h2⟩ | h2
      · have hab : a.stop < b.start := (List.chain'_cons.mp h.2).1
        have hbs : b.start < L.stop := ih htail hL b.start
          (ptsIn_cons.mpr (Or.inl ⟨Nat.le_refl _, htail.1 b (by simp)⟩))
        omega
      · exact ih htail hL y h2

/-- Every range before the last of a canonical list stops before the
last range starts. -/
theorem canon_before_last : ∀ {T : List NRange} {L : NRange}, canonR T →
    T.getLast? = some L → ∀ c ∈ T.dropLast, c.stop < L.start := by
  intro T
  induction T with
  | nil => intro L _ _ c hc; simp at hc
  | cons a t ih =>
    intro L h hL c hc
    cases t with
    | nil => simp at hc
    | cons b t2 =>
      rw [List.getLast?_cons_cons] at hL
      have htail : canonR (b :: t2) := canonR_tail h
      rw [List.dropLast_cons₂] at hc
      rcases List.mem_cons.mp hc with hc | hc
      · subst hc
        have hab : c.stop < b.start := (List.chain'_cons.mp h.2).1
        cases t2 with
        | nil =>
          have : L = b := by simpa using hL.symm
          subst this
          exact hab
        | cons d t3 =>
          have hbL : b.stop < L.start := ih htail hL b (by
            rw [List.dropLast_cons₂]
            simp)
          have hb : b.start < b.stop := htail.1 b (by simp)
          omega
      · exact ih htail hL c hc

/-- A covered nonempty interval lies inside a single range of a
canonical list. -/
theorem interval_component : ∀ {T : List NRange}, canonR T →
    ∀ {a b : Nat}, a < b → (∀ y, a ≤ y → y < b → ptsIn T y) →
    ∃ c ∈ T, c.start ≤ a ∧ b ≤ c.stop := by
  intro T
  induction T with
  | nil =>
    intro h a b hab hcov
    exact absurd (hcov a (Nat.le_refl _) hab) ptsIn_nil
  | cons c0 rest ih =>
    intro h a b hab hcov
    have hgap := canon_head_gap h
    rcases ptsIn_cons.mp (hcov a (Nat.le_refl _) hab) with ⟨h1, h2⟩ | ⟨r, hr, hr1, hr2⟩
    · by_cases hb : b ≤ c0.stop
      · exact ⟨c0, by simp, h1, hb⟩
      · exfalso
        have hcovstop := hcov c0.stop (by omega) (by omega)
        rcases ptsIn_cons.mp hcovstop with ⟨_, hlt⟩ | ⟨r, hr, hr1, _⟩
        · omega
        · have := hgap r hr
          omega
    · have ha : c0.stop < a := by
        have := hgap r hr
        omega
      have hcov2 : ∀ y, a ≤ y → y < b → ptsIn rest y := by
        intro y hy1 hy2
        rcases ptsIn_cons.mp (hcov y hy1 hy2) with ⟨_, hlt⟩ | hin
        · omega
        · exact hin
      obtain ⟨c, hc, hc1, hc2⟩ := ih (canonR_tail h) hab hcov2
      exact ⟨c, by simp [hc], hc1, hc2⟩

/-- A covered nonempty interval reaching past the start of the last
range lies inside the last range. -/
theorem interval_in_last {T : List NRange} {L : NRange} (h : canonR T)
    (hL : T.getLast? = some L) {a b : Nat} (hab : a < b)
    (hcov : ∀ y, a ≤ y → y < b → ptsIn T y) (hLb : L.start < b) :
    L.start ≤ a ∧ b ≤ L.stop := by
  obtain ⟨c, hc, h1, h2⟩ := interval_component h hab hcov
  rw [getLast?_decomp hL] at hc
  rcases List.mem_append.mp hc with hc | hc
  · have := canon_before_last h hL c hc
    omega
  · have : c = L := by simpa using hc
    subst this
    exact ⟨h1, h2⟩

theorem canon_drop {R : List NRange} {i : Nat} (h : canonR R) :
    canonR (R.drop i) := by
  have : R.take i ++ R.drop i = R := List.take_append_drop i R
  exact canonR_append_right (by rwa [this])

/-- The ranges after index `k` of a canonical list start past `R[k]`. -/
theorem gap_after {R : List NRange} {k : Nat} {x : NRange} (h : canonR R)
    (hx : R[k]? = some x) : ∀ r ∈ R.drop (k + 1), x.stop < r.start := by
  have hcanon : canonR (R.drop k) := canon_drop h
  rw [drop_eq_cons hx] at hcanon
  exact canon_head_gap hcanon

theorem startLE_after {R : List NRange} {k : Nat} {x : NRange} (h : canonR R)
    (hx : R[k]? = some x) : ∀ r ∈ R.drop k, x.start ≤ r.start := by
  rw [drop_eq_cons hx]
  intro r hr
  rcases List.mem_cons.mp hr with hr | hr
  · subst hr; exact Nat.le_refl _
  · have h1 := gap_after h hx r hr
    have h2 : x.start < x.stop := h.1 x (mem_of_getElem?_eq hx)
    omega

theorem ptsIn_single {r : NRange} {y : Nat} :
    ptsIn [r] y ↔ (r.start ≤ y ∧ y < r.stop) := by
  rw [ptsIn_cons]
  constructor
  · rintro (h | h)
    · exact h
    · exact absurd h ptsIn_nil
  · exact Or.inl

theorem take_split {R : List NRange} {i w : Nat} (hiw : i ≤ w) :
    R.take w = R.take i ++ (R.drop i).take (w - i) := by
  rw [← List.take_add]
  congr 1
  omega

theorem ptsIn_take_add {R : List NRange} {i w : Nat} {y : Nat} (hiw : i ≤ w) :
    ptsIn (R.take w) y ↔
      (ptsIn (R.take i) y ∨ ptsIn ((R.drop i).take (w - i)) y) := by
  rw [take_split hiw, ptsIn_append]

/-! ## Assembling canonical lists -/

theorem canonR_build {A : List NRange} {L : NRange} {D : List NRange}
    (hstack : List.Chain' gapRel A) (hAne : ∀ r ∈ A, r.start < r.stop)
    (hjA : ∀ c, A.getLast? = some c → c.stop < L.start)
    (hL : L.start < L.stop) (hD : canonR D)
    (hjD : ∀ r ∈ D, L.stop < r.start) :
    canonR ((A ++ [L]) ++ D) := by
  refine ⟨?_, ?_⟩
  · intro r hr
    rcases List.mem_append.mp hr with hr | hr
    · rcases List.mem_append.mp hr with hr | hr
      · exact hAne r hr
      · rw [List.mem_singleton.mp hr]
        exact hL
    · exact hD.1 r hr
  · refine List.chain'_append.mpr ⟨?_, hD.2, ?_⟩
    · refine List.chain'_append.mpr ⟨hstack, List.chain'_singleton _, ?_⟩
      intro x hx y hy
      have hy2 : L = y := by simpa using hy
      rw [← hy2]
      exact hjA x (Option.mem_def.mp hx)
    · intro x hx y hy
      have hx2 : L = x := by
        rw [List.getLast?_concat] at hx
        simpa using hx
      rw [← hx2]
      cases D with
      | nil => simp at hy
      | cons d t =>
        have hy2 : d = y := by simpa using hy
        rw [← hy2]
        exact hjD d (by simp)

theorem canonR_concat {A : List NRange} {L : NRange}
    (hstack : List.Chain' gapRel A) (hAne : ∀ r ∈ A, r.start < r.stop)
    (hjA : ∀ c, A.getLast? = some c → c.stop < L.start)
    (hL : L.start < L.stop) : canonR (A ++ [L]) := by
  have h2 := @canonR_build A L [] hstack hAne hjA hL
    ⟨fun r hr => absurd hr (List.not_mem_nil r), List.chain'_nil⟩
    (fun r hr => absurd hr (List.not_mem_nil r))
  rwa [List.append_nil] at h2

/-- The end block (lines 116-127) preserves the splice-loop invariant
from the mid-state reached right after the push of the new excerpt. -/
theorem endBlock_invariant (world : World) (h : BufferId) {R : List NRange}
    (hR : canonR R) {n : NRange} (hn : n.start < n.stop)
    {A3 : List NRange} {L3 : NRange} {i3 : Nat} {P : Nat → Prop}
    (m1 : i3 ≤ R.length)
    (m2 : canonR (A3 ++ [L3]))
    (m3 : ∀ r ∈ R.drop i3, L3.stop ≤ n.stop ∨ L3.stop < r.start)
    (m4 : ∀ k, k + 1 < i3 → ∀ x, R[k]? = some x → x.stop < n.stop)
    (m5 : ∀ k, k < i3 → ∀ x, R[k]? = some x → x.start ≤ n.stop)
    (m9 : ∀ r ∈ R.drop i3, n.start ≤ r.start)
    (m6 : n.stop ≤ L3.stop) (m7 : L3.start ≤ n.start)
    (m8 : ∀ y, ptsIn (A3 ++ [L3]) y ↔
      (ptsIn (R.take i3) y ∨ P y ∨ (n.start ≤ y ∧ y < n.stop))) :
    ∃ T2 i2, endBlock ⟨(world h).path, h, n⟩ (treeOf world h (A3 ++ [L3]))
        ⟨treeOf world h R, i3⟩ = (treeOf world h T2, ⟨treeOf world h R, i2⟩) ∧
      i2 ≤ R.length ∧ canonR (T2 ++ R.drop i2) ∧
      (∀ y, ptsIn T2 y ↔
        (ptsIn (R.take i2) y ∨ P y ∨ (n.start ≤ y ∧ y < n.stop))) ∧
      (∀ k, k < i2 → ∀ x, R[k]? = some x → x.start ≤ n.stop) ∧
      (∀ k, k + 1 < i2 → ∀ x, R[k]? = some x → x.stop ≤ n.stop) := by
  have hwfR : ∀ r ∈ R, r.start ≤ r.stop := fun r hr => Nat.le_of_lt (hR.1 r hr)
  have hstackA : List.Chain' gapRel A3 := (List.chain'_append.mp m2.2).1
  have hjA : ∀ c, A3.getLast? = some c → c.stop < L3.start := fun c hc =>
    (List.chain'_append.mp m2.2).2.2 c (Option.mem_def.mpr hc) L3 (by simp)
  have hL3ne : L3.start < L3.stop := m2.1 L3 (by simp)
  have hA3ne : ∀ r ∈ A3, r.start < r.stop := fun r hr => m2.1 r (by simp [hr])
  simp only [ptsIn_append, ptsIn_single] at m8
  by_cases hskip : ∃ r1, R[i3]? = some r1 ∧ n.stop < r1.start
  · obtain ⟨r1, hr1, hlt⟩ := hskip
    refine ⟨A3 ++ [L3], i3, endBlock_skip world h hr1 hlt, m1, ?_, ?_, m5,
      fun k hk x hx => Nat.le_of_lt (m4 k hk x hx)⟩
    · refine canonR_build hstackA hA3ne hjA hL3ne (canon_drop hR) ?_
      intro r hr
      rcases m3 r hr with hc | hc
      · have := startLE_after hR hr1 r hr
        omega
      · exact hc
    · intro y
      rw [ptsIn_append, ptsIn_single]
      exact m8 y
  · have hcase : R.length ≤ i3 ∨ ∃ r1, R[i3]? = some r1 ∧ ¬ n.stop < r1.start := by
      rcases Nat.lt_or_ge i3 R.length with hlen | hlen
      · refine Or.inr ⟨R[i3], List.getElem?_eq_getElem hlen, ?_⟩
        intro hl
        exact hskip ⟨R[i3], List.getElem?_eq_getElem hlen, hl⟩
      · exact Or.inl hlen
    have hall : ∀ x ∈ R.take (i3 - 1),
        (fun r : NRange => decide (r.stop < n.stop)) x = true := by
      intro x hx
      obtain ⟨k, hk, hget⟩ := mem_take_idx hx
      simpa using m4 k (by omega) x hget
    have hwlow := takeWhile_ge_of_take (show i3 - 1 ≤ R.length by omega) hall
    obtain ⟨hWdec, hWmem, hWhead⟩ :=
      @takeWhile_prefix_decomp NRange (fun r => decide (r.stop < n.stop)) R
    have hW : R.takeWhile (fun r => decide (r.stop < n.stop)) =
        R.take (R.takeWhile fun r => decide (r.stop < n.stop)).length :=
      List.prefix_iff_eq_take.mp (List.takeWhile_prefix _)
    obtain ⟨w, hwdef⟩ : ∃ w,
        (R.takeWhile fun r => decide (r.stop < n.stop)).length = w := ⟨_, rfl⟩
    rw [hwdef] at hW hwlow
    have hwle : w ≤ R.length := by
      rw [← hwdef]
      exact (List.takeWhile_prefix _).length_le
    have hlenW : (R.take w).length = w := by
      rw [List.length_take]
      omega
    have hintk : ∀ k, k < w → ∀ x, R[k]? = some x → x.stop < n.stop := by
      intro k hk x hx
      have hxmem : x ∈ R.take w := getElem?_mem_take hk hx
      rw [← hW] at hxmem
      simpa using hWmem x hxmem
    have hdropW : R.dropWhile (fun r => decide (r.stop < n.stop)) = R.drop w := by
      have h1 : R.take w ++ R.dropWhile (fun r => decide (r.stop < n.stop)) = R := by
        rw [← hW]
        exact List.takeWhile_append_dropWhile _ _
      have h2 : (R.take w ++
          R.dropWhile (fun r => decide (r.stop < n.stop))).drop (R.take w).length =
          R.dropWhile (fun r => decide (r.stop < n.stop)) := List.drop_left _ _
      rw [h1, hlenW] at h2
      exact h2.symm
    have hafter : ∀ x, R[w]? = some x → n.stop ≤ x.stop := by
      intro x hx
      have hhead : (R.drop w).head? = some x := by
        rw [List.head?_eq_getElem?, List.getElem?_drop, Nat.add_zero]
        exact hx
      rw [← hdropW] at hhead
      have := hWhead x hhead
      simp at this
      omega
    have hskipped : ∀ m', i3 ≤ m' → m' ≤ w → ∀ y,
        ptsIn ((R.drop i3).take (m' - i3)) y → (n.start ≤ y ∧ y < n.stop) := by
      intro m' him hmw y hy
      obtain ⟨r, hr, hy1, hy2⟩ := hy
      obtain ⟨k, hk, hget⟩ := mem_take_idx hr
      have hget2 : R[i3 + k]? = some r := by rwa [List.getElem?_drop] at hget
      have hstart := m9 r (List.mem_of_mem_take hr)
      have hstop := hintk (i3 + k) (by omega) r hget2
      omega
    obtain ⟨c1, c2, c3⟩ := @endBlock_seek world h R i3 n
      (treeOf world h (A3 ++ [L3])) (R.take w) hwfR hcase hW
    rw [hlenW] at c1 c2 c3
    rcases hr2 : R[w]? with _ | r2
    · -- the seek lands past the end of the old tree
      have hwR : R.length ≤ w := by
        by_contra hcon
        push_neg at hcon
        rw [List.getElem?_eq_getElem hcon] at hr2
        simp at hr2
      have hwR2 : w = R.length := by omega
      have hi3w : i3 ≤ w := by omega
      refine ⟨A3 ++ [L3], w, c3 hr2, by omega, ?_, ?_, ?_, ?_⟩
      · rw [hwR2, List.drop_length, List.append_nil]
        exact m2
      · intro y
        rw [ptsIn_append, ptsIn_single, ptsIn_take_add hi3w]
        constructor
        · intro hy
          rcases (m8 y).mp hy with hc | hc | hc
          · exact Or.inl (Or.inl hc)
          · exact Or.inr (Or.inl hc)
          · exact Or.inr (Or.inr hc)
        · rintro ((hc | hc) | hc | hc)
          · exact (m8 y).mpr (Or.inl hc)
          · exact (m8 y).mpr (Or.inr (Or.inr (hskipped w hi3w (Nat.le_refl _) y hc)))
          · exact (m8 y).mpr (Or.inr (Or.inl hc))
          · exact (m8 y).mpr (Or.inr (Or.inr hc))
      · intro k hk x hx
        have h1 := hintk k hk x hx
        have h2 : x.start < x.stop := hR.1 x (mem_of_getElem?_eq hx)
        omega
      · intro k hk x hx
        exact Nat.le_of_lt (hintk k (by omega) x hx)
    · have hr2stop : n.stop ≤ r2.stop := hafter r2 hr2
      have hr2lt : w < R.length := by
        by_contra hcon
        push_neg at hcon
        rw [List.getElem?_eq_none hcon] at hr2
        simp at hr2
      by_cases htch : r2.start ≤ n.stop
      · -- the range under the cursor touches the key and is merged in
        have htchB : touchB r2 n = true := by
          rw [touchB_iff]
          omega
        have hlast3 : (A3 ++ [L3]).getLast? = some L3 := List.getLast?_concat _
        have htchL : touchB L3 r2 = true := by
          rw [touchB_iff]
          omega
        have hpush : push_excerpt (treeOf world h (A3 ++ [L3])) (exOf world h r2) =
            treeOf world h (A3 ++ [⟨min L3.start r2.start, max L3.stop r2.stop⟩]) := by
          rw [push_treeOf, pushR_merge hlast3 htchL, List.dropLast_concat]
        have heq := c1 r2 hr2 htchB _ hpush
        have hr2ne : r2.start < r2.stop := hR.1 r2 (mem_of_getElem?_eq hr2)
        rcases Nat.lt_or_ge w i3 with hwi | hwi
        · -- the seek re-landed on the last already-consumed old range
          have hr2take : r2 ∈ R.take i3 := getElem?_mem_take (by omega) hr2
          have hsub : L3.start ≤ r2.start ∧ r2.stop ≤ L3.stop := by
            refine interval_in_last m2 hlast3 hr2ne ?_ (by omega)
            intro y hy1 hy2
            rw [ptsIn_append, ptsIn_single]
            exact (m8 y).mpr (Or.inl ⟨r2, hr2take, hy1, hy2⟩)
          have hdrop3 : R.drop i3 = [] := by
            rcases hcase with hlen | ⟨r1, hr1, hnlt⟩
            · exact List.drop_eq_nil_of_le hlen
            · exfalso
              have hmem : r1 ∈ R.drop (w + 1) :=
                mem_drop_of_getElem? (by omega) hr1
              have hgap := gap_after hR hr2 r1 hmem
              omega
          have hwp1 : w + 1 = i3 := by omega
          refine ⟨A3 ++ [⟨min L3.start r2.start, max L3.stop r2.stop⟩], w + 1, heq,
            by omega, ?_, ?_, ?_, ?_⟩
          · rw [hwp1, hdrop3, List.append_nil]
            refine canonR_concat hstackA hA3ne ?_
              (show min L3.start r2.start < max L3.stop r2.stop by omega)
            intro c hc
            have := hjA c hc
            show c.stop < min L3.start r2.start
            omega
          · intro y
            simp only [ptsIn_append, ptsIn_single]
            rw [hwp1]
            constructor
            · rintro (hc | hc)
              · exact (m8 y).mp (Or.inl hc)
              · exact (m8 y).mp (Or.inr (by omega))
            · intro hc
              rcases (m8 y).mpr hc with hd | hd
              · exact Or.inl hd
              · exact Or.inr (by omega)
          · intro k hk x hx
            exact m5 k (by omega) x hx
          · intro k hk x hx
            exact Nat.le_of_lt (m4 k (by omega) x hx)
        · -- the seek landed at or past the old position
          have hr2drop : r2 ∈ R.drop i3 := mem_drop_of_getElem? hwi hr2
          have hr2start : n.start ≤ r2.start := m9 r2 hr2drop
          refine ⟨A3 ++ [⟨min L3.start r2.start, max L3.stop r2.stop⟩], w + 1, heq,
            by omega, ?_, ?_, ?_, ?_⟩
          · refine canonR_build hstackA hA3ne ?_
              (show min L3.start r2.start < max L3.stop r2.stop by omega)
              (canon_drop hR) ?_
            · intro c hc
              have := hjA c hc
              show c.stop < min L3.start r2.start
              omega
            · intro r hr
              have hrdrop3 : r ∈ R.drop i3 := by
                have hdd : R.drop (w + 1) = (R.drop i3).drop (w + 1 - i3) := by
                  rw [List.drop_drop]
                  congr 1
                  omega
                rw [hdd] at hr
                exact List.mem_of_mem_drop hr
              have hgap := gap_after hR hr2 r hr
              have hm3 := m3 r hrdrop3
              show max L3.stop r2.stop < r.start
              rcases hm3 with hc | hc <;> omega
          · intro y
            simp only [ptsIn_append, ptsIn_single]
            have htake1 : ptsIn (R.take (w + 1)) y ↔
                (ptsIn (R.take w) y ∨ (r2.start ≤ y ∧ y < r2.stop)) := by
              rw [List.take_succ, hr2]
              simp only [Option.toList_some]
              rw [ptsIn_append, ptsIn_single]
            rw [htake1, ptsIn_take_add hwi]
            constructor
            · rintro (hc | hc)
              · rcases (m8 y).mp (Or.inl hc) with hd | hd | hd
                · exact Or.inl (Or.inl (Or.inl hd))
                · exact Or.inr (Or.inl hd)
                · exact Or.inr (Or.inr hd)
              · rcases Nat.lt_or_ge y L3.stop with hy | hy
                · rcases Nat.lt_or_ge y L3.start with hy2 | hy2
                  · exact Or.inl (Or.inr (by omega))
                  · rcases (m8 y).mp (Or.inr ⟨hy2, hy⟩) with hd | hd | hd
                    · exact Or.inl (Or.inl (Or.inl hd))
                    · exact Or.inr (Or.inl hd)
                    · exact Or.inr (Or.inr hd)
                · exact Or.inl (Or.inr (by omega))
            · rintro (((hc | hc) | hc) | hc | hc)
              · rcases (m8 y).mpr (Or.inl hc) with hd | hd
                · exact Or.inl hd
                · exact Or.inr (by omega)
              · have hnc := hskipped w hwi (Nat.le_refl _) y hc
                rcases (m8 y).mpr (Or.inr (Or.inr hnc)) with hd | hd
                · exact Or.inl hd
                · exact Or.inr (by omega)
              · exact Or.inr (by omega)
              · rcases (m8 y).mpr (Or.inr (Or.inl hc)) with hd | hd
                · exact Or.inl hd
                · exact Or.inr (by omega)
              · rcases (m8 y).mpr (Or.inr (Or.inr hc)) with hd | hd
                · exact Or.inl hd
                · exact Or.inr (by omega)
          · intro k hk x hx
            rcases Nat.lt_or_ge k w with hkw | hkw
            · have h1 := hintk k hkw x hx
              have h2 : x.start < x.stop := hR.1 x (mem_of_getElem?_eq hx)
              omega
            · have hkw2 : k = w := by omega
              rw [hkw2, hr2] at hx
              rw [← Option.some_inj.mp hx]
              exact htch
          · intro k hk x hx
            exact Nat.le_of_lt (hintk k (by omega) x hx)
      · -- the range under the cursor starts past the key: nothing to merge
        have htchB : touchB r2 n = false := by
          cases hb : touchB r2 n with
          | false => rfl
          | true => exact absurd (touchB_iff.mp hb).1 htch
        have hwge : i3 ≤ w := by
          by_contra hcon
          push_neg at hcon
          have := m5 w (by omega) r2 hr2
          omega
        have heq := c2 r2 hr2 htchB
        refine ⟨A3 ++ [L3], w, heq, by omega, ?_, ?_, ?_, ?_⟩
        · refine canonR_build hstackA hA3ne hjA hL3ne (canon_drop hR) ?_
          intro r hr
          rw [drop_eq_cons hr2] at hr
          rcases List.mem_cons.mp hr with hr | hr
          · have hm3 := m3 r2 (mem_drop_of_getElem? hwge hr2)
            rw [hr]
            rcases hm3 with hc | hc <;> omega
          · have hgap := gap_after hR hr2 r hr
            have hrdrop3 : r ∈ R.drop i3 := by
              have hdd : R.drop (w + 1) = (R.drop i3).drop (w + 1 - i3) := by
                rw [List.drop_drop]
                congr 1
                omega
              rw [hdd] at hr
              exact List.mem_of_mem_drop hr
            have hm3 := m3 r hrdrop3
            rcases hm3 with hc | hc <;> omega
        · intro y
          rw [ptsIn_append, ptsIn_single, ptsIn_take_add hwge]
          constructor
          · intro hy
            rcases (m8 y).mp hy with hc | hc | hc
            · exact Or.inl (Or.inl hc)
            · exact Or.inr (Or.inl hc)
            · exact Or.inr (Or.inr hc)
          · rintro ((hc | hc) | hc | hc)
            · exact (m8 y).mpr (Or.inl hc)
            · exact (m8 y).mpr (Or.inr (Or.inr (hskipped w hwge (Nat.le_refl _) y hc)))
            · exact (m8 y).mpr (Or.inr (Or.inl hc))
            · exact (m8 y).mpr (Or.inr (Or.inr hc))
        · intro k hk x hx
          have h1 := hintk k hk x hx
          have h2 : x.start < x.stop := hR.1 x (mem_of_getElem?_eq hx)
          omega
        · intro k hk x hx
          exact Nat.le_of_lt (hintk k (by omega) x hx)

theorem mem_of_getLast? {l : List α} {c : α} (hc : l.getLast? = some c) :
    c ∈ l := by
  rw [getLast?_decomp hc]
  simp

theorem getLast?_append_cases {l1 l2 : List α} {c : α}
    (hc : (l1 ++ l2).getLast? = some c) :
    c ∈ l2 ∨ (l2 = [] ∧ l1.getLast? = some c) := by
  cases l2 with
  | nil =>
    refine Or.inr ⟨rfl, ?_⟩
    rwa [List.append_nil] at hc
  | cons d t =>
    refine Or.inl ?_
    rw [List.getLast?_append] at hc
    have h2 : (d :: t).getLast? = some c := by
      cases hg : (d :: t).getLast? with
      | none =>
        rw [hg] at hc
        simp at hg
      | some z =>
        rw [hg] at hc
        simpa using hc
    exact mem_of_getLast? h2

/-! ## One splice iteration preserves the loop invariant -/

theorem spliceStep_eq (world : World) (h : BufferId) {n : NRange}
    {NT : List Excerpt} {c : Cursor} :
    spliceStep world h ⟨(world h).path, h, n⟩ NT c =
      endBlock ⟨(world h).path, h, n⟩
        (push_excerpt (startBlock ⟨(world h).path, h, n⟩ NT c).1 (exOf world h n))
        (startBlock ⟨(world h).path, h, n⟩ NT c).2 := rfl

/-- The case in which the new range reaches back into the last
accumulated output range: the start block is a no-op and the push merges
into that range. -/
theorem spliceStep_specA (world : World) (h : BufferId) {R T : List NRange}
    {i : Nat} {n : NRange} {P : Nat → Prop} {L : NRange}
    (hR : canonR R) (hi : i ≤ R.length)
    (hcanon : canonR (T ++ R.drop i))
    (hpts : ∀ y, ptsIn T y ↔ (ptsIn (R.take i) y ∨ P y))
    (hP : ∀ y, P y → y < n.start)
    (h5 : ∀ k, k < i → ∀ x, R[k]? = some x → x.start < n.start)
    (h6 : ∀ k, k + 1 < i → ∀ x, R[k]? = some x → x.stop < n.start)
    (hn : n.start < n.stop)
    (hlast : T.getLast? = some L) (hsL : n.start ≤ L.stop) :
    ∃ T2 i2, spliceStep world h ⟨(world h).path, h, n⟩ (treeOf world h T)
        ⟨treeOf world h R, i⟩ = (treeOf world h T2, ⟨treeOf world h R, i2⟩) ∧
      i2 ≤ R.length ∧ canonR (T2 ++ R.drop i2) ∧
      (∀ y, ptsIn T2 y ↔
        (ptsIn (R.take i2) y ∨ P y ∨ (n.start ≤ y ∧ y < n.stop))) ∧
      (∀ k, k < i2 → ∀ x, R[k]? = some x → x.start ≤ n.stop) ∧
      (∀ k, k + 1 < i2 → ∀ x, R[k]? = some x → x.stop ≤ n.stop) := by
  have hwfR : ∀ r ∈ R, r.start ≤ r.stop := fun r hr => Nat.le_of_lt (hR.1 r hr)
  have hTdec : T = T.dropLast ++ [L] := getLast?_decomp hlast
  have hcanonT : canonR T := canonR_append_left hcanon
  have hgapRi : ∀ r ∈ R.drop i, L.stop < r.start := canon_last_gap hcanon hlast
  have hLne : L.start < L.stop := hcanonT.1 L (mem_of_getLast? hlast)
  have hchainT : List.Chain' gapRel (T.dropLast ++ [L]) := by
    rw [← hTdec]
    exact hcanonT.2
  have hstackA : List.Chain' gapRel T.dropLast := (List.chain'_append.mp hchainT).1
  have hjA : ∀ c, T.dropLast.getLast? = some c → c.stop < L.start := fun c hc =>
    (List.chain'_append.mp hchainT).2.2 c (Option.mem_def.mpr hc) L (by simp)
  have hAne : ∀ r ∈ T.dropLast, r.start < r.stop := by
    intro r hr
    refine hcanonT.1 r ?_
    rw [hTdec]
    exact List.mem_append_left _ hr
  have hLs : L.start < n.start := by
    by_contra hcon
    push_neg at hcon
    have hLpt : ptsIn T L.start := by
      rw [hTdec]
      exact ptsIn_append.mpr (Or.inr (ptsIn_single.mpr ⟨Nat.le_refl _, hLne⟩))
    rcases (hpts L.start).mp hLpt with hc | hc
    · obtain ⟨x, hx, hx1, hx2⟩ := hc
      obtain ⟨k, hk, hget⟩ := mem_take_idx hx
      have hxs := h5 k hk x hget
      have hxne : x.start < x.stop := hR.1 x (mem_of_getElem?_eq hget)
      have hsub := interval_in_last hcanonT hlast hxne
        (fun y hy1 hy2 => (hpts y).mpr (Or.inl ⟨x, hx, hy1, hy2⟩)) (by omega)
      omega
    · have := hP _ hc
      omega
  have hcase : R.length ≤ i ∨ ∃ r0, R[i]? = some r0 ∧ n.start < r0.start := by
    rcases Nat.lt_or_ge i R.length with hlen | hlen
    · refine Or.inr ⟨R[i], List.getElem?_eq_getElem hlen, ?_⟩
      have := hgapRi R[i]
        (mem_drop_of_getElem? (Nat.le_refl i) (List.getElem?_eq_getElem hlen))
      omega
    · exact Or.inl hlen
  have hsb := @startBlock_noop world h R i n (treeOf world h T) hwfR hcase
  have htchL : touchB L n = true := by
    rw [touchB_iff]
    omega
  have hpush : push_excerpt (treeOf world h T) (exOf world h n) =
      treeOf world h (T.dropLast ++ [⟨min L.start n.start, max L.stop n.stop⟩]) := by
    rw [push_treeOf, pushR_merge hlast htchL]
  have hcomb : spliceStep world h ⟨(world h).path, h, n⟩ (treeOf world h T)
      ⟨treeOf world h R, i⟩ =
      endBlock ⟨(world h).path, h, n⟩
        (treeOf world h (T.dropLast ++ [⟨min L.start n.start, max L.stop n.stop⟩]))
        ⟨treeOf world h R, i⟩ := by
    rw [spliceStep_eq, hsb]
    show endBlock _ (push_excerpt (treeOf world h T) (exOf world h n)) _ = _
    rw [hpush]
  have hm2 : canonR (T.dropLast ++
      [(⟨min L.start n.start, max L.stop n.stop⟩ : NRange)]) := by
    refine canonR_concat hstackA hAne ?_
      (show min L.start n.start < max L.stop n.stop by omega)
    intro c hc
    have := hjA c hc
    show c.stop < min L.start n.start
    omega
  have hm3 : ∀ r ∈ R.drop i,
      (⟨min L.start n.start, max L.stop n.stop⟩ : NRange).stop ≤ n.stop ∨
      (⟨min L.start n.start, max L.stop n.stop⟩ : NRange).stop < r.start := by
    intro r hr
    have := hgapRi r hr
    show max L.stop n.stop ≤ n.stop ∨ max L.stop n.stop < r.start
    omega
  have hm4 : ∀ k, k + 1 < i → ∀ x, R[k]? = some x → x.stop < n.stop :=
    fun k hk x hx => by have := h6 k hk x hx; omega
  have hm5 : ∀ k, k < i → ∀ x, R[k]? = some x → x.start ≤ n.stop :=
    fun k hk x hx => by have := h5 k hk x hx; omega
  have hm9 : ∀ r ∈ R.drop i, n.start ≤ r.start := by
    intro r hr
    have := hgapRi r hr
    omega
  have hm8 : ∀ y, ptsIn (T.dropLast ++
      [(⟨min L.start n.start, max L.stop n.stop⟩ : NRange)]) y ↔
      (ptsIn (R.take i) y ∨ P y ∨ (n.start ≤ y ∧ y < n.stop)) := by
    intro y
    have hptsS : (ptsIn T.dropLast y ∨ (L.start ≤ y ∧ y < L.stop)) ↔
        (ptsIn (R.take i) y ∨ P y) := by
      rw [← hpts y]
      conv_rhs => rw [hTdec]
      rw [ptsIn_append, ptsIn_single]
    simp only [ptsIn_append, ptsIn_single]
    constructor
    · rintro (hc | hc)
      · rcases hptsS.mp (Or.inl hc) with hd | hd
        · exact Or.inl hd
        · exact Or.inr (Or.inl hd)
      · rcases Nat.lt_or_ge y n.start with hy | hy
        · rcases hptsS.mp (Or.inr (by omega)) with hd | hd
          · exact Or.inl hd
          · exact Or.inr (Or.inl hd)
        · rcases Nat.lt_or_ge y n.stop with hy2 | hy2
          · exact Or.inr (Or.inr ⟨hy, hy2⟩)
          · rcases hptsS.mp (Or.inr (by omega)) with hd | hd
            · exact Or.inl hd
            · exact Or.inr (Or.inl hd)
    · rintro (hc | hc | hc)
      · rcases hptsS.mpr (Or.inl hc) with hd | hd
        · exact Or.inl hd
        · exact Or.inr (by omega)
      · rcases hptsS.mpr (Or.inr hc) with hd | hd
        · exact Or.inl hd
        · exact Or.inr (by omega)
      · exact Or.inr (by omega)
  obtain ⟨T2, i2, heq, hc1, hc2, hc3, hc4, hc5⟩ :=
    endBlock_invariant world h hR hn hi hm2 hm3 hm4 hm5 hm9
      (show n.stop ≤ max L.stop n.stop by omega)
      (show min L.start n.start ≤ n.start by omega) hm8
  exact ⟨T2, i2, by rw [hcomb]; exact heq, hc1, hc2, hc3, hc4, hc5⟩

/-- The case in which the last accumulated output range (if any) stops
before the new range: the start block slices, and the push appends or
merges with a surviving old range. -/
theorem spliceStep_specB (world : World) (h : BufferId) {R T : List NRange}
    {i : Nat} {n : NRange} {P : Nat → Prop}
    (hR : canonR R) (hi : i ≤ R.length)
    (hcanon : canonR (T ++ R.drop i))
    (hpts : ∀ y, ptsIn T y ↔ (ptsIn (R.take i) y ∨ P y))
    (hP : ∀ y, P y → y < n.start)
    (h5 : ∀ k, k < i → ∀ x, R[k]? = some x → x.start < n.start)
    (h6 : ∀ k, k + 1 < i → ∀ x, R[k]? = some x → x.stop < n.start)
    (hn : n.start < n.stop)
    (hlastT : ∀ c, T.getLast? = some c → c.stop < n.start) :
    ∃ T2 i2, spliceStep world h ⟨(world h).path, h, n⟩ (treeOf world h T)
        ⟨treeOf world h R, i⟩ = (treeOf world h T2, ⟨treeOf world h R, i2⟩) ∧
      i2 ≤ R.length ∧ canonR (T2 ++ R.drop i2) ∧
      (∀ y, ptsIn T2 y ↔
        (ptsIn (R.take i2) y ∨ P y ∨ (n.start ≤ y ∧ y < n.stop))) ∧
      (∀ k, k < i2 → ∀ x, R[k]? = some x → x.start ≤ n.stop) ∧
      (∀ k, k + 1 < i2 → ∀ x, R[k]? = some x → x.stop ≤ n.stop) := by
  have hwfR : ∀ r ∈ R, r.start ≤ r.stop := fun r hr => Nat.le_of_lt (hR.1 r hr)
  have hcanonT : canonR T := canonR_append_left hcanon
  have hgapT : ∀ c, T.getLast? = some c → ∀ r ∈ R.drop i, c.stop < r.start :=
    fun c hc => canon_last_gap hcanon hc
  have hstops : ∀ k, k < i → ∀ x, R[k]? = some x → x.stop < n.start := by
    intro k hk x hx
    cases hlast : T.getLast? with
    | none =>
      exfalso
      have hTnil : T = [] := by
        cases T with
        | nil => rfl
        | cons a t =>
          rw [List.getLast?_cons] at hlast
          simp at hlast
      have hne := hR.1 x (mem_of_getElem?_eq hx)
      have h2 := (hpts x.start).mpr
        (Or.inl ⟨x, getElem?_mem_take hk hx, Nat.le_refl _, hne⟩)
      rw [hTnil] at h2
      exact ptsIn_nil h2
    | some L =>
      have hne := hR.1 x (mem_of_getElem?_eq hx)
      have hcov : ptsIn T (x.stop - 1) :=
        (hpts _).mpr (Or.inl ⟨x, getElem?_mem_take hk hx, by omega, by omega⟩)
      have h2 := canon_lt_last hcanonT hlast _ hcov
      have h3 := hlastT L hlast
      omega
  have hpushap : ∀ (U : List NRange),
      (∀ c, U.getLast? = some c → c.stop < n.start) →
      push_excerpt (treeOf world h U) (exOf world h n) =
        treeOf world h (U ++ [n]) := by
    intro U hU
    rw [push_treeOf, pushR_append]
    intro c hc
    have := hU c hc
    cases hb : touchB c n with
    | false => rfl
    | true =>
      have := (touchB_iff.mp hb).2
      omega
  rcases Nat.lt_or_ge i R.length with hlen | hlen
  · by_cases hslt : n.start < R[i].start
    · -- the old range under the cursor starts past the key: no slice
      have hsb := @startBlock_noop world h R i n (treeOf world h T) hwfR
        (Or.inr ⟨R[i], List.getElem?_eq_getElem hlen, hslt⟩)
      have hcomb : spliceStep world h ⟨(world h).path, h, n⟩ (treeOf world h T)
          ⟨treeOf world h R, i⟩ =
          endBlock ⟨(world h).path, h, n⟩ (treeOf world h (T ++ [n]))
            ⟨treeOf world h R, i⟩ := by
        rw [spliceStep_eq, hsb]
        show endBlock _ (push_excerpt (treeOf world h T) (exOf world h n)) _ = _
        rw [hpushap T hlastT]
      have hm8 : ∀ y, ptsIn (T ++ [n]) y ↔
          (ptsIn (R.take i) y ∨ P y ∨ (n.start ≤ y ∧ y < n.stop)) := by
        intro y
        rw [ptsIn_append, ptsIn_single, hpts y]
        exact or_assoc
      obtain ⟨T2, i2, heq, hc1, hc2, hc3, hc4, hc5⟩ :=
        endBlock_invariant world h hR hn hi
          (canonR_concat hcanonT.2 hcanonT.1 hlastT hn)
          (fun r _ => Or.inl (Nat.le_refl _))
          (fun k hk x hx => by have := hstops k (by omega) x hx; omega)
          (fun k hk x hx => by
            have h1 := hstops k hk x hx
            have h2 := hR.1 x (mem_of_getElem?_eq hx)
            omega)
          (by
            intro r hr
            have := startLE_after hR (List.getElem?_eq_getElem hlen) r hr
            omega)
          (Nat.le_refl _) (Nat.le_refl _) hm8
      exact ⟨T2, i2, by rw [hcomb]; exact heq, hc1, hc2, hc3, hc4, hc5⟩
    · -- slice up to the key, then the cursor item decides the merge
      obtain ⟨P1, hP1⟩ : ∃ P1,
          (R.drop i).takeWhile (fun r => decide (r.stop < n.start)) = P1 := ⟨_, rfl⟩
      obtain ⟨s1, s2, s3⟩ := @startBlock_slice world h R i n R[i]
        (treeOf world h T) P1 hwfR (List.getElem?_eq_getElem hlen) hslt hP1
      have hP1pre : P1 = (R.drop i).take P1.length := by
        rw [← hP1]
        exact List.prefix_iff_eq_take.mp (List.takeWhile_prefix _)
      have hP1mem : ∀ r ∈ P1, r.stop < n.start := by
        intro r hr
        rw [← hP1] at hr
        simpa using List.mem_takeWhile_imp hr
      have hP1len : i + P1.length ≤ R.length := by
        have h1 : P1.length ≤ (R.drop i).length := by
          rw [← hP1]
          exact (List.takeWhile_prefix _).length_le
        rw [List.length_drop] at h1
        omega
      have htake : R.take (i + P1.length) = R.take i ++ P1 := by
        rw [take_split (show i ≤ i + P1.length by omega),
          show i + P1.length - i = P1.length by omega, ← hP1pre]
      have hmid : ∀ k, i ≤ k → k < i + P1.length → ∀ x, R[k]? = some x →
          x.stop < n.start := by
        intro k hk1 hk2 x hx
        have hx2 : (R.drop i)[k - i]? = some x := by
          rw [List.getElem?_drop, show i + (k - i) = k by omega]
          exact hx
        have hxm : x ∈ P1 := by
          rw [hP1pre]
          exact getElem?_mem_take (by omega) hx2
        exact hP1mem x hxm
      have hstops2 : ∀ k, k < i + P1.length → ∀ x, R[k]? = some x →
          x.stop < n.start := by
        intro k hk x hx
        rcases Nat.lt_or_ge k i with hki | hki
        · exact hstops k hki x hx
        · exact hmid k hki hk x hx
      have hdecD : P1 ++
          (R.drop i).dropWhile (fun r => decide (r.stop < n.start)) = R.drop i := by
        rw [← hP1]
        exact List.takeWhile_append_dropWhile _ _
      have hchainP1 : List.Chain' gapRel P1 := by
        have h2 := (canon_drop hR : canonR (R.drop i)).2
        rw [← hdecD] at h2
        exact (List.chain'_append.mp h2).1
      have hP1sub : ∀ r ∈ P1, r ∈ R.drop i := by
        intro r hr
        rw [← hdecD]
        exact List.mem_append_left _ hr
      have hTP1ne : ∀ r ∈ T ++ P1, r.start < r.stop := by
        intro r hr
        rcases List.mem_append.mp hr with hr | hr
        · exact hcanonT.1 r hr
        · exact hR.1 r (List.mem_of_mem_drop (hP1sub r hr))
      have hchainTP1 : List.Chain' gapRel (T ++ P1) := by
        refine List.chain'_append.mpr ⟨hcanonT.2, hchainP1, ?_⟩
        intro x hx y hy
        have hym : y ∈ P1 := by
          cases P1 with
          | nil => simp at hy
          | cons d t =>
            have hdy : d = y := by simpa using hy
            rw [← hdy]
            simp
        exact hgapT x (Option.mem_def.mp hx) y (hP1sub y hym)
      have hlastTP1 : ∀ c, (T ++ P1).getLast? = some c → c.stop < n.start := by
        intro c hc
        rcases getLast?_append_cases hc with hc2 | ⟨_, hc2⟩
        · exact hP1mem c hc2
        · exact hlastT c hc2
      have hlastgapTP1 : ∀ c, (T ++ P1).getLast? = some c →
          ∀ r2, R[i + P1.length]? = some r2 → c.stop < r2.start := by
        intro c hc r2 hr2
        rcases getLast?_append_cases hc with hc2 | ⟨_, hc2⟩
        · have hc3 : c ∈ (R.drop i).take P1.length := by
            rw [← hP1pre]
            exact hc2
          obtain ⟨k, hk, hget⟩ := mem_take_idx hc3
          have hget2 : R[i + k]? = some c := by
            rw [← List.getElem?_drop]
            exact hget
          exact gap_after hR hget2 r2 (mem_drop_of_getElem? (by omega) hr2)
        · exact hgapT c hc2 r2 (mem_drop_of_getElem? (Nat.le_add_right _ _) hr2)
      obtain ⟨hdec3, hmemD, hheadD⟩ :=
        @takeWhile_prefix_decomp NRange (fun r => decide (r.stop < n.start)) (R.drop i)
      have hr'stop : ∀ r2, R[i + P1.length]? = some r2 → n.start ≤ r2.stop := by
        intro r2 hr2
        have hd2 : (R.drop i).dropWhile (fun r => decide (r.stop < n.start)) =
            (R.drop i).drop P1.length := by
          have h2 := List.drop_left P1
            ((R.drop i).dropWhile (fun r => decide (r.stop < n.start)))
          rw [hdecD] at h2
          exact h2.symm
        have hhead : ((R.drop i).dropWhile
            (fun r => decide (r.stop < n.start))).head? = some r2 := by
          rw [hd2, List.head?_eq_getElem?, List.getElem?_drop, List.getElem?_drop,
            Nat.add_zero]
          exact hr2
        have := hheadD r2 hhead
        simp at this
        omega
      rcases hr2 : R[i + P1.length]? with _ | rp
      · -- the slice exhausts the old tree: only the key is pushed
        have hsb := s3 hr2
        have hcomb : spliceStep world h ⟨(world h).path, h, n⟩ (treeOf world h T)
            ⟨treeOf world h R, i⟩ =
            endBlock ⟨(world h).path, h, n⟩ (treeOf world h ((T ++ P1) ++ [n]))
              ⟨treeOf world h R, i + P1.length⟩ := by
          rw [spliceStep_eq, hsb]
          show endBlock _
            (push_excerpt (treeOf world h T ++ treeOf world h P1) (exOf world h n)) _ = _
          rw [← treeOf_append, hpushap (T ++ P1) hlastTP1]
        have hdropnil : R.drop (i + P1.length) = [] := by
          refine List.drop_eq_nil_of_le ?_
          by_contra hcon
          push_neg at hcon
          rw [List.getElem?_eq_getElem hcon] at hr2
          simp at hr2
        have hm8 : ∀ y, ptsIn ((T ++ P1) ++ [n]) y ↔
            (ptsIn (R.take (i + P1.length)) y ∨ P y ∨
              (n.start ≤ y ∧ y < n.stop)) := by
          intro y
          rw [ptsIn_append, ptsIn_append, ptsIn_single, htake, ptsIn_append, hpts y]
          tauto
        obtain ⟨T2, i2, heq, hc1, hc2, hc3, hc4, hc5⟩ :=
          endBlock_invariant world h hR hn hP1len
            (canonR_concat hchainTP1 hTP1ne hlastTP1 hn)
            (fun r _ => Or.inl (Nat.le_refl _))
            (fun k hk x hx => by have := hstops2 k (by omega) x hx; omega)
            (fun k hk x hx => by
              have h1 := hstops2 k hk x hx
              have h2 := hR.1 x (mem_of_getElem?_eq hx)
              omega)
            (by
              rw [hdropnil]
              intro r hr
              simp at hr)
            (Nat.le_refl _) (Nat.le_refl _) hm8
        exact ⟨T2, i2, by rw [hcomb]; exact heq, hc1, hc2, hc3, hc4, hc5⟩
      · by_cases htch : rp.start ≤ n.stop
        · -- the surviving range touches the key: consumed and merged
          have htchB : touchB rp n = true := by
            rw [touchB_iff]
            have := hr'stop rp hr2
            omega
          have hnoT : ∀ c, (T ++ P1).getLast? = some c → touchB c rp = false := by
            intro c hc
            have := hlastgapTP1 c hc rp hr2
            cases hb : touchB c rp with
            | false => rfl
            | true =>
              have := (touchB_iff.mp hb).2
              omega
          have hPU : push_excerpt (treeOf world h T ++ treeOf world h P1)
              (exOf world h rp) = treeOf world h ((T ++ P1) ++ [rp]) := by
            rw [← treeOf_append, push_treeOf, pushR_append hnoT]
          have hsb := s1 rp hr2 htchB _ hPU
          have hpushm : push_excerpt (treeOf world h ((T ++ P1) ++ [rp]))
              (exOf world h n) = treeOf world h ((T ++ P1) ++
                [⟨min rp.start n.start, max rp.stop n.stop⟩]) := by
            rw [push_treeOf, pushR_merge (List.getLast?_concat _) htchB,
              List.dropLast_concat]
          have hcomb : spliceStep world h ⟨(world h).path, h, n⟩ (treeOf world h T)
              ⟨treeOf world h R, i⟩ =
              endBlock ⟨(world h).path, h, n⟩
                (treeOf world h ((T ++ P1) ++
                  [⟨min rp.start n.start, max rp.stop n.stop⟩]))
                ⟨treeOf world h R, i + P1.length + 1⟩ := by
            rw [spliceStep_eq, hsb]
            show endBlock _
              (push_excerpt (treeOf world h ((T ++ P1) ++ [rp])) (exOf world h n)) _ = _
            rw [hpushm]
          have hr'lt : i + P1.length < R.length := (List.getElem?_eq_some.mp hr2).1
          have hr'ne : rp.start < rp.stop := hR.1 rp (mem_of_getElem?_eq hr2)
          have hr'stop2 : n.start ≤ rp.stop := hr'stop rp hr2
          have hm2 : canonR ((T ++ P1) ++
              [(⟨min rp.start n.start, max rp.stop n.stop⟩ : NRange)]) := by
            refine canonR_concat hchainTP1 hTP1ne ?_
              (show min rp.start n.start < max rp.stop n.stop by omega)
            intro c hc
            have h1 := hlastTP1 c hc
            have h2 := hlastgapTP1 c hc rp hr2
            show c.stop < min rp.start n.start
            omega
          have hm3 : ∀ r ∈ R.drop (i + P1.length + 1),
              (⟨min rp.start n.start, max rp.stop n.stop⟩ : NRange).stop ≤ n.stop ∨
              (⟨min rp.start n.start, max rp.stop n.stop⟩ : NRange).stop < r.start := by
            intro r hr
            have := gap_after hR hr2 r hr
            show max rp.stop n.stop ≤ n.stop ∨ max rp.stop n.stop < r.start
            omega
          have hm4 : ∀ k, k + 1 < i + P1.length + 1 → ∀ x, R[k]? = some x →
              x.stop < n.stop := by
            intro k hk x hx
            have := hstops2 k (by omega) x hx
            omega
          have hm5 : ∀ k, k < i + P1.length + 1 → ∀ x, R[k]? = some x →
              x.start ≤ n.stop := by
            intro k hk x hx
            rcases Nat.lt_or_ge k (i + P1.length) with hk2 | hk2
            · have h1 := hstops2 k hk2 x hx
              have h2 := hR.1 x (mem_of_getElem?_eq hx)
              omega
            · have hk3 : k = i + P1.length := by omega
              rw [hk3, hr2] at hx
              rw [← Option.some_inj.mp hx]
              exact htch
          have hm9 : ∀ r ∈ R.drop (i + P1.length + 1), n.start ≤ r.start := by
            intro r hr
            have := gap_after hR hr2 r hr
            omega
          have hm8 : ∀ y, ptsIn ((T ++ P1) ++
              [(⟨min rp.start n.start, max rp.stop n.stop⟩ : NRange)]) y ↔
              (ptsIn (R.take (i + P1.length + 1)) y ∨ P y ∨
                (n.start ≤ y ∧ y < n.stop)) := by
            intro y
            have htake1 : ptsIn (R.take (i + P1.length + 1)) y ↔
                (ptsIn (R.take (i + P1.length)) y ∨ (rp.start ≤ y ∧ y < rp.stop)) := by
              rw [List.take_succ, hr2]
              simp only [Option.toList_some]
              rw [ptsIn_append, ptsIn_single]
            rw [htake1, htake]
            simp only [ptsIn_append, ptsIn_single]
            constructor
            · rintro ((hc | hc) | hc)
              · rcases (hpts y).mp hc with hd | hd
                · exact Or.inl (Or.inl (Or.inl hd))
                · exact Or.inr (Or.inl hd)
              · exact Or.inl (Or.inl (Or.inr hc))
              · rcases Nat.lt_or_ge y n.start with hy | hy
                · exact Or.inl (Or.inr (by omega))
                · rcases Nat.lt_or_ge y n.stop with hy2 | hy2
                  · exact Or.inr (Or.inr ⟨hy, hy2⟩)
                  · exact Or.inl (Or.inr (by omega))
            · rintro (((hc | hc) | hc) | hc | hc)
              · exact Or.inl (Or.inl ((hpts y).mpr (Or.inl hc)))
              · exact Or.inl (Or.inr hc)
              · exact Or.inr (by omega)
              · exact Or.inl (Or.inl ((hpts y).mpr (Or.inr hc)))
              · exact Or.inr (by omega)
          obtain ⟨T2, i2, heq, hc1, hc2, hc3, hc4, hc5⟩ :=
            endBlock_invariant world h hR hn (by omega) hm2 hm3 hm4 hm5 hm9
              (show n.stop ≤ max rp.stop n.stop by omega)
              (show min rp.start n.start ≤ n.start by omega) hm8
          exact ⟨T2, i2, by rw [hcomb]; exact heq, hc1, hc2, hc3, hc4, hc5⟩
        · -- the surviving range starts past the key: the key is appended
          have htchB : touchB rp n = false := by
            cases hb : touchB rp n with
            | false => rfl
            | true => exact absurd (touchB_iff.mp hb).1 htch
          have hsb := s2 rp hr2 htchB
          have hcomb : spliceStep world h ⟨(world h).path, h, n⟩ (treeOf world h T)
              ⟨treeOf world h R, i⟩ =
              endBlock ⟨(world h).path, h, n⟩ (treeOf world h ((T ++ P1) ++ [n]))
                ⟨treeOf world h R, i + P1.length⟩ := by
            rw [spliceStep_eq, hsb]
            show endBlock _
              (push_excerpt (treeOf world h T ++ treeOf world h P1) (exOf world h n)) _ = _
            rw [← treeOf_append, hpushap (T ++ P1) hlastTP1]
          have hm8 : ∀ y, ptsIn ((T ++ P1) ++ [n]) y ↔
              (ptsIn (R.take (i + P1.length)) y ∨ P y ∨
                (n.start ≤ y ∧ y < n.stop)) := by
            intro y
            rw [ptsIn_append, ptsIn_append, ptsIn_single, htake, ptsIn_append, hpts y]
            tauto
          obtain ⟨T2, i2, heq, hc1, hc2, hc3, hc4, hc5⟩ :=
            endBlock_invariant world h hR hn hP1len
              (canonR_concat hchainTP1 hTP1ne hlastTP1 hn)
              (fun r _ => Or.inl (Nat.le_refl _))
              (fun k hk x hx => by have := hstops2 k (by omega) x hx; omega)
              (fun k hk x hx => by
                have h1 := hstops2 k hk x hx
                have h2 := hR.1 x (mem_of_getElem?_eq hx)
                omega)
              (by
                intro r hr
                rw [drop_eq_cons hr2] at hr
                rcases List.mem_cons.mp hr with hr | hr
                · rw [hr]
                  omega
                · have := gap_after hR hr2 r hr
                  have := hr'stop rp hr2
                  omega)
              (Nat.le_refl _) (Nat.le_refl _) hm8
          exact ⟨T2, i2, by rw [hcomb]; exact heq, hc1, hc2, hc3, hc4, hc5⟩
  · -- the cursor is already past the end of the old tree
    have hsb := @startBlock_noop world h R i n (treeOf world h T) hwfR (Or.inl hlen)
    have hcomb : spliceStep world h ⟨(world h).path, h, n⟩ (treeOf world h T)
        ⟨treeOf world h R, i⟩ =
        endBlock ⟨(world h).path, h, n⟩ (treeOf world h (T ++ [n]))
          ⟨treeOf world h R, i⟩ := by
      rw [spliceStep_eq, hsb]
      show endBlock _ (push_excerpt (treeOf world h T) (exOf world h n)) _ = _
      rw [hpushap T hlastT]
    have hm8 : ∀ y, ptsIn (T ++ [n]) y ↔
        (ptsIn (R.take i) y ∨ P y ∨ (n.start ≤ y ∧ y < n.stop)) := by
      intro y
      rw [ptsIn_append, ptsIn_single, hpts y]
      exact or_assoc
    obtain ⟨T2, i2, heq, hc1, hc2, hc3, hc4, hc5⟩ :=
      endBlock_invariant world h hR hn hi
        (canonR_concat hcanonT.2 hcanonT.1 hlastT hn)
        (fun r _ => Or.inl (Nat.le_refl _))
        (fun k hk x hx => by have := hstops k (by omega) x hx; omega)
        (fun k hk x hx => by
          have h1 := hstops k hk x hx
          have h2 := hR.1 x (mem_of_getElem?_eq hx)
          omega)
        (by
          rw [List.drop_eq_nil_of_le hlen]
          intro r hr
          simp at hr)
        (Nat.le_refl _) (Nat.le_refl _) hm8
    exact ⟨T2, i2, by rw [hcomb]; exact heq, hc1, hc2, hc3, hc4, hc5⟩

/-- One splice iteration preserves the loop invariant. -/
theorem spliceStep_spec (world : World) (h : BufferId) {R T : List NRange}
    {i : Nat} {n : NRange} {P : Nat → Prop}
    (hR : canonR R) (hi : i ≤ R.length)
    (hcanon : canonR (T ++ R.drop i))
    (hpts : ∀ y, ptsIn T y ↔ (ptsIn (R.take i) y ∨ P y))
    (hP : ∀ y, P y → y < n.start)
    (h5 : ∀ k, k < i → ∀ x, R[k]? = some x → x.start < n.start)
    (h6 : ∀ k, k + 1 < i → ∀ x, R[k]? = some x → x.stop < n.start)
    (hn : n.start < n.stop) :
    ∃ T2 i2, spliceStep world h ⟨(world h).path, h, n⟩ (treeOf world h T)
        ⟨treeOf world h R, i⟩ = (treeOf world h T2, ⟨treeOf world h R, i2⟩) ∧
      i2 ≤ R.length ∧ canonR (T2 ++ R.drop i2) ∧
      (∀ y, ptsIn T2 y ↔
        (ptsIn (R.take i2) y ∨ P y ∨ (n.start ≤ y ∧ y < n.stop))) ∧
      (∀ k, k < i2 → ∀ x, R[k]? = some x → x.start ≤ n.stop) ∧
      (∀ k, k + 1 < i2 → ∀ x, R[k]? = some x → x.stop ≤ n.stop) := by
  by_cases hA : ∃ L, T.getLast? = some L ∧ n.start ≤ L.stop
  · obtain ⟨L, hlast, hsL⟩ := hA
    exact spliceStep_specA world h hR hi hcanon hpts hP h5 h6 hn hlast hsL
  · push_neg at hA
    refine spliceStep_specB world h hR hi hcanon hpts hP h5 h6 hn ?_
    intro c hc
    have := hA c hc
    omega

/-- The whole splice loop over a canonical batch of single-buffer keys
preserves the invariant and accumulates the batch points. -/
theorem spliceLoop_spec (world : World) (h : BufferId) {R : List NRange}
    (hR : canonR R) :
    ∀ (M : List NRange) (T : List NRange) (i : Nat) (P : Nat → Prop),
    canonR M →
    i ≤ R.length → canonR (T ++ R.drop i) →
    (∀ y, ptsIn T y ↔ (ptsIn (R.take i) y ∨ P y)) →
    (∀ y, P y → ∀ m ∈ M, y < m.start) →
    (∀ k, k < i → ∀ x, R[k]? = some x → ∀ m ∈ M, x.start < m.start) →
    (∀ k, k + 1 < i → ∀ x, R[k]? = some x → ∀ m ∈ M, x.stop < m.start) →
    ∃ T2 i2, spliceLoop world (M.map fun r => (h, ⟨(world h).path, h, r⟩))
        (treeOf world h T) ⟨treeOf world h R, i⟩ =
        (treeOf world h T2, ⟨treeOf world h R, i2⟩) ∧
      i2 ≤ R.length ∧ canonR (T2 ++ R.drop i2) ∧
      (∀ y, ptsIn T2 y ↔ (ptsIn (R.take i2) y ∨ P y ∨ ptsIn M y)) := by
  intro M
  induction M with
  | nil =>
    intro T i P _ hi hcanon hpts _ _ _
    refine ⟨T, i, rfl, hi, hcanon, ?_⟩
    intro y
    rw [hpts y]
    constructor
    · rintro (hc | hc)
      · exact Or.inl hc
      · exact Or.inr (Or.inl hc)
    · rintro (hc | hc | hc)
      · exact Or.inl hc
      · exact Or.inr hc
      · exact absurd hc ptsIn_nil
  | cons n M2 ih =>
    intro T i P hM hi hcanon hpts hPb h5 h6
    have hn : n.start < n.stop := hM.1 n (by simp)
    have hgapM : ∀ m ∈ M2, n.stop < m.start := canon_head_gap hM
    obtain ⟨T1, i1, heq1, hd1, hd2, hd3, hd4, hd5⟩ :=
      spliceStep_spec world h hR hi hcanon hpts
        (fun y hy => hPb y hy n (by simp))
        (fun k hk x hx => h5 k hk x hx n (by simp))
        (fun k hk x hx => h6 k hk x hx n (by simp))
        hn
    obtain ⟨T2, i2, heq2, he1, he2, he3⟩ :=
      ih T1 i1 (fun y => P y ∨ (n.start ≤ y ∧ y < n.stop)) (canonR_tail hM)
        hd1 hd2 hd3
        (fun y hy m hm => by
          rcases hy with hy | hy
          · exact hPb y hy m (by simp [hm])
          · have := hgapM m hm
            omega)
        (fun k hk x hx m hm => by
          have h1 := hd4 k hk x hx
          have h2 := hgapM m hm
          omega)
        (fun k hk x hx m hm => by
          have h1 := hd5 k hk x hx
          have h2 := hgapM m hm
          omega)
    refine ⟨T2, i2, ?_, he1, he2, ?_⟩
    · show spliceLoop world (M2.map fun r => (h, ⟨(world h).path, h, r⟩))
          (spliceStep world h ⟨(world h).path, h, n⟩ (treeOf world h T)
            ⟨treeOf world h R, i⟩).1
          (spliceStep world h ⟨(world h).path, h, n⟩ (treeOf world h T)
            ⟨treeOf world h R, i⟩).2 = _
      rw [heq1]
      exact heq2
    · intro y
      rw [he3 y, ptsIn_cons]
      constructor
      · rintro (hc | (hc | hc) | hc)
        · exact Or.inl hc
        · exact Or.inr (Or.inl hc)
        · exact Or.inr (Or.inr (Or.inl hc))
        · exact Or.inr (Or.inr (Or.inr hc))
      · rintro (hc | hc | hc | hc)
        · exact Or.inl hc
        · exact Or.inr (Or.inl (Or.inl hc))
        · exact Or.inr (Or.inl (Or.inr hc))
        · exact Or.inr (Or.inr hc)

/-! ## The batch pipeline on a single buffer, at the range level -/

/-- The pair `insert_excerpts` builds for buffer `h` and range `r` after
normalization. -/
def pairOf (world : World) (h : BufferId) (r : NRange) : BufferId × ExcerptKey :=
  (h, ⟨(world h).path, h, r⟩)

theorem keyCmp_same {pth : Option PathC} {hb : BufferId} {a b : NRange} :
    ExcerptKey.cmp ⟨pth, hb, a⟩ ⟨pth, hb, b⟩ =
      (natCmp a.start b.start).then (natCmp b.stop a.stop) := by
  show (optPathCmp pth pth).then ((BufferId.cmp hb hb).then _) = _
  rw [optPathCmp_refl, bufferIdCmp_refl]
  rfl

theorem keyLE_pairOf {world : World} {h : BufferId} {a b : NRange} :
    keyLE (pairOf world h a) (pairOf world h b) = rangeLE a b := by
  unfold keyLE rangeLE pairOf
  rw [show ExcerptKey.cmp (⟨(world h).path, h, a⟩ : ExcerptKey)
    ⟨(world h).path, h, b⟩ = (natCmp a.start b.start).then (natCmp b.stop a.stop)
    from keyCmp_same]

theorem insertSorted_pairOf (world : World) (h : BufferId) (x : NRange) :
    ∀ (l : List NRange),
    insertSorted keyLE (pairOf world h x) (l.map (pairOf world h)) =
      (insertSorted rangeLE x l).map (pairOf world h) := by
  intro l
  induction l with
  | nil => rfl
  | cons y ys ih =>
    rw [List.map_cons]
    show (if keyLE (pairOf world h x) (pairOf world h y) then _ else _) = _
    rw [keyLE_pairOf]
    cases hb : rangeLE x y with
    | true =>
      simp only [if_true]
      rw [show insertSorted rangeLE x (y :: ys) = x :: y :: ys from by
        show (if rangeLE x y = true then x :: y :: ys
          else y :: insertSorted rangeLE x ys) = _
        rw [hb]
        simp]
      rfl
    | false =>
      simp only [Bool.false_eq_true, if_false]
      rw [show insertSorted rangeLE x (y :: ys) = y :: insertSorted rangeLE x ys from by
        show (if rangeLE x y = true then x :: y :: ys
          else y :: insertSorted rangeLE x ys) = _
        rw [hb]
        simp]
      rw [List.map_cons, ← ih]

theorem sortListBy_pairOf (world : World) (h : BufferId) :
    ∀ (l : List NRange),
    sortListBy keyLE (l.map (pairOf world h)) =
      (sortListBy rangeLE l).map (pairOf world h) := by
  intro l
  induction l with
  | nil => rfl
  | cons x xs ih =>
    show insertSorted keyLE (pairOf world h x)
        (sortListBy keyLE (xs.map (pairOf world h))) = _
    rw [ih]
    exact insertSorted_pairOf world h x (sortListBy rangeLE xs)

theorem dedupGo_pairOf (world : World) (h : BufferId) :
    ∀ (l : List NRange) (k : NRange),
    dedupGo (pairOf world h k) (l.map (pairOf world h)) =
      (dedupRGo k l).map (pairOf world h) := by
  intro l
  induction l with
  | nil => intro k; rfl
  | cons r rest ih =>
    intro k
    have hint : ExcerptKey.intersects (⟨(world h).path, h, r⟩ : ExcerptKey)
        ⟨(world h).path, h, k⟩ = touchB r k := intersects_exOf
    rw [List.map_cons]
    show (if ExcerptKey.intersects (⟨(world h).path, h, r⟩ : ExcerptKey)
        (pairOf world h k).2 = true
      then dedupGo ((pairOf world h k).1,
        widenKey (pairOf world h k).2 ⟨(world h).path, h, r⟩)
        (rest.map (pairOf world h))
      else pairOf world h k ::
        dedupGo (h, ⟨(world h).path, h, r⟩) (rest.map (pairOf world h))) = _
    rw [show ((pairOf world h k).2 : ExcerptKey) = ⟨(world h).path, h, k⟩ from rfl,
      hint]
    cases hb : touchB r k with
    | true =>
      simp only [if_true]
      rw [show dedupRGo k (r :: rest) = dedupRGo (widenR k r) rest from by
        show (if touchB r k = true then dedupRGo (widenR k r) rest
          else k :: dedupRGo r rest) = _
        rw [hb]
        simp]
      exact ih (widenR k r)
    | false =>
      simp only [Bool.false_eq_true, if_false]
      rw [show dedupRGo k (r :: rest) = k :: dedupRGo r rest from by
        show (if touchB r k = true then dedupRGo (widenR k r) rest
          else k :: dedupRGo r rest) = _
        rw [hb]
        simp]
      rw [List.map_cons, ← ih r]
      rfl

theorem dedupExcerpts_pairOf (world : World) (h : BufferId) :
    ∀ (l : List NRange),
    dedupExcerpts (l.map (pairOf world h)) = (dedupR l).map (pairOf world h) := by
  intro l
  cases l with
  | nil => rfl
  | cons x rest =>
    show dedupGo (pairOf world h x) (rest.map (pairOf world h)) = _
    rw [dedupGo_pairOf]
    rfl

theorem normalizePairs_map (world : World) (h : BufferId) :
    ∀ (bs : List NRange),
    normalizePairs world (bs.map fun r => (h, r)) =
      (bs.filter fun r => !r.isEmpty).map (pairOf world h) := by
  intro bs
  induction bs with
  | nil => rfl
  | cons r rest ih =>
    rw [List.map_cons]
    cases hb : r.isEmpty with
    | true =>
      have h1 : normalizePairs world ((h, r) :: rest.map fun r => (h, r)) =
          normalizePairs world (rest.map fun r => (h, r)) := by
        unfold normalizePairs
        rw [List.filterMap_cons]
        simp [hb]
      rw [h1, ih, List.filter_cons]
      simp [hb]
    | false =>
      have h1 : normalizePairs world ((h, r) :: rest.map fun r => (h, r)) =
          pairOf world h r :: normalizePairs world (rest.map fun r => (h, r)) := by
        unfold normalizePairs
        rw [List.filterMap_cons]
        simp [hb]
        rfl
      rw [h1, ih, List.filter_cons]
      simp [hb]

/-- `insert_excerpts` of a single-buffer batch, on a canonical tree over
an unchanged world and an empty buffer cache: the resulting tree is
canonical and covers exactly the old and new points. -/
theorem insert_excerpts_tree (world : World) (h : BufferId) {R : List NRange}
    (hR : canonR R) (mb : MultiBuffer)
    (hexc : mb.snapshot.excerpts = treeOf world h R)
    (hbs : mb.snapshot.buffer_snapshots = [])
    (bs : List NRange) :
    ∃ F, canonR F ∧
      (mb.insert_excerpts world (bs.map fun r => (h, r))).snapshot.excerpts =
        treeOf world h F ∧
      (mb.insert_excerpts world
        (bs.map fun r => (h, r))).snapshot.buffer_snapshots = [] ∧
      (∀ y, ptsIn F y ↔ (ptsIn R y ∨ ptsIn bs y)) := by
  have hsync : mb.sync world = mb := sync_nil hbs
  have hfilterEq : (bs.filter fun r => !r.isEmpty) =
      bs.filter fun r => decide (r.start < r.stop) := by
    refine List.filter_congr ?_
    intro r _
    simp [NRange.isEmpty]
  have hpipe : dedupExcerpts (sortListBy keyLE
      (normalizePairs world (bs.map fun r => (h, r)))) =
      (codeBatchR (bs.filter fun r => decide (r.start < r.stop))).map
        (pairOf world h) := by
    rw [normalizePairs_map, hfilterEq, sortListBy_pairOf, dedupExcerpts_pairOf]
    rfl
  have hne : ∀ r ∈ bs.filter (fun r => decide (r.start < r.stop)),
      r.start < r.stop := by
    intro r hr
    have := (List.mem_filter.mp hr).2
    simpa using this
  obtain ⟨hNcanon, hNpts⟩ := codeBatchR_canon hne
  have hbspts : ∀ y,
      ptsIn (codeBatchR (bs.filter fun r => decide (r.start < r.stop))) y ↔
      ptsIn bs y := by
    intro y
    rw [hNpts y, ptsIn_filter_nonempty]
  obtain ⟨N, hNdef⟩ : ∃ N,
      codeBatchR (bs.filter fun r => decide (r.start < r.stop)) = N := ⟨_, rfl⟩
  rw [hNdef] at hpipe hNcanon hbspts
  have hform : mb.insert_excerpts world (bs.map fun r => (h, r)) =
      (let state :=
        (match (N.map fun r =>
            ((h : BufferId), (⟨(world h).path, h, r⟩ : ExcerptKey))).head? with
        | some (_, key) =>
          (Cursor.mk (treeOf world h R) 0).slice (startOffset key) Bias.left
        | none => (([] : List Excerpt), Cursor.mk (treeOf world h R) 0))
      let state2 := spliceLoop world
        (N.map fun r => ((h : BufferId), (⟨(world h).path, h, r⟩ : ExcerptKey)))
        state.1 state.2
      { mb with snapshot := { mb.snapshot with
          excerpts := state2.1 ++ state2.2.suffix } }) := by
    simp only [MultiBuffer.insert_excerpts]
    rw [hsync, hpipe, hexc]
    rfl
  cases N with
  | nil =>
    refine ⟨R, hR, ?_, ?_, ?_⟩
    · rw [hform]
      rfl
    · rw [hform]
      exact hbs
    · intro y
      constructor
      · exact Or.inl
      · rintro (hc | hc)
        · exact hc
        · exact absurd ((hbspts y).mpr hc) ptsIn_nil
  | cons n0 N2 =>
    obtain ⟨P0, hP0⟩ : ∃ P0,
        R.takeWhile (fun r => decide (r.stop < n0.start)) = P0 := ⟨_, rfl⟩
    have hP0pre : P0 = R.take P0.length := by
      rw [← hP0]
      exact List.prefix_iff_eq_take.mp (List.takeWhile_prefix _)
    have hP0len : P0.length ≤ R.length := by
      rw [← hP0]
      exact (List.takeWhile_prefix _).length_le
    have hP0mem : ∀ r ∈ P0, r.stop < n0.start := by
      intro r hr
      rw [← hP0] at hr
      simpa using List.mem_takeWhile_imp hr
    have hslice : (Cursor.mk (treeOf world h R) 0).slice
        ⟨(world h).path, h, n0.start⟩ .left =
        (treeOf world h P0, ⟨treeOf world h R, P0.length⟩) := by
      unfold Cursor.slice
      rw [show (Cursor.mk (treeOf world h R) 0).all.drop
          (Cursor.mk (treeOf world h R) 0).pos = treeOf world h R from
        List.drop_zero _]
      rw [takeWhile_consumes_treeOf (fun r hr => Nat.le_of_lt (hR.1 r hr)), hP0]
      simp only [length_treeOf, Nat.zero_add]
    have hsplit0 : P0 ++ R.drop P0.length = R := by
      have h1 := List.take_append_drop P0.length R
      rw [← hP0pre] at h1
      exact h1
    have hcanon0 : canonR (P0 ++ R.drop P0.length) := by
      rw [hsplit0]
      exact hR
    have hpts0 : ∀ y, ptsIn P0 y ↔ (ptsIn (R.take P0.length) y ∨ False) := by
      intro y
      rw [← hP0pre]
      simp
    have hgapN : ∀ m ∈ N2, n0.stop < m.start := canon_head_gap hNcanon
    have hn0 : n0.start < n0.stop := hNcanon.1 n0 (by simp)
    have h50 : ∀ k, k < P0.length → ∀ x, R[k]? = some x →
        ∀ m ∈ n0 :: N2, x.start < m.start := by
      intro k hk x hx m hm
      have hxm : x ∈ P0 := by
        rw [hP0pre]
        exact getElem?_mem_take hk hx
      have h1 := hP0mem x hxm
      have h2 := hR.1 x (mem_of_getElem?_eq hx)
      rcases List.mem_cons.mp hm with hm | hm
      · rw [hm]
        omega
      · have := hgapN m hm
        omega
    have h60 : ∀ k, k + 1 < P0.length → ∀ x, R[k]? = some x →
        ∀ m ∈ n0 :: N2, x.stop < m.start := by
      intro k hk x hx m hm
      have hxm : x ∈ P0 := by
        rw [hP0pre]
        exact getElem?_mem_take (by omega) hx
      have h1 := hP0mem x hxm
      rcases List.mem_cons.mp hm with hm | hm
      · rw [hm]
        omega
      · have := hgapN m hm
        omega
    obtain ⟨T2, i2, heqL, hl1, hl2, hl3⟩ :=
      spliceLoop_spec world h hR (n0 :: N2) P0 P0.length (fun _ => False)
        hNcanon hP0len hcanon0 hpts0 (fun _ hy => hy.elim) h50 h60
    rw [List.map_cons] at heqL
    refine ⟨T2 ++ R.drop i2, hl2, ?_, ?_, ?_⟩
    · rw [hform]
      simp only [List.map_cons, List.head?_cons, startOffset, hslice]
      rw [heqL]
      show treeOf world h T2 ++ (treeOf world h R).drop i2 = _
      rw [drop_treeOf, ← treeOf_append]
    · rw [hform]
      exact hbs
    · intro y
      rw [ptsIn_append]
      have hRsplit : ptsIn R y ↔ (ptsIn (R.take i2) y ∨ ptsIn (R.drop i2) y) := by
        conv_lhs => rw [← List.take_append_drop i2 R]
        rw [ptsIn_append]
      constructor
      · rintro (hc | hc)
        · rcases (hl3 y).mp hc with hd | hd | hd
          · exact Or.inl (hRsplit.mpr (Or.inl hd))
          · exact hd.elim
          · exact Or.inr ((hbspts y).mp hd)
        · exact Or.inl (hRsplit.mpr (Or.inr hc))
      · rintro (hc | hc)
        · rcases hRsplit.mp hc with hd | hd
          · exact Or.inl ((hl3 y).mpr (Or.inl hd))
          · exact Or.inr hd
        · exact Or.inl ((hl3 y).mpr (Or.inr (Or.inr ((hbspts y).mpr hc))))

/-- The reference computation of the spec and the randomized test: sort
the union of all ranges, merge overlapping-or-touching ones, drop empty
ones, and emit each substring prefixed by the separator. -/
def refText (world : World) (h : BufferId) (rs : List NRange) : List Char :=
  ((refMergeRanges rs).map fun r => '\n' :: (world h).textFor r).flatten

/-- C2: union equivalence.  For any two batches of well-formed ranges
over the same buffer inserted via `insert_excerpts`, the emitted text
equals the reference computation on the union of all ranges, and the
reference is independent of batch order. -/
theorem insert_union_equivalence (world : World) (h : BufferId)
    (b1 b2 : List NRange) (hwf : ∀ r ∈ b1 ++ b2, r.start ≤ r.stop) :
    ((MultiBuffer.new.insert_excerpts world (b1.map fun r => (h, r))).insert_excerpts
        world (b2.map fun r => (h, r))).snapshot.text =
      refText world h (b1 ++ b2) ∧
    refText world h (b1 ++ b2) = refText world h (b2 ++ b1) := by
  have hnilcanon : canonR [] :=
    ⟨fun r hr => absurd hr (List.not_mem_nil r), List.chain'_nil⟩
  obtain ⟨F1, hF1c, hF1e, hF1b, hF1p⟩ :=
    @insert_excerpts_tree world h [] hnilcanon MultiBuffer.new rfl rfl b1
  obtain ⟨F2, hF2c, hF2e, hF2b, hF2p⟩ :=
    insert_excerpts_tree world h hF1c _ hF1e hF1b b2
  obtain ⟨hrefc, hrefp⟩ := refMergeRanges_canon hwf
  have hFeq : F2 = refMergeRanges (b1 ++ b2) := by
    refine canon_unique hF2c hrefc ?_
    intro y
    rw [hF2p y, hrefp y, ptsIn_append, hF1p y]
    have hnil := @ptsIn_nil y
    tauto
  constructor
  · unfold MultiBufferSnapshot.text refText
    rw [hF2e, hFeq]
    unfold treeOf
    rw [List.map_map]
    rfl
  · have hwf2 : ∀ r ∈ b2 ++ b1, r.start ≤ r.stop := by
      intro r hr
      refine hwf r ?_
      rcases List.mem_append.mp hr with hc | hc
      · exact List.mem_append_right _ hc
      · exact List.mem_append_left _ hc
    obtain ⟨hrefc2, hrefp2⟩ := refMergeRanges_canon hwf2
    have heq : refMergeRanges (b1 ++ b2) = refMergeRanges (b2 ++ b1) := by
      refine canon_unique hrefc hrefc2 ?_
      intro y
      rw [hrefp y, hrefp2 y, ptsIn_append, ptsIn_append]
      tauto
    unfold refText
    rw [heq]

theorem insert_union_equivalence_witness :
    (∀ r ∈ ([⟨0, 2⟩, ⟨5, 9⟩] ++ [⟨1, 6⟩] : List NRange), r.start ≤ r.stop) ∧
    (((MultiBuffer.new.insert_excerpts worldNoPath
        (([⟨0, 2⟩, ⟨5, 9⟩] : List NRange).map fun r => (bufA, r))).insert_excerpts
        worldNoPath
        (([⟨1, 6⟩] : List NRange).map fun r => (bufA, r))).snapshot.text =
      refText worldNoPath bufA ([⟨0, 2⟩, ⟨5, 9⟩] ++ [⟨1, 6⟩]) ∧
      refText worldNoPath bufA ([⟨0, 2⟩, ⟨5, 9⟩] ++ [⟨1, 6⟩]) =
        refText worldNoPath bufA ([⟨1, 6⟩] ++ [⟨0, 2⟩, ⟨5, 9⟩])) :=
  ⟨by decide, insert_union_equivalence worldNoPath bufA [⟨0, 2⟩, ⟨5, 9⟩] [⟨1, 6⟩]
    (by decide)⟩

end MultiBuffer2
